import Mathlib

/-!
Verification of the auditree-framework specification against a shallow
embedding of the source code.

Each section embeds one part of the Python source (file and function named
in the doc comments) as executable Lean definitions, and the claim theorems
at the end of the file settle the spec claims against those definitions.

Modelling conventions used throughout:
* Python timestamps and second counts are modelled as exact rationals
  (`Rat`); `datetime` subtraction is exact in Python (`timedelta` keeps
  days/seconds/microseconds), so rational arithmetic is the faithful
  idealisation.
* Python `dict`s are modelled as association lists updated with an
  `upsert` that keeps the first-insertion position and replaces the value,
  which is exactly CPython's dict-assignment semantics; Python `set`s are
  modelled as `Finset`s.
* A Python value that may be `None` is an `Option`.
-/

namespace AuditreeSpec

/-! ## Python dict assignment -/

/-- Model of the CPython dict assignment `m[k] = v` on an association list:
if the key is present its value is replaced in place, otherwise the pair is
appended (insertion order is preserved, as in CPython dicts). -/
def upsert {α : Type} (m : List (String × α)) (k : String) (v : α) : List (String × α) :=
  if m.any (fun q => q.1 = k) then
    m.map (fun q => if q.1 = k then (k, v) else q)
  else
    m ++ [(k, v)]

/-- Model of `m.get(k)` on an association list: the value stored at the first
occurrence of key `k`, if any. -/
def alookup {α : Type} (m : List (String × α)) (k : String) : Option α :=
  (m.find? (fun q => q.1 = k)).map (fun q => q.2)

/-! ## Locker TTL check

Embeds `Locker._evidence_ttl_expired` (src/compliance/locker.py, lines
937-943).  The source parses `last_update` from an ISO timestamp and
compares `(utcnow() - last_update).total_seconds()` with
`evidence.ttl - self.ttl_tolerance`; both sides are modelled as exact
rationals in seconds. -/

/-- Embedding of `Locker._evidence_ttl_expired`: `expired` starts `False`
and is set to `True` when `now - lastUpdate >= ttl - tolerance`. -/
def evidenceTtlExpired (ttl tolerance now lastUpdate : Rat) : Bool :=
  let timeDiff := now - lastUpdate
  if timeDiff ≥ ttl - tolerance then true else false

/-! ## Abandoned evidence

Embeds `Locker._evidence_abandoned` and `Locker.get_abandoned_evidences`
(src/compliance/locker.py, lines 746-762 and 950-960). -/

/-- Metadata fields of an index entry consulted by `_evidence_abandoned`:
`last_update` (absent or unparsable modelled as `none`) and `ttl`
(`metadata.get("ttl", 0)`). -/
structure AbandonMeta where
  lastUpdate : Option Rat := none
  ttl : Option Rat := none
deriving DecidableEq

/-- The constant `AE_DEFAULT = 30 * DAY` from src/compliance/locker.py. -/
def AE_DEFAULT : Rat := 30 * (60 * 60 * 24)

/-- Embedding of `Locker._evidence_abandoned`: abandoned when there is no
metadata or no `last_update`; otherwise abandoned iff
`now - last_update >= (threshold or AE_DEFAULT) + metadata.get("ttl", 0)`. -/
def evidenceAbandoned (metadata : Option AbandonMeta) (threshold : Option Rat) (now : Rat) :
    Bool :=
  match metadata with
  | none => true
  | some m =>
    match m.lastUpdate with
    | none => true
    | some lu =>
      let timeDiff := now - lu
      let th := threshold.getD AE_DEFAULT + m.ttl.getD 0
      if timeDiff ≥ th then true else false

/-- Embedding of `Locker.get_abandoned_evidences`: its input is the list of
evidence files at HEAD paired with the metadata found for each path
(`get_evidence_metadata` returns `None` when there is no index entry), and
the result is the set of paths judged abandoned by `_evidence_abandoned`. -/
def getAbandonedEvidences (evFiles : List (String × Option AbandonMeta))
    (threshold : Option Rat) (now : Rat) : Finset String :=
  ((evFiles.filter (fun pm => evidenceAbandoned pm.2 threshold now)).map
    (fun pm => pm.1)).toFinset

/-! ## Check result classification

Embeds `ComplianceCheckResult` (src/compliance/runners.py, lines 401-449)
and the `ComplianceCheck.run` wrapper (src/compliance/check.py, lines
240-257).  A `test_*` method run through the `unittest` harness either
raises a non-assertion exception (the harness calls `addError`), raises the
assertion `failureException` (the harness calls `addFailure`), or returns
normally (the harness calls `addSuccess`).  `ComplianceCheck.run` wraps the
method so that, after a normal return, `assertEquals(failures_count(), 0)`
runs — an assertion raise when the count is non-zero. -/

/-- Outcome of executing a test method body under the `unittest` harness. -/
inductive MethodOutcome where
  /-- The method raised an uncaught non-assertion exception. -/
  | raisedError : MethodOutcome
  /-- The method raised the `failureException` assertion. -/
  | raisedAssertion : MethodOutcome
  /-- The method returned normally. -/
  | completed : MethodOutcome
deriving DecidableEq

/-- Embedding of `ComplianceCheck.failures_count` /
`ComplianceCheck.warnings_count`: the accumulator is a dict from section
key to a list of items, and the count is the sum of the list lengths. -/
def accumCount (accum : List (String × List String)) : Nat :=
  (accum.map (fun kv => kv.2.length)).sum

/-- Embedding of the `check_failures` wrapper installed by
`ComplianceCheck.run`: a normal return is converted into an assertion raise
when `failures_count()` is non-zero, other outcomes pass through. -/
def wrappedOutcome (o : MethodOutcome) (failuresCount : Nat) : MethodOutcome :=
  match o with
  | .completed => if failuresCount = 0 then .completed else .raisedAssertion
  | x => x

/-- Embedding of the status recorded by `ComplianceCheckResult`:
`addError` records `error`, `addFailure` records `fail`, and `addSuccess`
records `pass` iff `test.warnings_count() == 0` else `warn`. -/
def recordedStatus (o : MethodOutcome) (warningsCount : Nat) : String :=
  match o with
  | .raisedError => "error"
  | .raisedAssertion => "fail"
  | .completed => if warningsCount = 0 then "pass" else "warn"

/-- Status recorded for a check test method: the method outcome goes
through the `ComplianceCheck.run` wrapper and is then classified by
`ComplianceCheckResult` against the accumulated failures and warnings. -/
def checkStatus (o : MethodOutcome) (failures warnings : List (String × List String)) :
    String :=
  recordedStatus (wrappedOutcome o (accumCount failures)) (accumCount warnings)

/-! ## SHA-256 and partition hashing

Embeds `get_sha256_hash` (src/compliance/utils/data_parse.py, lines
39-55).  The source feeds the UTF-8 encoding of `str(part)` for each key
part into `hashlib.sha256`; SHA-256 itself (FIPS 180-4) is implemented
here over byte lists, with 32-bit words as naturals reduced mod `2^32`. -/


def M32 : Nat := 4294967296

def rotr32 (n x : Nat) : Nat := ((x >>> n) ||| (x <<< (32 - n))) % M32

def chNat (e f g : Nat) : Nat := (e &&& f) ^^^ ((e ^^^ (M32 - 1)) &&& g)

def majNat (a b c : Nat) : Nat := (a &&& b) ^^^ (a &&& c) ^^^ (b &&& c)

def smallSigma0 (x : Nat) : Nat := rotr32 7 x ^^^ rotr32 18 x ^^^ (x >>> 3)

def smallSigma1 (x : Nat) : Nat := rotr32 17 x ^^^ rotr32 19 x ^^^ (x >>> 10)

def bigSigma0 (x : Nat) : Nat := rotr32 2 x ^^^ rotr32 13 x ^^^ rotr32 22 x

def bigSigma1 (x : Nat) : Nat := rotr32 6 x ^^^ rotr32 11 x ^^^ rotr32 25 x

def sha256K : List Nat :=
  [1116352408, 1899447441, 3049323471, 3921009573, 961987163,
   1508970993, 2453635748, 2870763221, 3624381080, 310598401,
   607225278, 1426881987, 1925078388, 2162078206, 2614888103,
   3248222580, 3835390401, 4022224774, 264347078, 604807628,
   770255983, 1249150122, 1555081692, 1996064986, 2554220882,
   2821834349, 2952996808, 3210313671, 3336571891, 3584528711,
   113926993, 338241895, 666307205, 773529912, 1294757372,
   1396182291, 1695183700, 1986661051, 2177026350, 2456956037,
   2730485921, 2820302411, 3259730800, 3345764771, 3516065817,
   3600352804, 4094571909, 275423344, 430227734, 506948616,
   659060556, 883997877, 958139571, 1322822218, 1537002063,
   1747873779, 1955562222, 2024104815, 2227730452, 2361852424,
   2428436474, 2756734187, 3204031479, 3329325298]

def sha256H0 : List Nat :=
  [1779033703, 3144134277, 1013904242, 2773480762, 1359893119,
   2600822924, 528734635, 1541459225]

def bytesBE : Nat → Nat → List Nat
  | 0, _ => []
  | k + 1, n => bytesBE k (n / 256) ++ [n % 256]

def sha256Pad (msg : List Nat) : List Nat :=
  let len := msg.length
  let z := (120 - (len + 1) % 64) % 64
  msg ++ [0x80] ++ List.replicate z 0 ++ bytesBE 8 (8 * len)

def toWordsBE : List Nat → List Nat
  | b0 :: b1 :: b2 :: b3 :: rest =>
    (((b0 * 256 + b1) * 256 + b2) * 256 + b3) :: toWordsBE rest
  | _ => []

def chunks64F : Nat → List Nat → List (List Nat)
  | 0, _ => []
  | _, [] => []
  | fuel + 1, x :: rest => ((x :: rest).take 64) :: chunks64F fuel ((x :: rest).drop 64)

def chunks64 (l : List Nat) : List (List Nat) := chunks64F l.length l

def buildSched (w : List Nat) : Nat → List Nat
  | 0 => w
  | fuel + 1 =>
    let n := w.length
    buildSched
      (w ++ [(smallSigma1 (w.getD (n - 2) 0) + w.getD (n - 7) 0 +
        smallSigma0 (w.getD (n - 15) 0) + w.getD (n - 16) 0) % M32]) fuel

def compressRound (state : List Nat) (kw : Nat × Nat) : List Nat :=
  match state with
  | [a, b, c, d, e, f, g, h] =>
    let t1 := (h + bigSigma1 e + chNat e f g + kw.1 + kw.2) % M32
    let t2 := (bigSigma0 a + majNat a b c) % M32
    [(t1 + t2) % M32, a, b, c, (d + t1) % M32, e, f, g]
  | s => s

def processChunk (h : List Nat) (chunk : List Nat) : List Nat :=
  let w := buildSched (toWordsBE chunk) 48
  let s := (sha256K.zip w).foldl compressRound h
  (h.zip s).map (fun p => (p.1 + p.2) % M32)

def sha256Bytes (msg : List Nat) : List Nat :=
  ((chunks64 (sha256Pad msg)).foldl processChunk sha256H0).flatMap (bytesBE 4)

def hexDigit (n : Nat) : Char := if n < 10 then Char.ofNat (48 + n) else Char.ofNat (87 + n)

def bytesToHex (bs : List Nat) : String := String.mk (bs.flatMap (fun b => [hexDigit (b / 16), hexDigit (b % 16)]))

def sha256Hex (msg : List Nat) : String := bytesToHex (sha256Bytes msg)

def utf8Bytes (c : Char) : List Nat :=
  let n := c.toNat
  if n < 0x80 then [n]
  else if n < 0x800 then [0xC0 + n / 64, 0x80 + n % 64]
  else if n < 0x10000 then [0xE0 + n / 4096, 0x80 + (n / 64) % 64, 0x80 + n % 64]
  else [0xF0 + n / 262144, 0x80 + (n / 4096) % 64, 0x80 + (n / 64) % 64, 0x80 + n % 64]

def strBytes (s : String) : List Nat := s.data.flatMap utf8Bytes

def getSha256Hash (key : List String) (size : Option Nat) : String :=
  let hex := sha256Hex ((key.map strBytes).flatten)
  let sz := match size with
    | none => 64
    | some n => if n = 0 ∨ n > 64 then 64 else n
  String.mk (hex.data.take sz)

/-! ## Fetcher dependency rerun loop

Embeds `Locker.get_dependency_reruns` (src/compliance/locker.py, lines
236-247) and the rerun loop of `ComplianceCLI._run`
(src/compliance/scripts/compliance_cli.py, lines 140-174). -/

/-- An entry of `Locker.dependency_rerun`, queued by
`get_evidence_dependency` when a fetcher dependency is unavailable. -/
structure RerunEntry where
  module : String
  /-- The `class` component of the queued rerun entry. -/
  cls : String
  method : String
deriving DecidableEq

/-- Embedding of `Locker.get_dependency_reruns`: the set comprehension
producing `module.class.method` dot paths for the queued entries. -/
def getDependencyReruns (dependencyRerun : List RerunEntry) : Finset String :=
  (dependencyRerun.map (fun r => r.module ++ "." ++ r.cls ++ "." ++ r.method)).toFinset

/-- Oracle for the effects of `FetchMode.run_fetchers`: the success flag of
the primary pass, the success flag of rerun pass `i` (for `i ≥ 1`), and the
`Locker.dependency_rerun` queue left behind by pass `i` (pass `0` is the
primary pass).  These values are produced by executing user fetchers, which
the CLI loop treats as a black box. -/
structure FetchRunOracle where
  primarySuccess : Bool
  rerunSuccess : Nat → Bool
  dependencyRerunAfter : Nat → List RerunEntry

/-- Result of the fetch portion of `ComplianceCLI._run`. -/
structure FetchRunOut where
  /-- The `success` flag when the rerun loop exits (before the final
  non-empty-reruns check). -/
  success : Bool
  /-- The `previous` variable when the rerun loop exits. -/
  previous : Finset String
  /-- The `reruns` variable when the rerun loop exits. -/
  reruns : Finset String
  /-- The number of rerun iterations executed. -/
  iterations : Nat
deriving DecidableEq

/-- Embedding of the CLI `while` loop
`while reruns and reruns != previous and rerun_count <= 100`.  The source
counts `rerun_count` from 1 up to 100; here `fuel` counts the remaining
permitted iterations (the loop is entered with `fuel = 100`, and
`rerun_count = iterations + 1`, so `rerun_count <= 100` is exactly
`fuel > 0`).  Each iteration runs `fetch.run_fetchers(reruns)` (which
resets the queue), folds its success flag into `success`, and re-collects
`get_dependency_reruns`. -/
def rerunLoop (oracle : FetchRunOracle) :
    Nat → Nat → Finset String → Finset String → Bool → FetchRunOut
  | 0, iters, previous, reruns, success =>
    { success := success, previous := previous, reruns := reruns, iterations := iters }
  | fuel + 1, iters, previous, reruns, success =>
    if reruns ≠ ∅ ∧ reruns ≠ previous then
      rerunLoop oracle fuel (iters + 1) reruns
        (getDependencyReruns (oracle.dependencyRerunAfter (iters + 1)))
        (oracle.rerunSuccess (iters + 1) && success)
    else
      { success := success, previous := previous, reruns := reruns, iterations := iters }

/-- Embedding of the fetch portion of `ComplianceCLI._run` followed by the
exit-code computation: run the primary pass, run the rerun loop, mark the
run failed when a non-empty rerun set remains, optionally fold in the check
phase success, and return `0` on success else `1`. -/
def cliFetchRun (oracle : FetchRunOracle) (checkSuccess : Option Bool) :
    FetchRunOut × Bool × Nat :=
  let r0 := getDependencyReruns (oracle.dependencyRerunAfter 0)
  let out := rerunLoop oracle 100 0 ∅ r0 oracle.primarySuccess
  let success1 := if out.reruns ≠ ∅ then false else out.success
  let finalSuccess := match checkSuccess with
    | none => success1
    | some cs => cs && success1
  (out, success1, if finalSuccess then 0 else 1)

/-! ## Multi-locker evidence fallback

Embeds `Locker.get_evidence` (src/compliance/locker.py, lines 509-543).
`_get_evidence` either returns a populated evidence object or raises; the
`except` clause catches only the two "missing" errors and then consults the
extra lockers in order, re-raising the primary's error if all of them also
miss. -/

/-- The errors `Locker._get_evidence` can raise, mirroring the exception
classes of src/compliance/utils/exceptions.py that flow through
`get_evidence`. -/
inductive LookupErr where
  | evidenceNotFound (msg : String)
  | historicalEvidenceNotFound (msg : String)
  | staleEvidence (msg : String)
  | unverifiedEvidence (msg : String)
  | valueError (msg : String)
deriving DecidableEq

/-- The `missing_errs` tuple of `Locker.get_evidence`:
`(EvidenceNotFoundError, HistoricalEvidenceNotFoundError)`. -/
def isMissingErr : LookupErr → Bool
  | .evidenceNotFound _ => true
  | .historicalEvidenceNotFound _ => true
  | _ => false

/-- A locker as seen by `get_evidence`: its identity and its
`_get_evidence` behaviour for each path (the payload of a successfully
loaded evidence object is kept opaque as a string). -/
structure LockerRef where
  id : Nat
  getEv : String → Except LookupErr String

/-- The evidence object returned by `get_evidence`: the loaded payload and
the `locker` attribute assigned before returning. -/
structure FoundEvidence where
  payload : String
  locker : Nat
deriving DecidableEq

/-- Embedding of the `for extra_locker in self._extra_lockers` fallback
loop: each extra locker is tried in order; a success is tagged with that
locker; a missing error continues to the next; any other error propagates;
exhaustion re-raises the primary's original missing error. -/
def tryExtraLockers (path : String) (missingErr : LookupErr) :
    List LockerRef → Except LookupErr FoundEvidence
  | [] => .error missingErr
  | l :: ls =>
    match l.getEv path with
    | .ok ev => .ok { payload := ev, locker := l.id }
    | .error e2 =>
      if isMissingErr e2 then tryExtraLockers path missingErr ls else .error e2

/-- Embedding of `Locker.get_evidence`: the primary `_get_evidence` result
is tagged with the primary locker on success; a missing error triggers the
extra-locker fallback; other errors propagate. -/
def getEvidence (primary : LockerRef) (extras : List LockerRef) (path : String) :
    Except LookupErr FoundEvidence :=
  match primary.getEv path with
  | .ok ev => .ok { payload := ev, locker := primary.id }
  | .error e => if isMissingErr e then tryExtraLockers path e extras else .error e

/-! ## Locker state, add_evidence and index

Embeds `Locker.add_evidence`, `Locker.index`, `Locker.remove_partitions`
and `Locker.create_tombstone_metadata` (src/compliance/locker.py, lines
271-439) together with the evidence path properties of
`_BaseEvidence` (src/compliance/evidence.py) and
`ComplianceAgent.get_path` (src/compliance/agent.py).

The locker's working tree is modelled as a map from relative file path to
content; the git index (`repo.index.add` / `repo.index.remove`) as a set of
staged paths; and each `index.json` file as an entry of `indexes` keyed by
its path (the JSON serialisation of index files is kept structured rather
than flattened to text).  Python `set` iteration order is unspecified; the
model iterates `dead_parts` in the key order of the previous `partitions`
dict, which only affects the order of tombstone entries. -/

/-- Python truthiness of an optional string (`None` and `""` are falsy). -/
def pyTruthyStr : Option String → Bool
  | none => false
  | some s => !(s == "")

/-- Model of Python `str.startswith`. -/
def pyStartsWith (s p : String) : Bool := p.data.isPrefixOf s.data

/-- A tombstone record appended by `Locker.create_tombstone_metadata`.  The
partition fields are only present for partition tombstones; `last_update`
and the partition metadata are read from the previous index entry. -/
structure Tombstone where
  eol : String
  lastUpdate : Option String
  reason : String
  partitionFields : Option (List String) := none
  partitionRoot : Option String := none
  partitionKey : Option (List String) := none
deriving DecidableEq

/-- An entry of an `index.json` file as written by `Locker.index`.  Keys
that the source only writes conditionally are `Option` fields (or `Bool`
fields for flags written only as `True`). -/
structure IndexEntry where
  lastUpdate : Option String := none
  ttl : Option Int := none
  description : Option String := none
  agentName : Option String := none
  digest : Option String := none
  signature : Option String := none
  empty : Bool := false
  partitionFields : Option (List String) := none
  partitionRoot : Option String := none
  partitions : Option (List (String × List String)) := none
  tombstones : Option (List (String × List Tombstone)) := none
  binaryContent : Bool := false
  filteredContent : Bool := false
  checks : Option (List String) := none
  evidenceUsed : Option (List String) := none
deriving DecidableEq

/-- The evidence object as consumed by `Locker.add_evidence`: identity and
metadata attributes of `_BaseEvidence`/`RawEvidence`.  `partitionKeys` and
`getPartition` model the `RawEvidence.partition_keys` and
`RawEvidence.get_partition` members (computed from the JSON content in the
source); `isEmpty` models the derived `is_empty` property. -/
structure EvidenceObj where
  /-- `evidence.agent.name`; the agent-scoped path prefix is applied when
  present (`ComplianceAgent.get_path` with `use_agent_dir`). -/
  agentName : Option String := none
  /-- The `EVIDENCE_TYPE` tag: `raw`, `derived`, `reports`, `tmp`, or
  `external`. -/
  kind : String
  category : String
  name : String
  content : Option String := none
  ttl : Int := 86400
  description : String := ""
  digest : Option String := none
  signature : Option String := none
  isEmpty : Bool := false
  binaryContent : Bool := false
  filteredContent : Bool := false
  isPartitioned : Bool := false
  partFields : Option (List String) := none
  partRoot : Option String := none
  partitionKeys : List (List String) := []
  getPartition : List String → String := fun _ => ""

/-- Embedding of `_BaseEvidence.rootdir` via `ComplianceAgent.get_path`:
`agents/<agent>/<kind>` when an agent name is present, else `<kind>`. -/
def rootdir (e : EvidenceObj) : String :=
  match e.agentName with
  | some n => "agents" ++ "/" ++ n ++ "/" ++ e.kind
  | none => e.kind

/-- Embedding of `_BaseEvidence.dir_path`. -/
def dirPath (e : EvidenceObj) : String := rootdir e ++ "/" ++ e.category

/-- Embedding of `_BaseEvidence.path`. -/
def evidencePath (e : EvidenceObj) : String := dirPath e ++ "/" ++ e.name

/-- The partition file name `f"{get_sha256_hash(key, 10)}_{evidence.name}"`
for a given hash. -/
def partFileName (e : EvidenceObj) (h : String) : String := h ++ "_" ++ e.name

/-- Full path of a partition file in the evidence's directory. -/
def partFilePath (e : EvidenceObj) (h : String) : String :=
  dirPath e ++ "/" ++ partFileName e h

/-- Embedding of `Locker.get_index_file`: the evidence path with its last
component replaced by `index.json`. -/
def indexFilePath (e : EvidenceObj) : String := dirPath e ++ "/" ++ "index.json"

/-- The locker state touched by `add_evidence`: working-tree files (path to
content), the set of paths staged in the git index, and the parsed contents
of each `index.json` file. -/
structure LockerState where
  files : List (String × String) := []
  staged : Finset String := ∅
  indexes : List (String × List (String × IndexEntry)) := []
deriving DecidableEq

/-- Model of `Path(...).write_text` / `write_bytes`: create or overwrite a
working-tree file. -/
def writeFile (st : LockerState) (p c : String) : LockerState :=
  { st with files := upsert st.files p c }

/-- Model of `repo.index.remove(paths, working_tree=True)`: the paths leave
both the git index and the working tree. -/
def removeFiles (st : LockerState) (ps : Finset String) : LockerState :=
  { st with files := st.files.filter (fun q => q.1 ∉ ps),
            staged := st.staged \ ps }

/-- Model of `repo.index.add(paths)`. -/
def stageFiles (st : LockerState) (ps : List String) : LockerState :=
  { st with staged := st.staged ∪ ps.toFinset }

/-- Whether a working-tree file exists (`Path(...).is_file()`). -/
def fileExists (st : LockerState) (p : String) : Bool :=
  st.files.any (fun q => q.1 = p)

/-- Model of `tombstones.setdefault(key, []).append(t)`. -/
def appendTomb (tombs : List (String × List Tombstone)) (k : String) (t : Tombstone) :
    List (String × List Tombstone) :=
  match alookup tombs k with
  | some ts => upsert tombs k (ts ++ [t])
  | none => tombs ++ [(k, [t])]

/-- Embedding of `Locker.create_tombstone_metadata` for a string candidate
(the evidence file name): one tombstone with `eol`, the previous
`last_update` and the reason. -/
def createTombstoneName (commitDate : String) (candidate : String) (evMeta : IndexEntry)
    (reason : String) : List (String × List Tombstone) :=
  appendTomb (evMeta.tombstones.getD []) candidate
    { eol := commitDate, lastUpdate := evMeta.lastUpdate, reason := reason }

/-- Embedding of `Locker.create_tombstone_metadata` for an iterable of
partition hashes: one tombstone per hash carrying the previous entry's
`last_update`, `partition_fields`, `partition_root` and the hash's
`partition_key`. -/
def createTombstoneParts (commitDate : String) (parts : List String) (evMeta : IndexEntry)
    (reason : String) : List (String × List Tombstone) :=
  parts.foldl
    (fun tombs part =>
      appendTomb tombs part
        { eol := commitDate, lastUpdate := evMeta.lastUpdate, reason := reason,
          partitionFields := evMeta.partitionFields,
          partitionRoot := evMeta.partitionRoot,
          partitionKey := alookup (evMeta.partitions.getD []) part })
    (evMeta.tombstones.getD [])

/-- Embedding of `Locker.remove_partitions`: no-op for an empty iterable,
otherwise remove the partition files for the given hashes from the git
index and the working tree. -/
def removePartitions (st : LockerState) (e : EvidenceObj) (hashes : List String) :
    LockerState :=
  if hashes = [] then st
  else removeFiles st (hashes.map (partFilePath e)).toFinset

/-- Final decoration of the new index entry by `Locker.index`: attach the
tombstones when present and non-empty (`if tombstones:`), the content
flags (written only when true), and the `checks` and `evidence` payloads
when supplied. -/
def decorateEntry (entry : IndexEntry)
    (tombs : Option (List (String × List Tombstone)))
    (checks evidenceUsed : Option (List String)) (e : EvidenceObj) : IndexEntry :=
  let entryT := match tombs with
    | some ts => if ts ≠ [] then { entry with tombstones := some ts } else entry
    | none => entry
  let entryF := { entryT with binaryContent := e.binaryContent,
                              filteredContent := e.filteredContent }
  let entryC := match checks with
    | some cs => { entryF with checks := some cs }
    | none => entryF
  match evidenceUsed with
  | some eu => { entryC with evidenceUsed := some eu }
  | none => entryC

/-- The tail of `Locker.index`: decorate the new entry, store it under the
evidence name, write the index file and stage `repo_files`. -/
def finishIndex (st : LockerState) (indexFile : String)
    (metadata : List (String × IndexEntry)) (name : String) (entry : IndexEntry)
    (tombs : Option (List (String × List Tombstone))) (repoFiles : List String)
    (checks evidenceUsed : Option (List String)) (e : EvidenceObj) : LockerState :=
  stageFiles
    { st with indexes := (upsert st.indexes indexFile
        (upsert metadata name (decorateEntry entry tombs checks evidenceUsed e))) }
    repoFiles

/-- The parsed contents of the evidence's index file
(`json.loads(index_file.read_text())` when the file exists, else the fresh
`metadata = {}`). -/
def metadataOf (st : LockerState) (e : EvidenceObj) : List (String × IndexEntry) :=
  (alookup st.indexes (indexFilePath e)).getD []

/-- The previous entry for the evidence:
`ev_meta = metadata.get(evidence.name, {})`. -/
def evMetaOf (st : LockerState) (e : EvidenceObj) : IndexEntry :=
  (alookup (metadataOf st e) e.name).getD {}

/-- The previous partition hashes:
`old_parts = ev_meta.get("partitions", {}).keys()`. -/
def oldPartsOf (st : LockerState) (e : EvidenceObj) : List String :=
  ((evMetaOf st e).partitions.getD []).map (fun q => q.1)

/-- The new entry assembled by `Locker.index` before the transition rules:
`last_update`, `ttl`, `description`, the signature triple when the evidence
is signed, and the `empty` flag. -/
def baseEntry (commitDate : String) (e : EvidenceObj) : IndexEntry :=
  let entry0 : IndexEntry :=
    { lastUpdate := some commitDate, ttl := some e.ttl,
      description := some e.description }
  let entry1 := if pyTruthyStr e.signature then
      { entry0 with agentName := e.agentName, digest := e.digest,
                    signature := e.signature }
    else entry0
  if e.isEmpty then { entry1 with empty := true } else entry1

/-- The `parts` dict `{hash: key}` built by the partition loop of
`Locker.index`. -/
def partsDict (e : EvidenceObj) : List (String × List String) :=
  e.partitionKeys.foldl (fun m k => upsert m (getSha256Hash k (some 10)) k) []

/-- `repo_files` accumulated for partitioned evidence: the index file plus
one partition file per partition key. -/
def partRepoFiles (e : EvidenceObj) : List String :=
  indexFilePath e ::
    e.partitionKeys.map (fun k => partFilePath e (getSha256Hash k (some 10)))

/-- `dead_parts = set(old_parts) - set(parts.keys())`, iterated in the key
order of the previous `partitions` dict. -/
def deadPartsOf (st : LockerState) (e : EvidenceObj) : List String :=
  (oldPartsOf st e).filter (fun h => ¬ h ∈ (partsDict e).map (fun q => q.1))

/-- The working-tree and git-index file removals performed by the
partitioned branch of `Locker.index`: the unpartitioned evidence file when
present, then the dead partition files when there are any. -/
def partDiskTransition (st : LockerState) (e : EvidenceObj) : LockerState :=
  let unpartitioned := evidencePath e
  let st1 := if fileExists st unpartitioned then removeFiles st {unpartitioned}
    else st
  if deadPartsOf st e ≠ [] then removePartitions st1 e (deadPartsOf st e) else st1

/-- The tombstones produced by the partitioned branch of `Locker.index`:
tombstone the unpartitioned file when it was on disk, tombstone the dead
partitions when there are any, otherwise preserve the prior tombstones. -/
def partTombs (st : LockerState) (commitDate : String) (e : EvidenceObj) :
    Option (List (String × List Tombstone)) :=
  let evMeta := evMetaOf st e
  let tombs1 : Option (List (String × List Tombstone)) :=
    if fileExists st (evidencePath e) then
      some (createTombstoneName commitDate e.name evMeta "Evidence is partitioned")
    else none
  let tombs2 := if deadPartsOf st e ≠ [] then
      some (createTombstoneParts commitDate (deadPartsOf st e) evMeta
        "Partition no longer part of evidence")
    else tombs1
  match tombs2 with
  | none => evMeta.tombstones
  | some t => some t

/-- The new index entry for partitioned evidence: the base entry plus
`partition_fields`, `partition_root` and the `partitions` dict. -/
def partEntry (commitDate : String) (e : EvidenceObj) : IndexEntry :=
  { baseEntry commitDate e with
      partitionFields := e.partFields, partitionRoot := e.partRoot,
      partitions := some (partsDict e) }

/-- Embedding of `Locker.index`: read the existing entry and its partition
hashes, build the new entry, apply the partitioned/unpartitioned transition
rules (file removals and tombstones), then write the index file and stage
the affected files. -/
def indexOp (st : LockerState) (commitDate : String) (e : EvidenceObj)
    (checks evidenceUsed : Option (List String)) : LockerState :=
  if e.isPartitioned then
    finishIndex (partDiskTransition st e) (indexFilePath e) (metadataOf st e) e.name
      (partEntry commitDate e) (partTombs st commitDate e) (partRepoFiles e)
      checks evidenceUsed e
  else
    finishIndex (removePartitions st e (oldPartsOf st e)) (indexFilePath e)
      (metadataOf st e) e.name (baseEntry commitDate e)
      (some (createTombstoneParts commitDate (oldPartsOf st e) (evMetaOf st e)
        "Evidence no longer partitioned"))
      [indexFilePath e, evidencePath e] checks evidenceUsed e

/-- Embedding of `Locker.add_evidence`: `None` content raises; partitioned
evidence writes one file per partition key, unpartitioned evidence writes a
single file (text or bytes); evidence whose locker path starts with `tmp/`
is not indexed, all other evidence goes through `Locker.index`. -/
def addEvidence (st : LockerState) (commitDate : String) (e : EvidenceObj)
    (checks evidenceUsed : Option (List String)) : Option LockerState :=
  match e.content with
  | none => none
  | some c =>
    let st1 :=
      if e.isPartitioned then
        e.partitionKeys.foldl
          (fun s k =>
            writeFile s (partFilePath e (getSha256Hash k (some 10))) (e.getPartition k))
          st
      else writeFile st (evidencePath e) c
    if pyStartsWith (evidencePath e) "tmp/" then some st1
    else some (indexOp st1 commitDate e checks evidenceUsed)

/-- The index entry currently recorded for an evidence (the entry of its
`index.json` keyed by its name). -/
def indexEntryOf (st : LockerState) (e : EvidenceObj) : Option IndexEntry :=
  (alookup st.indexes (indexFilePath e)).bind (fun m => alookup m e.name)

/-! ## JSON values, canonical formatting and parsing

Embeds `format_json` (src/compliance/utils/data_parse.py, lines 58-73),
which is `json.dumps(data, indent=2, sort_keys=True, separators=(",", ": "))`,
and the `json.loads` used by `_BaseEvidence.set_content`
(src/compliance/evidence.py, lines 218-235).

The Python `json` stdlib is modelled for the JSON value domain used by the
framework with these documented restrictions: numbers are integers (floats
are out of scope for a shallow embedding), the parser accepts leading
zeros that strict JSON rejects, and lone UTF-16 surrogates (which CPython
can represent in `str` but Lean's `Char` cannot) are rejected.  String
escaping follows `json.dumps`'s default `ensure_ascii=True`: ASCII
printables are literal, the standard two-character escapes are used, and
everything else becomes `\uXXXX` (with surrogate pairs above U+FFFF). -/

/-- A JSON value; object entries are kept in insertion order like CPython
dicts. -/
inductive JVal where
  | null : JVal
  | bool (b : Bool) : JVal
  | num (n : Int) : JVal
  | str (s : String) : JVal
  | arr (xs : List JVal) : JVal
  | obj (kvs : List (String × JVal)) : JVal

/-- The opening brace character. -/
def lbrace : Char := Char.ofNat 123

/-- The closing brace character. -/
def rbrace : Char := Char.ofNat 125

/-- Decimal digit character. -/
def digitChar (n : Nat) : Char := Char.ofNat (48 + n)

/-- Whether a character is a decimal digit. -/
def isDigitChar (c : Char) : Bool := decide (48 ≤ c.toNat ∧ c.toNat ≤ 57)

/-- Decimal digits of a natural number, least significant first; `fuel`
bounds the recursion and any `fuel > n` is enough. -/
def natReprRev : Nat → Nat → List Char
  | 0, _ => []
  | fuel + 1, n =>
    if n < 10 then [digitChar n] else digitChar (n % 10) :: natReprRev fuel (n / 10)

/-- Python `repr` of a natural number. -/
def natRepr (n : Nat) : List Char := (natReprRev (n + 1) n).reverse

/-- Python `repr` of an integer as emitted by `json.dumps`. -/
def intRepr (n : Int) : List Char :=
  if n < 0 then '-' :: natRepr (-n).toNat else natRepr n.toNat

/-- Four lowercase hex digits, as in a `\uXXXX` escape. -/
def hex4 (n : Nat) : List Char :=
  [hexDigit (n / 4096 % 16), hexDigit (n / 256 % 16), hexDigit (n / 16 % 16),
   hexDigit (n % 16)]

/-- Encoding of one character by `json.dumps` with `ensure_ascii=True`:
the two-character escapes for `"`, `\` and the control shorthands, `\uXXXX`
for other control and non-ASCII characters, and a surrogate pair for
characters above U+FFFF. -/
def encChar (c : Char) : List Char :=
  let n := c.toNat
  if c = '"' then ['\\', '"']
  else if c = '\\' then ['\\', '\\']
  else if n = 8 then ['\\', 'b']
  else if n = 9 then ['\\', 't']
  else if n = 10 then ['\\', 'n']
  else if n = 12 then ['\\', 'f']
  else if n = 13 then ['\\', 'r']
  else if n < 32 then '\\' :: 'u' :: hex4 n
  else if n < 127 then [c]
  else if n < 65536 then '\\' :: 'u' :: hex4 n
  else
    ('\\' :: 'u' :: hex4 (55296 + (n - 65536) / 1024)) ++
      ('\\' :: 'u' :: hex4 (56320 + (n - 65536) % 1024))

/-- A JSON string literal with its quotes. -/
def encStr (s : String) : List Char := '"' :: s.data.flatMap encChar ++ ['"']

/-- Insert an entry into a key-sorted entry list, after any equal keys
(Python's `sorted` on unique dict keys). -/
def insertSorted (p : String × JVal) : List (String × JVal) → List (String × JVal)
  | [] => [p]
  | q :: qs => if p.1 < q.1 then p :: q :: qs else q :: insertSorted p qs

/-- Sort object entries by key, as `json.dumps(sort_keys=True)` does. -/
def sortEntries (es : List (String × JVal)) : List (String × JVal) :=
  es.foldr insertSorted []

mutual

/-- Recursively sort every object's entries by key.  `json.dumps` with
`sort_keys=True` applies this ordering while printing; factoring it out
lets the printer below be order-preserving. -/
def canon : JVal → JVal
  | .null => .null
  | .bool b => .bool b
  | .num n => .num n
  | .str s => .str s
  | .arr xs => .arr (canonList xs)
  | .obj kvs => .obj (sortEntries (canonEntries kvs))

/-- `canon` mapped over array elements. -/
def canonList : List JVal → List JVal
  | [] => []
  | x :: xs => canon x :: canonList xs

/-- `canon` mapped over object entry values. -/
def canonEntries : List (String × JVal) → List (String × JVal)
  | [] => []
  | q :: qs => (q.1, canon q.2) :: canonEntries qs

end

/-- The newline-plus-indent emitted between items by `json.dumps` with
`indent=2`. -/
def nlIndent (lvl : Nat) : List Char := '\n' :: List.replicate (2 * lvl) ' '

mutual

/-- The characters emitted for a value by
`json.dumps(..., indent=2, separators=(",", ": "))` at nesting level
`lvl`, for a value whose objects are already key-sorted (see `canon`).
Empty containers print as `[]` and `{}` with no inner newline, exactly as
`json.dumps` does. -/
def fmtVal : Nat → JVal → List Char
  | _, .null => ['n', 'u', 'l', 'l']
  | _, .bool true => ['t', 'r', 'u', 'e']
  | _, .bool false => ['f', 'a', 'l', 's', 'e']
  | _, .num n => intRepr n
  | _, .str s => encStr s
  | _, .arr [] => ['[', ']']
  | lvl, .arr (x :: xs) =>
    '[' :: nlIndent (lvl + 1) ++ fmtVal (lvl + 1) x ++ fmtArrItems (lvl + 1) xs ++
      nlIndent lvl ++ [']']
  | _, .obj [] => [lbrace, rbrace]
  | lvl, .obj (q :: qs) =>
    lbrace :: nlIndent (lvl + 1) ++ fmtEntry (lvl + 1) q ++ fmtObjItems (lvl + 1) qs ++
      nlIndent lvl ++ [rbrace]

/-- Item separator `","` followed by the indent newline, then the item. -/
def fmtArrItems : Nat → List JVal → List Char
  | _, [] => []
  | lvl, x :: xs => ',' :: nlIndent lvl ++ fmtVal lvl x ++ fmtArrItems lvl xs

/-- A key with the `": "` key separator and its value. -/
def fmtEntry : Nat → String × JVal → List Char
  | lvl, q => encStr q.1 ++ ':' :: ' ' :: fmtVal lvl q.2

/-- Item separator and indent between object entries. -/
def fmtObjItems : Nat → List (String × JVal) → List Char
  | _, [] => []
  | lvl, q :: qs => ',' :: nlIndent lvl ++ fmtEntry lvl q ++ fmtObjItems lvl qs

end

/-- Embedding of `format_json`:
`json.dumps(data, indent=2, sort_keys=True, separators=(",", ": "))`. -/
def formatJson (v : JVal) : String := String.mk (fmtVal 0 (canon v))

/-! ### JSON parsing (`json.loads`) -/

/-- Skip JSON whitespace. -/
def skipWs : List Char → List Char
  | [] => []
  | c :: cs =>
    if c = ' ' ∨ c = '\t' ∨ c = '\n' ∨ c = Char.ofNat 13 then skipWs cs else c :: cs

/-- Longest digit run at the head of the input. -/
def takeDigits : List Char → List Char × List Char
  | [] => ([], [])
  | c :: cs =>
    if isDigitChar c then
      let p := takeDigits cs
      (c :: p.1, p.2)
    else ([], c :: cs)

/-- Value of a most-significant-first digit string. -/
def digitsToNat (ds : List Char) : Nat :=
  ds.foldl (fun a c => 10 * a + (c.toNat - 48)) 0

/-- Whether the characters following a number do not extend it into a
float (the model parses integers only). -/
def intSafeAfter : List Char → Bool
  | [] => true
  | c :: _ => !(isDigitChar c || c = '.' || c = 'e' || c = 'E')

/-- Parse a natural number (a non-empty digit run). -/
def pNatNum (cs : List Char) : Option (Nat × List Char) :=
  match takeDigits cs with
  | ([], _) => none
  | (ds, rest) => if intSafeAfter rest then some (digitsToNat ds, rest) else none

/-- Parse an optionally negated integer. -/
def pIntNum (cs : List Char) : Option (Int × List Char) :=
  match cs with
  | [] => none
  | c :: cs2 =>
    if c = '-' then (pNatNum cs2).map (fun p => (-(p.1 : Int), p.2))
    else (pNatNum cs).map (fun p => ((p.1 : Int), p.2))

/-- Hex digit value (both cases accepted, as in `json.loads`). -/
def hexVal (c : Char) : Option Nat :=
  if 48 ≤ c.toNat ∧ c.toNat ≤ 57 then some (c.toNat - 48)
  else if 97 ≤ c.toNat ∧ c.toNat ≤ 102 then some (c.toNat - 87)
  else if 65 ≤ c.toNat ∧ c.toNat ≤ 70 then some (c.toNat - 55)
  else none

/-- Value of a four-hex-digit escape body. -/
def hex4Val (a b c d : Char) : Option Nat :=
  match hexVal a, hexVal b, hexVal c, hexVal d with
  | some x, some y, some z, some w => some (((x * 16 + y) * 16 + z) * 16 + w)
  | _, _, _, _ => none

/-- The two-character escapes accepted by `json.loads`. -/
def escChar (e : Char) : Option Char :=
  if e = '"' then some '"'
  else if e = '\\' then some '\\'
  else if e = '/' then some '/'
  else if e = 'b' then some (Char.ofNat 8)
  else if e = 'f' then some (Char.ofNat 12)
  else if e = 'n' then some '\n'
  else if e = 'r' then some (Char.ofNat 13)
  else if e = 't' then some '\t'
  else none

mutual

/-- Parse a JSON string body after the opening quote, strict mode: raw
control characters are rejected; the result is the decoded characters and
the input after the closing quote. -/
def pStrBody : List Char → Option (List Char × List Char)
  | [] => none
  | c :: rest =>
    if c = '"' then some ([], rest)
    else if c = '\\' then pEsc rest
    else if c.toNat < 32 then none
    else (pStrBody rest).map (fun p => (c :: p.1, p.2))

/-- Parse the remainder of an escape sequence (after the backslash). -/
def pEsc : List Char → Option (List Char × List Char)
  | [] => none
  | e :: rest =>
    if e = 'u' then pEscU rest
    else
      match escChar e with
      | some c => (pStrBody rest).map (fun p => (c :: p.1, p.2))
      | none => none

/-- Parse the four hex digits of a `\u` escape; a leading surrogate must
be followed by a trailing one, recombined as `json.loads` does. -/
def pEscU : List Char → Option (List Char × List Char)
  | a :: b :: c2 :: d :: rest2 =>
    match hex4Val a b c2 d with
    | none => none
    | some v =>
      if v < 55296 ∨ 57344 ≤ v then
        (pStrBody rest2).map (fun p => (Char.ofNat v :: p.1, p.2))
      else if v < 56320 then pEscPair v rest2
      else none
  | _ => none

/-- Parse the trailing `\uXXXX` of a surrogate pair whose leading value
is `v`. -/
def pEscPair (v : Nat) : List Char → Option (List Char × List Char)
  | e2 :: u2 :: a2 :: b2 :: c3 :: d2 :: rest3 =>
    if e2 = '\\' ∧ u2 = 'u' then
      match hex4Val a2 b2 c3 d2 with
      | none => none
      | some w =>
        if 56320 ≤ w ∧ w < 57344 then
          (pStrBody rest3).map (fun p =>
            (Char.ofNat (65536 + (v - 55296) * 1024 + (w - 56320)) :: p.1,
              p.2))
        else none
    else none
  | _ => none

end

/-- Match an exact literal tail (used for `null`, `true`, `false`). -/
def dropLit : List Char → List Char → Option (List Char)
  | [], cs => some cs
  | l :: ls, c :: cs => if c = l then dropLit ls cs else none
  | _ :: _, [] => none

/-- Build a dict from parsed key/value pairs: first-occurrence position,
last-occurrence value, as `dict(pairs)` does. -/
def mkDict (ps : List (String × JVal)) : List (String × JVal) :=
  ps.foldl (fun m q => upsert m q.1 q.2) []

mutual

/-- Parse one JSON value; the input must start at a value character (the
callers skip whitespace first).  `fuel` bounds nesting and any
`fuel ≥ jsize` of the parsed value is enough. -/
def pVal : Nat → List Char → Option (JVal × List Char)
  | 0, _ => none
  | _ + 1, [] => none
  | f + 1, c :: rest =>
    if c = 'n' then (dropLit ['u', 'l', 'l'] rest).map (fun cs2 => (JVal.null, cs2))
    else if c = 't' then
      (dropLit ['r', 'u', 'e'] rest).map (fun cs2 => (JVal.bool true, cs2))
    else if c = 'f' then
      (dropLit ['a', 'l', 's', 'e'] rest).map (fun cs2 => (JVal.bool false, cs2))
    else if c = '"' then
      (pStrBody rest).map (fun p => (JVal.str (String.mk p.1), p.2))
    else if c = '[' then pArrStart f (skipWs rest)
    else if c = lbrace then pObjStart f (skipWs rest)
    else (pIntNum (c :: rest)).map (fun p => (JVal.num p.1, p.2))

/-- Parse an array after `[` and whitespace: `]` or a first element. -/
def pArrStart : Nat → List Char → Option (JVal × List Char)
  | _, [] => none
  | 0, c :: rest => if c = ']' then some (JVal.arr [], rest) else none
  | f + 1, c :: rest =>
    if c = ']' then some (JVal.arr [], rest)
    else
      match pVal f (c :: rest) with
      | some (v, cs1) =>
        match pArrTail f (skipWs cs1) with
        | some (vs, cs2) => some (JVal.arr (v :: vs), cs2)
        | none => none
      | none => none

/-- Parse the rest of an array after an element: `]` or `,` and another
element. -/
def pArrTail : Nat → List Char → Option (List JVal × List Char)
  | _, [] => none
  | 0, c :: rest => if c = ']' then some ([], rest) else none
  | f + 1, c :: rest =>
    if c = ']' then some ([], rest)
    else if c = ',' then
      match pVal f (skipWs rest) with
      | some (v, cs1) =>
        match pArrTail f (skipWs cs1) with
        | some (vs, cs2) => some (v :: vs, cs2)
        | none => none
      | none => none
    else none

/-- Parse one `"key": value` entry. -/
def pEntry : Nat → List Char → Option ((String × JVal) × List Char)
  | 0, _ => none
  | f + 1, c :: rest =>
    if c = '"' then
      match pStrBody rest with
      | some (kchars, cs1) =>
        match skipWs cs1 with
        | c2 :: cs2 =>
          if c2 = ':' then
            match pVal f (skipWs cs2) with
            | some (v, cs3) => some ((String.mk kchars, v), cs3)
            | none => none
          else none
        | [] => none
      | none => none
    else none
  | _ + 1, [] => none

/-- Parse an object after the opening brace and whitespace: the closing
brace or a first entry. -/
def pObjStart : Nat → List Char → Option (JVal × List Char)
  | 0, _ => none
  | f + 1, c :: rest =>
    if c = rbrace then some (JVal.obj [], rest)
    else
      match pEntry f (c :: rest) with
      | some (q, cs1) =>
        match pObjTail f (skipWs cs1) with
        | some (qs, cs2) => some (JVal.obj (mkDict (q :: qs)), cs2)
        | none => none
      | none => none
  | _ + 1, [] => none

/-- Parse the rest of an object after an entry: the closing brace or `,`
and another entry. -/
def pObjTail : Nat → List Char → Option (List (String × JVal) × List Char)
  | 0, _ => none
  | f + 1, c :: rest =>
    if c = rbrace then some ([], rest)
    else if c = ',' then
      match pEntry f (skipWs rest) with
      | some (q, cs1) =>
        match pObjTail f (skipWs cs1) with
        | some (qs, cs2) => some (q :: qs, cs2)
        | none => none
      | none => none
    else none
  | _ + 1, [] => none

end

/-- Embedding of `json.loads` (for the supported value domain): parse one
value surrounded by optional whitespace; anything left over is an error. -/
def jsonLoads (s : String) : Option JVal :=
  match pVal (s.data.length + 1) (skipWs s.data) with
  | some (v, rest) => if skipWs rest = [] then some v else none
  | none => none

/-! ### Well-formedness, canonical form and parser fuel measure -/

/-- Well-formed JSON values: every object (recursively) has distinct
keys.  Values produced by `json.loads` have this shape, because objects
go through `dict(...)`. -/
inductive JWF : JVal → Prop where
  | null : JWF .null
  | bool (b : Bool) : JWF (.bool b)
  | num (n : Int) : JWF (.num n)
  | str (s : String) : JWF (.str s)
  | arr {xs : List JVal} : (∀ x ∈ xs, JWF x) → JWF (.arr xs)
  | obj {kvs : List (String × JVal)} : (kvs.map (fun q => q.1)).Nodup →
      (∀ q ∈ kvs, JWF q.2) → JWF (.obj kvs)

/-- Canonical JSON values: every object (recursively) has its entries in
strictly increasing key order.  `canon` produces this shape on
well-formed values and fixes values already in it. -/
inductive JCanon : JVal → Prop where
  | null : JCanon .null
  | bool (b : Bool) : JCanon (.bool b)
  | num (n : Int) : JCanon (.num n)
  | str (s : String) : JCanon (.str s)
  | arr {xs : List JVal} : (∀ x ∈ xs, JCanon x) → JCanon (.arr xs)
  | obj {kvs : List (String × JVal)} :
      kvs.Pairwise (fun a b => a.1 < b.1) →
      (∀ q ∈ kvs, JCanon q.2) → JCanon (.obj kvs)

mutual

/-- Parser fuel needed for a value: one unit per grammar step; any fuel
at least this large makes `pVal` succeed on the printed form. -/
def jsize : JVal → Nat
  | .null => 1
  | .bool _ => 1
  | .num _ => 1
  | .str _ => 1
  | .arr xs => 2 + jlistSize xs
  | .obj kvs => 2 + jentsSize kvs

/-- Fuel for the elements of an array. -/
def jlistSize : List JVal → Nat
  | [] => 0
  | x :: xs => jsize x + 1 + jlistSize xs

/-- Fuel for the entries of an object. -/
def jentsSize : List (String × JVal) → Nat
  | [] => 0
  | q :: qs => jsize q.2 + 1 + jentsSize qs

end

mutual

/-- The printer the specification describes: identical to `fmtVal` except
that the item separator is `", "` (as the spec's
`separators=(", ", ": ")` says) rather than the `","` the code passes, so
a space precedes each item newline in multi-item containers. -/
def fmtValSpec : Nat → JVal → List Char
  | _, .null => ['n', 'u', 'l', 'l']
  | _, .bool true => ['t', 'r', 'u', 'e']
  | _, .bool false => ['f', 'a', 'l', 's', 'e']
  | _, .num n => intRepr n
  | _, .str s => encStr s
  | _, .arr [] => ['[', ']']
  | lvl, .arr (x :: xs) =>
    '[' :: nlIndent (lvl + 1) ++ fmtValSpec (lvl + 1) x ++
      fmtArrItemsSpec (lvl + 1) xs ++ nlIndent lvl ++ [']']
  | _, .obj [] => [lbrace, rbrace]
  | lvl, .obj (q :: qs) =>
    lbrace :: nlIndent (lvl + 1) ++ fmtEntrySpec (lvl + 1) q ++
      fmtObjItemsSpec (lvl + 1) qs ++ nlIndent lvl ++ [rbrace]

/-- Item separator `", "` followed by the indent newline, then the item. -/
def fmtArrItemsSpec : Nat → List JVal → List Char
  | _, [] => []
  | lvl, x :: xs =>
    ',' :: ' ' :: nlIndent lvl ++ fmtValSpec lvl x ++ fmtArrItemsSpec lvl xs

/-- A key with the `": "` key separator and its value. -/
def fmtEntrySpec : Nat → String × JVal → List Char
  | lvl, q => encStr q.1 ++ ':' :: ' ' :: fmtValSpec lvl q.2

/-- Item separator `", "` and indent between object entries. -/
def fmtObjItemsSpec : Nat → List (String × JVal) → List Char
  | _, [] => []
  | lvl, q :: qs =>
    ',' :: ' ' :: nlIndent lvl ++ fmtEntrySpec lvl q ++ fmtObjItemsSpec lvl qs

end

/-- The canonicaliser the specification's words describe:
`json.dumps(data, indent=2, sort_keys=True, separators=(", ", ": "))`. -/
def formatJsonSpec (v : JVal) : String := String.mk (fmtValSpec 0 (canon v))

/-! ## Agent signing and evidence content

Embeds `ComplianceAgent.signable` and `ComplianceAgent.hash_and_sign`
(src/compliance/agent.py, lines 90-133) and `_BaseEvidence.set_content`
(src/compliance/evidence.py, lines 218-235).  The RSA private key object
is modelled as the opaque signing function its `sign` method provides;
`base64.b64encode` is implemented concretely. -/

/-- A base64 alphabet character. -/
def b64Char (n : Nat) : Char :=
  if n < 26 then Char.ofNat (65 + n)
  else if n < 52 then Char.ofNat (97 + (n - 26))
  else if n < 62 then Char.ofNat (48 + (n - 52))
  else if n = 62 then '+'
  else '/'

/-- `base64.b64encode` over bytes, producing the padded character string. -/
def b64encode : List Nat → List Char
  | b0 :: b1 :: b2 :: rest =>
    b64Char (b0 / 4) :: b64Char ((b0 % 4) * 16 + b1 / 16) ::
      b64Char ((b1 % 16) * 4 + b2 / 64) :: b64Char (b2 % 64) :: b64encode rest
  | [b0, b1] =>
    [b64Char (b0 / 4), b64Char ((b0 % 4) * 16 + b1 / 16), b64Char ((b1 % 16) * 4), '=']
  | [b0] => [b64Char (b0 / 4), b64Char ((b0 % 4) * 16), '=', '=']
  | [] => []

/-- The agent as consumed by `hash_and_sign`: its name and its private key
object, the latter modelled by the signing function `private_key.sign`
provides (`None` when no key is loaded). -/
structure AgentM where
  name : Option String := none
  privateKey : Option (List Nat → List Nat) := none

/-- Embedding of `ComplianceAgent.signable`:
`all([self.name, self.private_key])` with Python truthiness (a `None` or
empty name is falsy). -/
def pySignable (a : AgentM) : Bool :=
  (match a.name with
   | none => false
   | some s => !(s == "")) && a.privateKey.isSome

/-- Embedding of `ComplianceAgent.hash_and_sign`: `(None, None)` when the
agent cannot sign; otherwise the SHA-256 hex digest of the data and the
base64 of the RSA-PSS signature over the SHA-256 digest bytes. -/
def hashAndSign (a : AgentM) (dataBytes : List Nat) : Option String × Option String :=
  if pySignable a then
    match a.privateKey with
    | some sign =>
      (some (sha256Hex dataBytes),
        some (String.mk (b64encode (sign (sha256Bytes dataBytes)))))
    | none => (none, none)
  else (none, none)

/-- Embedding of `PurePath(name).suffix.lstrip(".")` used by
`_BaseEvidence.extension`: the characters after the last dot, provided
that dot is neither the first character nor the last. -/
def splitLastDot : List Char → Option (List Char × List Char)
  | [] => none
  | c :: cs =>
    match splitLastDot cs with
    | some p => some (c :: p.1, p.2)
    | none => if c = '.' then some ([], cs) else none

/-- The `extension` property of an evidence name. -/
def pySuffix (name : String) : String :=
  match splitLastDot name.data with
  | some (before, after) =>
    if before ≠ [] ∧ after ≠ [] then String.mk after else ""
  | none => ""

/-- The evidence attributes read and written by `set_content`. -/
structure EvidenceContentState where
  name : String
  agent : AgentM := {}
  binaryContent : Bool := false
  content : Option String := none
  digest : Option String := none
  signature : Option String := none

/-- Embedding of `_BaseEvidence.set_content`: `None` content is stored
without canonicalisation or signing; `json`-extension content is
canonicalised with `format_json(json.loads(content))` (a `json.loads`
failure raises, modelled as `none`); when `sign` is set the digest and
signature are taken from `agent.hash_and_sign` over the stored bytes
(UTF-8 of the stored string; binary content is its raw byte string). -/
def setContent (ev : EvidenceContentState) (content : Option String) (sign : Bool) :
    Option EvidenceContentState :=
  match content with
  | none => some { ev with content := none }
  | some c =>
    let c2opt := if pySuffix ev.name = "json" then (jsonLoads c).map formatJson
      else some c
    match c2opt with
    | none => none
    | some c2 =>
      if sign then
        let ds := hashAndSign ev.agent (strBytes c2)
        some { ev with content := some c2, digest := ds.1, signature := ds.2 }
      else some { ev with content := some c2 }

/-! ## Configuration lookup and deep copy (claim C8)

Embeds `ComplianceConfig.get` (src/compliance/config.py, lines 104-125).
To make the deep-copy claim meaningful, Python objects are modelled with
an explicit heap: dicts and lists are nodes holding addresses of their
children, and `copy.deepcopy` is modelled by reading the value tree and
allocating a fresh copy of it.  Addresses grow upward and every node's
children are allocated before it, so reading terminates.  Sharing of
immutable primitives (which CPython's `deepcopy` performs) is
observationally irrelevant and not modelled. -/

/-- An immutable Python primitive. -/
inductive PyPrim where
  | str (s : String) : PyPrim
  | int (n : Int) : PyPrim
  | bool (b : Bool) : PyPrim
  | none : PyPrim
deriving DecidableEq

/-- A heap node: a dict (string keys to child addresses), a list of child
addresses, or a primitive. -/
inductive PyNode where
  | dict (entries : List (String × Nat)) : PyNode
  | list (elems : List Nat) : PyNode
  | prim (v : PyPrim) : PyNode
deriving DecidableEq

/-- The child addresses of a node. -/
def nodeChildren : PyNode → List Nat
  | .dict es => es.map (fun q => q.2)
  | .list xs => xs
  | .prim _ => []

/-- A heap: memory and the allocation counter. -/
structure Heap where
  mem : Nat → Option PyNode
  next : Nat

/-- Heap well-formedness: every allocated address is below the counter and
every node's children were allocated before it. -/
def Heap.wf (h : Heap) : Prop :=
  (∀ a n, h.mem a = some n → a < h.next) ∧
  (∀ a n, h.mem a = some n → ∀ c ∈ nodeChildren n, c < a)

/-- A pure Python value tree, as observed by reading from an address. -/
inductive PyTree where
  | dict (entries : List (String × PyTree)) : PyTree
  | list (elems : List PyTree) : PyTree
  | prim (v : PyPrim) : PyTree

/-- Collect a list of optional values, failing if any is missing. -/
def optList {α : Type} : List (Option α) → Option (List α)
  | [] => some []
  | o :: os => o.bind fun x => (optList os).map fun xs => x :: xs

/-- Read the value tree rooted at an address, with recursion fuel
decreasing by one per level; since children sit at strictly smaller
addresses in a well-formed heap, fuel `a + 1` reads address `a`
completely. -/
def readT (h : Heap) : Nat → Nat → Option PyTree
  | 0, _ => none
  | f + 1, a =>
    match h.mem a with
    | Option.none => none
    | some (.prim v) => some (.prim v)
    | some (.list cs) => (optList (cs.map (fun c => readT h f c))).map PyTree.list
    | some (.dict es) =>
      (optList (es.map (fun q => (readT h f q.2).map (fun t => (q.1, t))))).map
        PyTree.dict

/-- Read the full value tree at an address. -/
def readTree (h : Heap) (a : Nat) : Option PyTree := readT h (a + 1) a

/-- Allocate one node at the next free address. -/
def pushNode (h : Heap) (n : PyNode) : Heap × Nat :=
  ({ mem := fun a => if a = h.next then some n else h.mem a, next := h.next + 1 },
    h.next)

/-- Allocate a sequence of subtrees left to right, threading the heap. -/
def allocFold (g : Heap → PyTree → Option (Heap × Nat)) (h : Heap) :
    List PyTree → Option (Heap × List Nat)
  | [] => some (h, [])
  | t :: ts =>
    (g h t).bind fun r =>
      (allocFold g r.1 ts).map fun q => (q.1, r.2 :: q.2)

/-- Allocate dict entry values left to right, keeping the keys. -/
def allocFoldD (g : Heap → PyTree → Option (Heap × Nat)) (h : Heap) :
    List (String × PyTree) → Option (Heap × List (String × Nat))
  | [] => some (h, [])
  | e :: es =>
    (g h e.2).bind fun r =>
      (allocFoldD g r.1 es).map fun q => (q.1, (e.1, r.2) :: q.2)

/-- Write a fresh copy of a value tree into the heap (children first), as
`copy.deepcopy` does; fuel bounds the tree depth.  Returns the new heap
and the copy's root address. -/
def allocT : Nat → Heap → PyTree → Option (Heap × Nat)
  | 0, _, _ => none
  | _ + 1, h, .prim v => some (pushNode h (.prim v))
  | f + 1, h, .list ts =>
    (allocFold (fun h2 t => allocT f h2 t) h ts).map fun pr =>
      pushNode pr.1 (.list pr.2)
  | f + 1, h, .dict es =>
    (allocFoldD (fun h2 t => allocT f h2 t) h es).map fun pr =>
      pushNode pr.1 (.dict pr.2)

/-- `copy.deepcopy` of the object at an address: read its value tree and
allocate a fresh copy; the tree rooted at `a` has at most `a + 1` levels,
so fuel `a + 1` suffices on both sides. -/
def deepcopyAt (h : Heap) (a : Nat) : Option (Heap × Nat) :=
  (readTree h a).bind fun t => allocT (a + 1) h t

/-- Whether an address holds the Python `None` object. -/
def isNoneAddr (h : Heap) (a : Nat) : Bool := h.mem a = some (.prim .none)

/-- One step `value = value.get(c)` on a dict object: a missing key gives
`None`, and a value that is the `None` object is normalised to `none`
(the loop breaks on it and `get` then falls back). -/
def walkStep (h : Heap) (es : List (String × Nat)) (k : String) : Option Nat :=
  match alookup es k with
  | some a2 => if isNoneAddr h a2 then none else some a2
  | Option.none => none

/-- Embedding of the chunk loop of `ComplianceConfig.get`: starting from a
document object, follow `value = value.get(c)` for each chunk, stopping
early once the value `is None`; `.get` on a non-dict raises
`AttributeError`, modelled as `.error`. -/
def dotWalk (h : Heap) : Option Nat → List String → Except Unit (Option Nat)
  | v, [] => .ok v
  | Option.none, _ :: _ => .ok none
  | some a, k :: ks =>
    match h.mem a with
    | some (.dict es) => dotWalk h (walkStep h es k) ks
    | _ => .error ()

/-- Split on a separator character, as Python's `str.split` with an
explicit separator: `"a.b".split(".") = ["a", "b"]`, `"".split(".") =
[""]`, and empty chunks are kept. -/
def splitSepAux (sep : Char) : List Char → List Char → List String
  | [], acc => [String.mk acc.reverse]
  | c :: cs, acc =>
    if c = sep then String.mk acc.reverse :: splitSepAux sep cs []
    else splitSepAux sep cs (c :: acc)

/-- `config_path.split(".")`. -/
def pathSplit (s : String) : List String := splitSepAux '.' s.data []

/-- The configuration as seen by `get`: the heap, the user-supplied
document (`self._config`) and the class-level `DEFAULTS` document. -/
structure ConfigH where
  heap : Heap
  userRoot : Nat
  defaultsRoot : Nat

/-- Resolve the address of the configuration value for a dot path: walk
the user document, and if that yields `None`, walk `DEFAULTS`. -/
def configGetA (cfg : ConfigH) (path : String) : Except Unit (Option Nat) :=
  match dotWalk cfg.heap (some cfg.userRoot) (pathSplit path) with
  | .error e => .error e
  | .ok (some a) => .ok (some a)
  | .ok Option.none => dotWalk cfg.heap (some cfg.defaultsRoot) (pathSplit path)

/-- Embedding of `ComplianceConfig.get`:
`deepcopy(value) if value is not None else deepcopy(default)`, with the
caller's `default` argument modelled as an optional heap address (`none`
for the Python `None` default).  Returns the heap after the copy and the
address handed to the caller (`none` for a Python `None` result). -/
def configGet (cfg : ConfigH) (path : String) (default : Option Nat) :
    Except Unit (Heap × Option Nat) :=
  match configGetA cfg path with
  | .error e => .error e
  | .ok (some a) =>
    match deepcopyAt cfg.heap a with
    | some pr => .ok (pr.1, some pr.2)
    | Option.none => .error ()
  | .ok Option.none =>
    match default with
    | some d =>
      match deepcopyAt cfg.heap d with
      | some pr => .ok (pr.1, some pr.2)
      | Option.none => .error ()
    | Option.none => .ok (cfg.heap, none)

/-- The pure value returned to the caller by `ComplianceConfig.get` (what
the returned copy reads back as). -/
def configGetValue (cfg : ConfigH) (path : String) (default : Option Nat) :
    Except Unit (Option PyTree) :=
  match configGetA cfg path with
  | .error e => .error e
  | .ok (some a) => .ok (readTree cfg.heap a)
  | .ok Option.none =>
    match default with
    | some d => .ok (readTree cfg.heap d)
    | Option.none => .ok none

/-- Addresses reachable from an address by following node children. -/
inductive Reach (h : Heap) (a : Nat) : Nat → Prop where
  | refl : Reach h a a
  | step {b c : Nat} (n : PyNode) : Reach h a b → h.mem b = some n →
      c ∈ nodeChildren n → Reach h a c

/-- Children of every node sit at strictly smaller addresses (the second
half of `Heap.wf`). -/
def heapDesc (h : Heap) : Prop :=
  ∀ b n, h.mem b = some n → ∀ c ∈ nodeChildren n, c < b

/-- What one allocation step guarantees: old memory is untouched, the
counter grows, the result address is fresh, and every node in the new
heap is either an old node or a fresh one whose children are fresh and
smaller than it. -/
def AllocSpec (h : Heap) (r : Heap × Nat) : Prop :=
  (∀ b, b < h.next → r.1.mem b = h.mem b) ∧
  h.next < r.1.next ∧ h.next ≤ r.2 ∧ r.2 < r.1.next ∧
  (∀ b n, r.1.mem b = some n → h.mem b = some n ∨
    (h.next ≤ b ∧ ∀ c ∈ nodeChildren n, h.next ≤ c ∧ c < b))

/-- The same guarantees for a left-to-right sequence of allocations. -/
def FoldSpec (h : Heap) (q : Heap × List Nat) : Prop :=
  (∀ b, b < h.next → q.1.mem b = h.mem b) ∧
  h.next ≤ q.1.next ∧
  (∀ c ∈ q.2, h.next ≤ c ∧ c < q.1.next) ∧
  (∀ b n, q.1.mem b = some n → h.mem b = some n ∨
    (h.next ≤ b ∧ ∀ c ∈ nodeChildren n, h.next ≤ c ∧ c < b))

/-- `FoldSpec` for dict-entry allocation (addresses are the entry
values). -/
def FoldSpecD (h : Heap) (q : Heap × List (String × Nat)) : Prop :=
  (∀ b, b < h.next → q.1.mem b = h.mem b) ∧
  h.next ≤ q.1.next ∧
  (∀ e ∈ q.2, h.next ≤ e.2 ∧ e.2 < q.1.next) ∧
  (∀ b n, q.1.mem b = some n → h.mem b = some n ∨
    (h.next ≤ b ∧ ∀ c ∈ nodeChildren n, h.next ≤ c ∧ c < b))

/-- Concrete configuration heap: `0 ↦ "v"`, `1 ↦ [addr 0]`,
`2 ↦ \x7b"k": addr 1\x7d` (user document), `3 ↦ \x7b\x7d` (defaults). -/
def memW8 : Nat → Option PyNode := fun a =>
  if a = 0 then some (.prim (.str "v"))
  else if a = 1 then some (.list [0])
  else if a = 2 then some (.dict [("k", 1)])
  else if a = 3 then some (.dict [])
  else none

/-- Concrete configuration with user document at 2 and defaults at 3. -/
def cfgW8 : ConfigH :=
  { heap := { mem := memW8, next := 4 }, userRoot := 2, defaultsRoot := 3 }

/-- The heap and address returned by `configGet cfgW8 "k" none`. -/
def resW8 : Heap × Option Nat :=
  match configGet cfgW8 "k" none with
  | .ok pr => pr
  | .error _ => (cfgW8.heap, none)

/-- A json-extension evidence for exercising `set_content`. -/
def evW5 : EvidenceContentState := { name := "w.json" }

/-- Concrete JSON text `\x7b"b":1,"a":2\x7d` fed to `set_content`. -/
def sW5 : String := "\x7b\"b\":1,\"a\":2\x7d"

/-- The value `json.loads` yields for `sW5`. -/
def vW5 : JVal := JVal.obj [("b", JVal.num 1), ("a", JVal.num 2)]

/-- The evidence state after `set_content(sW5)`. -/
def ev2W5 : EvidenceContentState :=
  match setContent evW5 (some sW5) false with
  | some e => e
  | none => evW5

/-! ## Claim theorems -/

/-- Claim C1: for every executed check test method, an uncaught
non-assertion exception records status `error`; a normal completion with at
least one accumulated failure records `fail` (the post-method assertion
converts it); a normal completion with no failures and at least one warning
records `warn`; and a normal completion with neither records `pass`. -/
theorem claim_C1 (o : MethodOutcome) (failures warnings : List (String × List String)) :
    (o = .raisedError → checkStatus o failures warnings = "error") ∧
    (o = .completed → 0 < accumCount failures →
      checkStatus o failures warnings = "fail") ∧
    (o = .completed → accumCount failures = 0 → 0 < accumCount warnings →
      checkStatus o failures warnings = "warn") ∧
    (o = .completed → accumCount failures = 0 → accumCount warnings = 0 →
      checkStatus o failures warnings = "pass") := by
  refine ⟨?_, ?_, ?_, ?_⟩
  · rintro rfl
    rfl
  · rintro rfl h
    simp [checkStatus, wrappedOutcome, recordedStatus, Nat.pos_iff_ne_zero.mp h]
  · rintro rfl h0 hw
    simp [checkStatus, wrappedOutcome, recordedStatus, h0, Nat.pos_iff_ne_zero.mp hw]
  · rintro rfl h0 hw
    simp [checkStatus, wrappedOutcome, recordedStatus, h0, hw]

/-- Claim C1 witness: the four classifications at concrete accumulator
states. -/
theorem claim_C1_witness :
    checkStatus .raisedError [] [] = "error" ∧
    checkStatus .completed [("k", ["f1"])] [] = "fail" ∧
    checkStatus .completed [] [("k", ["w1", "w2"])] = "warn" ∧
    checkStatus .completed [] [] = "pass" := by
  refine ⟨?_, ?_, ?_, ?_⟩
  · exact (claim_C1 .raisedError [] []).1 rfl
  · exact (claim_C1 .completed [("k", ["f1"])] []).2.1 rfl (by decide)
  · exact (claim_C1 .completed [] [("k", ["w1", "w2"])]).2.2.1 rfl (by decide) (by decide)
  · exact (claim_C1 .completed [] []).2.2.2 rfl (by decide) (by decide)

/-- Claim C4: evidence is judged TTL-expired iff
`now - last_update >= ttl - tolerance`; in particular, for every positive
`ε`, evidence last updated at `now - (ttl - tolerance) + ε` is fresh and
evidence last updated at `now - (ttl - tolerance) - ε` is stale. -/
theorem claim_C4 (ttl tolerance now lastUpdate ε : Rat) (hε : 0 < ε) :
    (evidenceTtlExpired ttl tolerance now lastUpdate = true ↔
      now - lastUpdate ≥ ttl - tolerance) ∧
    evidenceTtlExpired ttl tolerance now (now - (ttl - tolerance) + ε) = false ∧
    evidenceTtlExpired ttl tolerance now (now - (ttl - tolerance) - ε) = true := by
  refine ⟨?_, ?_, ?_⟩
  · simp [evidenceTtlExpired]
  · have h : ¬ (ttl - tolerance ≤ now - (now - (ttl - tolerance) + ε)) := by
      intro hc
      linarith
    simp [evidenceTtlExpired, h]
  · have h : ttl - tolerance ≤ now - (now - (ttl - tolerance) - ε) := by
      linarith
    simp [evidenceTtlExpired, h]

/-- Claim C4 witness: at `ttl = 3600`, `tolerance = 600`, `now = 10000`,
the boundary behaviour for `ε = 1`. -/
theorem claim_C4_witness :
    (evidenceTtlExpired 3600 600 10000 5000 = true ↔
      (10000 : Rat) - 5000 ≥ 3600 - 600) ∧
    evidenceTtlExpired 3600 600 10000 (10000 - (3600 - 600) + 1) = false ∧
    evidenceTtlExpired 3600 600 10000 (10000 - (3600 - 600) - 1) = true :=
  claim_C4 3600 600 10000 5000 1 (by norm_num)

/-- Claim C9: an evidence file at HEAD with no index metadata entry, or
whose metadata lacks `last_update`, is always reported abandoned; otherwise
it is reported abandoned iff
`now - last_update >= (threshold or 30 days) + metadata ttl (or 0)`;
and `get_abandoned_evidences` reports exactly the files so judged. -/
theorem claim_C9 (evFiles : List (String × Option AbandonMeta))
    (threshold : Option Rat) (now : Rat) :
    (∀ md : Option AbandonMeta,
      (evidenceAbandoned md threshold now = true ↔
        md = none ∨ (∃ m, md = some m ∧ m.lastUpdate = none) ∨
        (∃ m lu, md = some m ∧ m.lastUpdate = some lu ∧
          now - lu ≥ threshold.getD AE_DEFAULT + m.ttl.getD 0))) ∧
    (∀ p : String, p ∈ getAbandonedEvidences evFiles threshold now ↔
      ∃ md, (p, md) ∈ evFiles ∧ evidenceAbandoned md threshold now = true) := by
  constructor
  · intro md
    match md with
    | none => simp [evidenceAbandoned]
    | some m =>
      match h : m.lastUpdate with
      | none => simp [evidenceAbandoned, h]
      | some lu =>
        simp only [evidenceAbandoned, h]
        constructor
        · intro hab
          refine Or.inr (Or.inr ⟨m, lu, rfl, h, ?_⟩)
          by_contra hcon
          simp [hcon] at hab
        · rintro (hc | ⟨m2, hm2, hlu⟩ | ⟨m2, lu2, hm2, hlu2, hge⟩)
          · exact absurd hc (by simp)
          · rw [Option.some_inj.mp hm2] at h
            rw [h] at hlu
            exact absurd hlu (by simp)
          · have hm : m = m2 := Option.some_inj.mp hm2
            have hlu : lu = lu2 := by
              rw [← hm, h] at hlu2
              exact Option.some_inj.mp hlu2
            subst hm
            subst hlu
            simp [hge]
  · intro p
    simp only [getAbandonedEvidences, List.mem_toFinset, List.mem_map, List.mem_filter]
    constructor
    · rintro ⟨pm, ⟨hmem, hab⟩, hp⟩
      refine ⟨pm.2, ?_, hab⟩
      have : (p, pm.2) = pm := by
        rw [← hp]
      rwa [this]
    · rintro ⟨md, hmem, hab⟩
      exact ⟨(p, md), ⟨hmem, hab⟩, rfl⟩

/-- The rerun loop executes at most `fuel` more iterations and stops only
when the rerun set is empty, equals the previous set, or the iteration
budget is exhausted. -/
theorem rerunLoop_spec (oracle : FetchRunOracle) (fuel : Nat) :
    ∀ (iters : Nat) (previous reruns : Finset String) (success : Bool),
    (rerunLoop oracle fuel iters previous reruns success).iterations ≤ iters + fuel ∧
    ((rerunLoop oracle fuel iters previous reruns success).reruns = ∅ ∨
      (rerunLoop oracle fuel iters previous reruns success).reruns =
        (rerunLoop oracle fuel iters previous reruns success).previous ∨
      (rerunLoop oracle fuel iters previous reruns success).iterations = iters + fuel) := by
  induction fuel with
  | zero =>
    intro iters previous reruns success
    exact ⟨Nat.le_refl _, Or.inr (Or.inr rfl)⟩
  | succ n ih =>
    intro iters previous reruns success
    by_cases hc : reruns ≠ ∅ ∧ reruns ≠ previous
    · have hrw : rerunLoop oracle (n + 1) iters previous reruns success =
        rerunLoop oracle n (iters + 1) reruns
          (getDependencyReruns (oracle.dependencyRerunAfter (iters + 1)))
          (oracle.rerunSuccess (iters + 1) && success) := by
        simp [rerunLoop, hc]
      rw [hrw]
      have := ih (iters + 1) reruns
        (getDependencyReruns (oracle.dependencyRerunAfter (iters + 1)))
        (oracle.rerunSuccess (iters + 1) && success)
      constructor
      · exact this.1.trans (by omega)
      · rcases this.2 with h | h | h
        · exact Or.inl h
        · exact Or.inr (Or.inl h)
        · exact Or.inr (Or.inr (by omega))
    · have hrw : rerunLoop oracle (n + 1) iters previous reruns success =
        { success := success, previous := previous, reruns := reruns,
          iterations := iters } := by
        simp only [rerunLoop, if_neg hc]
      rw [hrw]
      refine ⟨show iters ≤ iters + (n + 1) by omega, ?_⟩
      rcases not_and_or.mp hc with h | h
      · exact Or.inl (not_not.mp h)
      · exact Or.inr (Or.inl (not_not.mp h))

/-- Claim C7: the fetcher dependency rerun loop terminates after at most
100 rerun iterations, stopping when the collected rerun set is empty, or
equals the previous iteration's set, or the iteration bound is reached; and
if a non-empty rerun set remains when the loop stops, the run is marked
failed and the CLI exit code is 1. -/
theorem claim_C7 (oracle : FetchRunOracle) (checkSuccess : Option Bool) :
    (cliFetchRun oracle checkSuccess).1.iterations ≤ 100 ∧
    ((cliFetchRun oracle checkSuccess).1.reruns = ∅ ∨
      (cliFetchRun oracle checkSuccess).1.reruns =
        (cliFetchRun oracle checkSuccess).1.previous ∨
      (cliFetchRun oracle checkSuccess).1.iterations = 100) ∧
    ((cliFetchRun oracle checkSuccess).1.reruns ≠ ∅ →
      (cliFetchRun oracle checkSuccess).2.2 = 1) := by
  have hspec := rerunLoop_spec oracle 100 0 ∅
    (getDependencyReruns (oracle.dependencyRerunAfter 0)) oracle.primarySuccess
  refine ⟨hspec.1, hspec.2, ?_⟩
  intro hne
  simp only [cliFetchRun] at hne ⊢
  rw [if_pos hne]
  cases checkSuccess with
  | none => rfl
  | some cs => simp

/-- Claim C7 witness: an oracle that always queues the same single rerun
entry reaches the fixed point after one rerun iteration, leaves a non-empty
rerun set, and exits with code 1. -/
theorem claim_C7_witness :
    (cliFetchRun
        { primarySuccess := true, rerunSuccess := fun _ => true,
          dependencyRerunAfter := fun _ =>
            [{ module := "m", cls := "C", method := "fetch_x" }] }
        none).1.reruns ≠ ∅ ∧
    (cliFetchRun
        { primarySuccess := true, rerunSuccess := fun _ => true,
          dependencyRerunAfter := fun _ =>
            [{ module := "m", cls := "C", method := "fetch_x" }] }
        none).2.2 = 1 := by
  have hne : (cliFetchRun
      { primarySuccess := true, rerunSuccess := fun _ => true,
        dependencyRerunAfter := fun _ =>
          [{ module := "m", cls := "C", method := "fetch_x" }] }
      none).1.reruns ≠ ∅ := by decide
  exact ⟨hne,
    (claim_C7
      { primarySuccess := true, rerunSuccess := fun _ => true,
        dependencyRerunAfter := fun _ =>
          [{ module := "m", cls := "C", method := "fetch_x" }] }
      none).2.2 hne⟩

/-- Helper for claim C3: when every locker in `pre` raises a missing error
for the path, the fallback loop reaches `l` and returns its result when it
succeeds. -/
theorem tryExtraLockers_first_success (path : String) (e : LookupErr)
    (pre : List LockerRef) (l : LockerRef) (post : List LockerRef) (ev : String)
    (hpre : ∀ l2 ∈ pre, ∃ e2, l2.getEv path = .error e2 ∧ isMissingErr e2 = true)
    (hok : l.getEv path = .ok ev) :
    tryExtraLockers path e (pre ++ l :: post) = .ok { payload := ev, locker := l.id } := by
  induction pre with
  | nil =>
    simp only [List.nil_append, tryExtraLockers, hok]
  | cons l2 rest ih =>
    obtain ⟨e2, he2, hmiss2⟩ := hpre l2 (by simp)
    have := ih (fun l3 h3 => hpre l3 (by simp [h3]))
    simp only [List.cons_append, tryExtraLockers, he2, hmiss2, if_true]
    exact this

/-- Helper for claim C3: when every extra locker raises a missing error for
the path, the fallback loop re-raises the supplied primary error. -/
theorem tryExtraLockers_all_miss (path : String) (e : LookupErr)
    (extras : List LockerRef)
    (hall : ∀ l ∈ extras, ∃ e2, l.getEv path = .error e2 ∧ isMissingErr e2 = true) :
    tryExtraLockers path e extras = .error e := by
  induction extras with
  | nil => rfl
  | cons l rest ih =>
    obtain ⟨e2, he2, hmiss2⟩ := hall l (by simp)
    simp only [tryExtraLockers, he2, hmiss2, if_true]
    exact ih (fun l3 h3 => hall l3 (by simp [h3]))

/-- Claim C3: when the primary `_get_evidence` raises a missing error
(`EvidenceNotFoundError` or `HistoricalEvidenceNotFoundError`), the same
lookup is attempted against the extra lockers in order: if every extra
locker also misses, the primary's original error is re-raised; and if an
extra locker succeeds after all earlier ones missed, the returned
evidence's `locker` attribute is that extra locker. -/
theorem claim_C3 (primary : LockerRef) (extras : List LockerRef) (path : String)
    (e : LookupErr) (hmiss : primary.getEv path = .error e)
    (he : isMissingErr e = true) :
    ((∀ l ∈ extras, ∃ e2, l.getEv path = .error e2 ∧ isMissingErr e2 = true) →
      getEvidence primary extras path = .error e) ∧
    (∀ (pre : List LockerRef) (l : LockerRef) (post : List LockerRef) (ev : String),
      extras = pre ++ l :: post →
      (∀ l2 ∈ pre, ∃ e2, l2.getEv path = .error e2 ∧ isMissingErr e2 = true) →
      l.getEv path = .ok ev →
      getEvidence primary extras path = .ok { payload := ev, locker := l.id }) := by
  have hun : getEvidence primary extras path = tryExtraLockers path e extras := by
    simp only [getEvidence, hmiss, he, if_true]
  constructor
  · intro hall
    rw [hun]
    exact tryExtraLockers_all_miss path e extras hall
  · intro pre l post ev hsplit hpre hok
    rw [hun, hsplit]
    exact tryExtraLockers_first_success path e pre l post ev hpre hok

/-- Claim C3 witness: a primary locker that misses, a first extra locker
that misses historically, and a second extra locker that serves the
evidence; the result carries the second extra locker's identity.  With both
extras missing, the primary's error is re-raised. -/
theorem claim_C3_witness :
    getEvidence
      { id := 0, getEv := fun _ => .error (.evidenceNotFound "missing") }
      [{ id := 1, getEv := fun _ => .error (.historicalEvidenceNotFound "old") },
       { id := 2, getEv := fun _ => .ok "payload" }]
      "raw/a/b.json" = .ok { payload := "payload", locker := 2 } ∧
    getEvidence
      { id := 0, getEv := fun _ => .error (.evidenceNotFound "missing") }
      [{ id := 1, getEv := fun _ => .error (.historicalEvidenceNotFound "old") }]
      "raw/a/b.json" = .error (.evidenceNotFound "missing") := by
  constructor
  · exact (claim_C3
      { id := 0, getEv := fun _ => .error (.evidenceNotFound "missing") }
      [{ id := 1, getEv := fun _ => .error (.historicalEvidenceNotFound "old") },
       { id := 2, getEv := fun _ => .ok "payload" }]
      "raw/a/b.json" (.evidenceNotFound "missing") rfl rfl).2
      [{ id := 1, getEv := fun _ => .error (.historicalEvidenceNotFound "old") }]
      { id := 2, getEv := fun _ => .ok "payload" } [] "payload" rfl
      (by
        intro l2 h2
        simp only [List.mem_singleton] at h2
        subst h2
        exact ⟨.historicalEvidenceNotFound "old", rfl, rfl⟩)
      rfl
  · exact (claim_C3
      { id := 0, getEv := fun _ => .error (.evidenceNotFound "missing") }
      [{ id := 1, getEv := fun _ => .error (.historicalEvidenceNotFound "old") }]
      "raw/a/b.json" (.evidenceNotFound "missing") rfl rfl).1
      (by
        intro l h
        simp only [List.mem_singleton] at h
        subst h
        exact ⟨.historicalEvidenceNotFound "old", rfl, rfl⟩)

/-! ### Association list and locker state lemmas -/

/-- Keys of an association list after `upsert`: the original keys plus `k`. -/
theorem mem_keys_upsert {α : Type} (m : List (String × α)) (k p : String) (v : α) :
    p ∈ (upsert m k v).map Prod.fst ↔ p ∈ m.map Prod.fst ∨ p = k := by
  unfold upsert
  by_cases h : m.any (fun q => q.1 = k) = true
  · rw [if_pos h]
    have hkeys : (m.map (fun q => if q.1 = k then (k, v) else q)).map Prod.fst
        = m.map Prod.fst := by
      rw [List.map_map]
      apply List.map_congr_left
      intro a _
      by_cases ha : a.1 = k
      · simp [ha]
      · simp [ha]
    rw [hkeys]
    constructor
    · exact Or.inl
    · rintro (hp | rfl)
      · exact hp
      · simp only [List.any_eq_true, decide_eq_true_eq] at h
        obtain ⟨q, hq, hqk⟩ := h
        exact List.mem_map.mpr ⟨q, hq, hqk⟩
  · rw [if_neg h]
    simp [or_comm]

/-- Looking up the upserted key returns the new value. -/
theorem alookup_upsert {α : Type} (m : List (String × α)) (k : String) (v : α) :
    alookup (upsert m k v) k = some v := by
  unfold upsert
  by_cases h : m.any (fun q => q.1 = k) = true
  · rw [if_pos h]
    induction m with
    | nil => simp at h
    | cons q rest ih =>
      by_cases hq : q.1 = k
      · simp only [List.map_cons, if_pos hq, alookup]
        rw [List.find?_cons_of_pos _ (by simp)]
        simp
      · have hrest : rest.any (fun q => q.1 = k) = true := by
          have h2 := h
          rw [List.any_cons, decide_eq_false hq, Bool.false_or] at h2
          exact h2
        simp only [List.map_cons, if_neg hq, alookup]
        rw [List.find?_cons_of_neg _ (by simpa using hq)]
        exact ih hrest
  · rw [if_neg h]
    simp only [List.any_eq_true, decide_eq_true_eq, not_exists, not_and] at h
    induction m with
    | nil => simp [alookup, List.find?]
    | cons q rest ih =>
      have hq : ¬ q.1 = k := h q (by simp)
      simp only [List.cons_append, alookup]
      rw [List.find?_cons_of_neg _ (by simpa using hq)]
      exact ih (fun q2 h2 => h q2 (by simp [h2]))

/-- A file exists exactly when its path is among the working-tree keys. -/
theorem fileExists_iff (st : LockerState) (p : String) :
    fileExists st p = true ↔ p ∈ st.files.map Prod.fst := by
  simp only [fileExists, List.any_eq_true, decide_eq_true_eq, List.mem_map]

/-- File existence after a write: the written path or a previously existing
path. -/
theorem fileExists_writeFile (st : LockerState) (q c : String) (p : String) :
    fileExists (writeFile st q c) p = true ↔ fileExists st p = true ∨ p = q := by
  simp only [fileExists_iff, writeFile]
  exact mem_keys_upsert st.files q p c

/-- File existence after `repo.index.remove(..., working_tree=True)`. -/
theorem fileExists_removeFiles (st : LockerState) (ps : Finset String) (p : String) :
    fileExists (removeFiles st ps) p = true ↔ fileExists st p = true ∧ p ∉ ps := by
  simp only [fileExists_iff, removeFiles, List.mem_map, List.mem_filter]
  constructor
  · rintro ⟨q, ⟨hq, hps⟩, rfl⟩
    exact ⟨⟨q, hq, rfl⟩, by simpa using hps⟩
  · rintro ⟨⟨q, hq, rfl⟩, hps⟩
    exact ⟨q, ⟨hq, by simpa using hps⟩, rfl⟩

/-- File existence after the partition-file write loop of `add_evidence`. -/
theorem fileExists_foldl_write (e : EvidenceObj) (keys : List (List String))
    (st : LockerState) (p : String) :
    fileExists
      (keys.foldl
        (fun s k =>
          writeFile s (partFilePath e (getSha256Hash k (some 10))) (e.getPartition k))
        st) p = true ↔
      fileExists st p = true ∨
        p ∈ keys.map (fun k => partFilePath e (getSha256Hash k (some 10))) := by
  induction keys generalizing st with
  | nil => simp
  | cons k rest ih =>
    simp only [List.foldl_cons, List.map_cons, List.mem_cons]
    rw [ih, fileExists_writeFile]
    tauto

/-- Keys of the `parts` dict built by the partition loop of `Locker.index`. -/
theorem mem_keys_parts_fold (keys : List (List String)) (m0 : List (String × List String))
    (p : String) :
    p ∈ (keys.foldl (fun m k => upsert m (getSha256Hash k (some 10)) k) m0).map Prod.fst ↔
      p ∈ m0.map Prod.fst ∨ p ∈ keys.map (fun k => getSha256Hash k (some 10)) := by
  induction keys generalizing m0 with
  | nil => simp
  | cons k rest ih =>
    simp only [List.foldl_cons, List.map_cons, List.mem_cons]
    rw [ih, mem_keys_upsert]
    tauto

/-! ### Evidence path lemmas -/

/-- The hash component of a partition file path is determined by the path. -/
theorem partFilePath_inj (e : EvidenceObj) (h1 h2 : String)
    (h : partFilePath e h1 = partFilePath e h2) : h1 = h2 := by
  have hd := congrArg String.data h
  simp only [partFilePath, partFileName, String.data_append, List.append_assoc] at hd
  have h3 := List.append_cancel_left (List.append_cancel_left hd)
  exact String.ext (List.append_cancel_right h3)

/-- The unpartitioned evidence file path is never a partition file path. -/
theorem evidencePath_ne_partFilePath (e : EvidenceObj) (h : String) :
    evidencePath e ≠ partFilePath e h := by
  intro heq
  have hd := congrArg String.data heq
  simp only [evidencePath, partFilePath, partFileName, String.data_append,
    List.append_assoc] at hd
  have h3 := List.append_cancel_left (List.append_cancel_left hd)
  have hl := congrArg List.length h3
  have hu : "_".data.length = 1 := rfl
  simp only [List.length_append, hu] at hl
  omega

/-- A tmp evidence without an agent has a locker path under `tmp/`. -/
theorem tmp_no_agent_starts_tmp (e : EvidenceObj) (hkind : e.kind = "tmp")
    (hagent : e.agentName = none) :
    pyStartsWith (evidencePath e) "tmp/" = true := by
  unfold pyStartsWith evidencePath dirPath rootdir
  rw [hagent]
  simp only [hkind, String.data_append]
  simp [List.isPrefixOf]

/-- A raw evidence's locker path is never under `tmp/`. -/
theorem raw_not_tmp (e : EvidenceObj) (hkind : e.kind = "raw") :
    pyStartsWith (evidencePath e) "tmp/" = false := by
  unfold pyStartsWith evidencePath dirPath rootdir
  cases hag : e.agentName with
  | none =>
    rw [hkind]
    simp only [String.data_append]
    simp [List.isPrefixOf]
  | some n =>
    simp only [String.data_append]
    simp [List.isPrefixOf]

/-- Claim C6 (amended): for every tmp evidence whose locker path is rooted
at `tmp/` — that is, tmp evidence without an agent-scoped path — and that
has content, `add_evidence` writes the content file to the working tree and
stops: no `index.json` is created or modified and nothing is staged in the
git index.  (Agent-scoped tmp evidence, whose path is rooted under
`agents/<agent>/tmp/`, does not satisfy the `path.startswith("tmp/")` test
and is indexed; see the counterexample.) -/
theorem claim_C6 (st : LockerState) (commitDate : String) (e : EvidenceObj)
    (checks evidenceUsed : Option (List String)) (c : String)
    (hkind : e.kind = "tmp") (hagent : e.agentName = none)
    (hcontent : e.content = some c) (hpart : e.isPartitioned = false) :
    addEvidence st commitDate e checks evidenceUsed =
      some (writeFile st (evidencePath e) c) ∧
    (writeFile st (evidencePath e) c).staged = st.staged ∧
    (writeFile st (evidencePath e) c).indexes = st.indexes := by
  refine ⟨?_, rfl, rfl⟩
  simp [addEvidence, hcontent, hpart, tmp_no_agent_starts_tmp e hkind hagent]

/-- Claim C6 witness: adding a non-agent tmp evidence to the empty locker
state writes exactly its content file and touches neither the git index nor
any index file. -/
theorem claim_C6_witness :
    addEvidence {} "2022-01-01T00:00:00.000000"
        { agentName := none, kind := "tmp", category := "cat", name := "ev.json",
          content := some "data" } none none =
      some (writeFile {}
        (evidencePath
          { agentName := none, kind := "tmp", category := "cat", name := "ev.json",
            content := some "data" }) "data") ∧
    (writeFile {}
      (evidencePath
        { agentName := none, kind := "tmp", category := "cat", name := "ev.json",
          content := some "data" }) "data").staged = LockerState.staged {} ∧
    (writeFile {}
      (evidencePath
        { agentName := none, kind := "tmp", category := "cat", name := "ev.json",
          content := some "data" }) "data").indexes = LockerState.indexes {} :=
  claim_C6 {} "2022-01-01T00:00:00.000000"
    { agentName := none, kind := "tmp", category := "cat", name := "ev.json",
      content := some "data" } none none "data" rfl rfl rfl rfl

/-- Claim C6 counterexample: for an agent-scoped tmp evidence (locker path
`agents/agent1/tmp/cat/ev.json`), `add_evidence` does call `index`: the
resulting state has staged paths and a modified `index.json`, so the claim
that tmp evidence is never indexed or staged fails as stated. -/
theorem claim_C6_counterexample :
    ((addEvidence {} "2022-01-01T00:00:00.000000"
        { agentName := some "agent1", kind := "tmp", category := "cat",
          name := "ev.json", content := some "data" } none none).map
      (fun st => (decide (st.staged = ∅), decide (st.indexes = [])))) =
      some (false, false) := by
  decide

/-! ### Lemmas for the partitioned-evidence invariant (claim C2) -/

/-- Entry decoration never changes the `partitions` field. -/
theorem decorateEntry_partitions (entry : IndexEntry)
    (tombs : Option (List (String × List Tombstone)))
    (checks eu : Option (List String)) (e : EvidenceObj) :
    (decorateEntry entry tombs checks eu e).partitions = entry.partitions := by
  unfold decorateEntry
  cases tombs with
  | none => cases checks <;> cases eu <;> simp
  | some ts =>
    by_cases hts : ts ≠ [] <;> cases checks <;> cases eu <;> simp [hts]

/-- `finishIndex` does not touch the working tree. -/
theorem finishIndex_files (st : LockerState) (indexFile : String)
    (metadata : List (String × IndexEntry)) (name : String) (entry : IndexEntry)
    (tombs : Option (List (String × List Tombstone))) (repoFiles : List String)
    (checks eu : Option (List String)) (e : EvidenceObj) :
    (finishIndex st indexFile metadata name entry tombs repoFiles checks eu e).files =
      st.files := rfl

/-- File existence is unchanged by `finishIndex`. -/
theorem fileExists_finishIndex (st : LockerState) (indexFile : String)
    (metadata : List (String × IndexEntry)) (name : String) (entry : IndexEntry)
    (tombs : Option (List (String × List Tombstone))) (repoFiles : List String)
    (checks eu : Option (List String)) (e : EvidenceObj) (p : String) :
    fileExists (finishIndex st indexFile metadata name entry tombs repoFiles checks eu e)
      p = fileExists st p := by
  unfold fileExists
  rw [finishIndex_files]

/-- After `finishIndex`, the recorded partitions for the evidence are those
of the entry being written. -/
theorem indexEntryOf_finishIndex (st : LockerState)
    (metadata : List (String × IndexEntry)) (entry : IndexEntry)
    (tombs : Option (List (String × List Tombstone))) (repoFiles : List String)
    (checks eu : Option (List String)) (e : EvidenceObj) :
    (indexEntryOf
        (finishIndex st (indexFilePath e) metadata e.name entry tombs repoFiles checks
          eu e) e).bind (fun en => en.partitions) = entry.partitions := by
  unfold indexEntryOf finishIndex stageFiles
  simp [alookup_upsert, decorateEntry_partitions]

/-- Membership in a list of partition file paths is membership of the hash. -/
theorem mem_map_partFilePath (e : EvidenceObj) (hs : List String) (h : String) :
    partFilePath e h ∈ hs.map (partFilePath e) ↔ h ∈ hs := by
  constructor
  · intro hm
    obtain ⟨h2, hh2, heq⟩ := List.mem_map.mp hm
    exact (partFilePath_inj e h2 h heq) ▸ hh2
  · exact fun hm => List.mem_map.mpr ⟨h, hm, rfl⟩

/-- The partition-hash content of `dead_parts`. -/
theorem mem_deadPartsOf (st : LockerState) (e : EvidenceObj) (h : String) :
    h ∈ deadPartsOf st e ↔
      h ∈ oldPartsOf st e ∧
        ¬ h ∈ e.partitionKeys.map (fun k => getSha256Hash k (some 10)) := by
  unfold deadPartsOf
  rw [List.mem_filter]
  have hkeys : ∀ p : String,
      p ∈ (partsDict e).map (fun q => q.1) ↔
        p ∈ e.partitionKeys.map (fun k => getSha256Hash k (some 10)) := by
    intro p
    have := mem_keys_parts_fold e.partitionKeys [] p
    simpa [partsDict] using this
  constructor
  · rintro ⟨h1, h2⟩
    refine ⟨h1, ?_⟩
    rw [← hkeys h]
    simpa using h2
  · rintro ⟨h1, h2⟩
    refine ⟨h1, ?_⟩
    rw [decide_eq_true_eq]
    rw [hkeys h]
    exact h2

/-- File existence for partition files across the partitioned disk
transition of `Locker.index`. -/
theorem fileExists_partDiskTransition (st : LockerState) (e : EvidenceObj) (h : String) :
    fileExists (partDiskTransition st e) (partFilePath e h) = true ↔
      fileExists st (partFilePath e h) = true ∧ ¬ h ∈ deadPartsOf st e := by
  simp only [partDiskTransition]
  have hne : partFilePath e h ≠ evidencePath e := fun hc =>
    evidencePath_ne_partFilePath e h hc.symm
  by_cases hd : deadPartsOf st e ≠ []
  · rw [if_pos hd]
    unfold removePartitions
    rw [if_neg hd, fileExists_removeFiles]
    by_cases hu : fileExists st (evidencePath e) = true
    · rw [if_pos hu, fileExists_removeFiles]
      simp only [List.mem_toFinset, mem_map_partFilePath, Finset.mem_singleton]
      constructor
      · rintro ⟨⟨hf, _⟩, hdm⟩
        exact ⟨hf, hdm⟩
      · rintro ⟨hf, hdm⟩
        exact ⟨⟨hf, hne⟩, hdm⟩
    · rw [if_neg hu]
      simp only [List.mem_toFinset, mem_map_partFilePath]
  · rw [if_neg hd]
    rw [not_not] at hd
    have hdm : h ∉ deadPartsOf st e := by
      rw [hd]
      exact List.not_mem_nil h
    by_cases hu : fileExists st (evidencePath e) = true
    · rw [if_pos hu, fileExists_removeFiles]
      simp only [Finset.mem_singleton]
      constructor
      · rintro ⟨hf, _⟩
        exact ⟨hf, hdm⟩
      · rintro ⟨hf, _⟩
        exact ⟨hf, hne⟩
    · rw [if_neg hu]
      simp [hdm]

/-- The partition write loop of `add_evidence` leaves `indexes` unchanged. -/
theorem foldl_write_indexes (e : EvidenceObj) (keys : List (List String))
    (st : LockerState) :
    (keys.foldl
      (fun s k =>
        writeFile s (partFilePath e (getSha256Hash k (some 10))) (e.getPartition k))
      st).indexes = st.indexes := by
  induction keys generalizing st with
  | nil => rfl
  | cons k rest ih => rw [List.foldl_cons, ih]; rfl

/-- The partitioned branch of `Locker.index`, extracted. -/
theorem indexOp_partitioned_eq (st : LockerState) (commitDate : String) (e : EvidenceObj)
    (checks eu : Option (List String)) (hpart : e.isPartitioned = true) :
    indexOp st commitDate e checks eu =
      finishIndex (partDiskTransition st e) (indexFilePath e) (metadataOf st e) e.name
        (partEntry commitDate e) (partTombs st commitDate e) (partRepoFiles e)
        checks eu e := by
  unfold indexOp
  rw [if_pos hpart]

/-- The previous partition hashes are unchanged by the partition-file write
loop of `add_evidence`. -/
theorem oldPartsOf_foldl_write (e : EvidenceObj) (keys : List (List String))
    (st : LockerState) :
    oldPartsOf
      (keys.foldl
        (fun s k =>
          writeFile s (partFilePath e (getSha256Hash k (some 10))) (e.getPartition k))
        st) e = oldPartsOf st e := by
  unfold oldPartsOf evMetaOf metadataOf
  rw [foldl_write_indexes]

/-- Claim C2: after `add_evidence` (including its `index` step) completes
for a partitioned raw evidence whose partition key set is `K`, provided the
partition files on disk matched the previous index entry, the partition
files on disk for that evidence are exactly `{hash(k)_name : k ∈ K}` with
`hash` the first 10 hex characters of SHA-256 over the concatenated string
forms of the key parts (dead partition files from the previous entry are
removed), and the key set of the index entry's `partitions` map equals that
same set of hashes. -/
theorem claim_C2 (st : LockerState) (commitDate : String) (e : EvidenceObj)
    (checks evidenceUsed : Option (List String)) (c : String)
    (hkind : e.kind = "raw") (hpart : e.isPartitioned = true)
    (hcontent : e.content = some c)
    (hdisk : ∀ h2 : String,
      fileExists st (partFilePath e h2) = true ↔ h2 ∈ oldPartsOf st e) :
    ∃ st', addEvidence st commitDate e checks evidenceUsed = some st' ∧
      (∀ h2 : String, fileExists st' (partFilePath e h2) = true ↔
        h2 ∈ e.partitionKeys.map (fun k => getSha256Hash k (some 10))) ∧
      ((((indexEntryOf st' e).bind (fun en => en.partitions)).getD []).map
          (fun q => q.1)).toFinset =
        (e.partitionKeys.map (fun k => getSha256Hash k (some 10))).toFinset := by
  have hnottmp := raw_not_tmp e hkind
  have hadd : addEvidence st commitDate e checks evidenceUsed =
      some (indexOp
        (e.partitionKeys.foldl
          (fun s k =>
            writeFile s (partFilePath e (getSha256Hash k (some 10))) (e.getPartition k))
          st)
        commitDate e checks evidenceUsed) := by
    unfold addEvidence
    rw [hcontent]
    simp [hpart, hnottmp]
  refine ⟨_, hadd, ?_, ?_⟩
  · intro h2
    rw [indexOp_partitioned_eq _ _ _ _ _ hpart, fileExists_finishIndex,
      fileExists_partDiskTransition, mem_deadPartsOf, fileExists_foldl_write,
      oldPartsOf_foldl_write]
    rw [hdisk h2]
    have hmem : partFilePath e h2 ∈
        e.partitionKeys.map (fun k => partFilePath e (getSha256Hash k (some 10))) ↔
        h2 ∈ e.partitionKeys.map (fun k => getSha256Hash k (some 10)) := by
      rw [show e.partitionKeys.map (fun k => partFilePath e (getSha256Hash k (some 10))) =
          (e.partitionKeys.map (fun k => getSha256Hash k (some 10))).map (partFilePath e)
        by
          rw [List.map_map]
          rfl]
      exact mem_map_partFilePath e _ h2
    rw [hmem]
    tauto
  · rw [indexOp_partitioned_eq _ _ _ _ _ hpart, indexEntryOf_finishIndex]
    rw [show (partEntry commitDate e).partitions = some (partsDict e) from rfl]
    simp only [Option.getD_some]
    ext p
    simp only [List.mem_toFinset]
    have := mem_keys_parts_fold e.partitionKeys [] p
    simpa [partsDict] using this

/-- Claim C2 witness: adding a two-key partitioned raw evidence to the
empty locker state satisfies the disk/index partition invariant. -/
theorem claim_C2_witness :
    ∃ st', addEvidence {} "2022-01-01T00:00:00.000000"
        { agentName := none, kind := "raw", category := "ppl", name := "people.json",
          content := some "x", isPartitioned := true, partFields := some ["lname"],
          partitionKeys := [["lebowski"], ["sobchak"]] } none none = some st' ∧
      (∀ h2 : String,
        fileExists st'
            (partFilePath
              { agentName := none, kind := "raw", category := "ppl",
                name := "people.json", content := some "x", isPartitioned := true,
                partFields := some ["lname"],
                partitionKeys := [["lebowski"], ["sobchak"]] } h2) = true ↔
          h2 ∈ ([["lebowski"], ["sobchak"]] : List (List String)).map
            (fun k => getSha256Hash k (some 10))) ∧
      ((((indexEntryOf st'
            { agentName := none, kind := "raw", category := "ppl",
              name := "people.json", content := some "x", isPartitioned := true,
              partFields := some ["lname"],
              partitionKeys := [["lebowski"], ["sobchak"]] }).bind
          (fun en => en.partitions)).getD []).map (fun q => q.1)).toFinset =
        (([["lebowski"], ["sobchak"]] : List (List String)).map
          (fun k => getSha256Hash k (some 10))).toFinset := by
  exact claim_C2 {} "2022-01-01T00:00:00.000000"
    { agentName := none, kind := "raw", category := "ppl", name := "people.json",
      content := some "x", isPartitioned := true, partFields := some ["lname"],
      partitionKeys := [["lebowski"], ["sobchak"]] } none none "x" rfl rfl rfl
    (by
      intro h2
      simp [fileExists, oldPartsOf, evMetaOf, metadataOf, alookup])

/-- Claim C10: for every agent that is not signable (missing name or
missing private key), `hash_and_sign` returns `(None, None)` and raises no
error; consequently `set_content` on an evidence attached to such an agent
stores the content unsigned, with digest and signature left as `None`. -/
theorem claim_C10 (a : AgentM) (hsig : pySignable a = false) (dataBytes : List Nat)
    (ev : EvidenceContentState) (hagent : ev.agent = a) (c : String)
    (ev2 : EvidenceContentState)
    (hset : setContent ev (some c) true = some ev2) :
    hashAndSign a dataBytes = (none, none) ∧
    ev2.digest = none ∧ ev2.signature = none ∧ ev2.content ≠ none := by
  have h1 : ∀ d : List Nat, hashAndSign a d = (none, none) := by
    intro d
    unfold hashAndSign
    rw [hsig]
    simp
  refine ⟨h1 dataBytes, ?_⟩
  simp only [setContent] at hset
  cases hjs : (if pySuffix ev.name = "json" then Option.map formatJson (jsonLoads c)
      else some c) with
  | none =>
    rw [hjs] at hset
    exact absurd hset (by simp)
  | some c2 =>
    rw [hjs, hagent] at hset
    simp at hset
    rw [h1 (strBytes c2)] at hset
    subst hset
    exact ⟨rfl, rfl, by simp⟩

/-- Claim C10 witness: an agent with neither name nor key leaves a fresh
text evidence unsigned. -/
theorem claim_C10_witness :
    hashAndSign { name := none, privateKey := none } [1, 2, 3] = (none, none) ∧
    ({ name := "e.txt", agent := { name := none, privateKey := none },
        binaryContent := false, content := some "x", digest := none,
        signature := none } : EvidenceContentState).digest = none ∧
    ({ name := "e.txt", agent := { name := none, privateKey := none },
        binaryContent := false, content := some "x", digest := none,
        signature := none } : EvidenceContentState).signature = none ∧
    ({ name := "e.txt", agent := { name := none, privateKey := none },
        binaryContent := false, content := some "x", digest := none,
        signature := none } : EvidenceContentState).content ≠ none :=
  claim_C10 { name := none, privateKey := none } rfl [1, 2, 3]
    { name := "e.txt", agent := { name := none, privateKey := none } } rfl "x"
    { name := "e.txt", agent := { name := none, privateKey := none },
      binaryContent := false, content := some "x", digest := none,
      signature := none }
    rfl

/-- Claim C9 witness: a file with no index metadata is abandoned, and the
membership characterisation at a concrete file list. -/
theorem claim_C9_witness :
    evidenceAbandoned none none 0 = true ∧
    ("raw/a/b.json" ∈ getAbandonedEvidences [("raw/a/b.json", none)] none 0 ↔
      ∃ md, ("raw/a/b.json", md) ∈ [("raw/a/b.json", (none : Option AbandonMeta))] ∧
        evidenceAbandoned md none 0 = true) := by
  refine ⟨?_, (claim_C9 [("raw/a/b.json", none)] none 0).2 "raw/a/b.json"⟩
  exact ((claim_C9 [] none 0).1 none).mpr (Or.inl rfl)

/-! ### Helper lemmas for claim C8 -/

theorem alookup_some_mem {α : Type} (es : List (String × α)) (k : String) (v : α)
    (h : alookup es k = some v) : (k, v) ∈ es := by
  simp only [alookup, Option.map_eq_some'] at h
  obtain ⟨q, hq, hv⟩ := h
  have hmem := List.mem_of_find?_eq_some hq
  have hpred := List.find?_some hq
  simp only [decide_eq_true_eq] at hpred
  have : (k, v) = q := by
    obtain ⟨q1, q2⟩ := q
    simp only at hpred hv
    rw [hpred, hv]
  rw [this]
  exact hmem

theorem pushNode_mem (h : Heap) (n : PyNode) (b : Nat) :
    (pushNode h n).1.mem b = if b = h.next then some n else h.mem b := rfl

theorem allocFold_spec (g : Heap → PyTree → Option (Heap × Nat))
    (hg : ∀ h t r, g h t = some r → AllocSpec h r) :
    ∀ (ts : List PyTree) (h : Heap) (q : Heap × List Nat),
    allocFold g h ts = some q → FoldSpec h q := by
  intro ts
  induction ts with
  | nil =>
    intro h q hq
    simp only [allocFold] at hq
    cases hq
    exact ⟨fun b _ => rfl, le_refl _, by simp, fun b n hm => Or.inl hm⟩
  | cons t ts ih =>
    intro h q hq
    simp only [allocFold] at hq
    cases hgt : g h t with
    | none => rw [hgt, Option.none_bind] at hq; cases hq
    | some r =>
      rw [hgt, Option.some_bind] at hq
      cases hfold : allocFold g r.1 ts with
      | none => rw [hfold, Option.map_none'] at hq; cases hq
      | some q0 =>
        rw [hfold, Option.map_some'] at hq
        cases hq
        obtain ⟨sfr, snext, saddr, saddr2, snode⟩ := hg h t r hgt
        obtain ⟨ffr, fnext, faddr, fnode⟩ := ih r.1 q0 hfold
        refine ⟨?_, ?_, ?_, ?_⟩
        · intro b hb
          rw [ffr b (lt_trans hb snext), sfr b hb]
        · exact le_trans (le_of_lt snext) fnext
        · intro c hc
          rcases List.mem_cons.mp hc with hc | hc
          · subst hc
            exact ⟨saddr, lt_of_lt_of_le saddr2 fnext⟩
          · obtain ⟨h1, h2⟩ := faddr c hc
            exact ⟨le_trans (le_of_lt snext) h1, h2⟩
        · intro b n hm
          rcases fnode b n hm with hold | ⟨hb, hch⟩
          · rcases snode b n hold with hold2 | ⟨hb2, hch2⟩
            · exact Or.inl hold2
            · exact Or.inr ⟨hb2, hch2⟩
          · refine Or.inr ⟨le_trans (le_of_lt snext) hb, fun c hc => ?_⟩
            obtain ⟨h1, h2⟩ := hch c hc
            exact ⟨le_trans (le_of_lt snext) h1, h2⟩

theorem allocFoldD_spec (g : Heap → PyTree → Option (Heap × Nat))
    (hg : ∀ h t r, g h t = some r → AllocSpec h r) :
    ∀ (es : List (String × PyTree)) (h : Heap) (q : Heap × List (String × Nat)),
    allocFoldD g h es = some q → FoldSpecD h q := by
  intro es
  induction es with
  | nil =>
    intro h q hq
    simp only [allocFoldD] at hq
    cases hq
    exact ⟨fun b _ => rfl, le_refl _, by simp, fun b n hm => Or.inl hm⟩
  | cons e es ih =>
    intro h q hq
    simp only [allocFoldD] at hq
    cases hgt : g h e.2 with
    | none => rw [hgt, Option.none_bind] at hq; cases hq
    | some r =>
      rw [hgt, Option.some_bind] at hq
      cases hfold : allocFoldD g r.1 es with
      | none => rw [hfold, Option.map_none'] at hq; cases hq
      | some q0 =>
        rw [hfold, Option.map_some'] at hq
        cases hq
        obtain ⟨sfr, snext, saddr, saddr2, snode⟩ := hg h e.2 r hgt
        obtain ⟨ffr, fnext, faddr, fnode⟩ := ih r.1 q0 hfold
        refine ⟨?_, ?_, ?_, ?_⟩
        · intro b hb
          rw [ffr b (lt_trans hb snext), sfr b hb]
        · exact le_trans (le_of_lt snext) fnext
        · intro c hc
          rcases List.mem_cons.mp hc with hc | hc
          · subst hc
            exact ⟨saddr, lt_of_lt_of_le saddr2 fnext⟩
          · obtain ⟨h1, h2⟩ := faddr c hc
            exact ⟨le_trans (le_of_lt snext) h1, h2⟩
        · intro b n hm
          rcases fnode b n hm with hold | ⟨hb, hch⟩
          · rcases snode b n hold with hold2 | ⟨hb2, hch2⟩
            · exact Or.inl hold2
            · exact Or.inr ⟨hb2, hch2⟩
          · refine Or.inr ⟨le_trans (le_of_lt snext) hb, fun c hc => ?_⟩
            obtain ⟨h1, h2⟩ := hch c hc
            exact ⟨le_trans (le_of_lt snext) h1, h2⟩

theorem allocT_spec :
    ∀ (f : Nat) (h : Heap) (t : PyTree) (r : Heap × Nat),
    allocT f h t = some r → AllocSpec h r := by
  intro f
  induction f with
  | zero => intro h t r hr; simp [allocT] at hr
  | succ f ih =>
    intro h t r hr
    cases t with
    | prim v =>
      simp only [allocT] at hr
      cases hr
      refine ⟨?_, Nat.lt_succ_self _, le_refl _, Nat.lt_succ_self _, ?_⟩
      · intro b hb
        simp [pushNode, Nat.ne_of_lt hb]
      · intro b n hm
        simp only [pushNode] at hm
        by_cases hb : b = h.next
        · rw [if_pos hb] at hm
          cases hm
          exact Or.inr ⟨le_of_eq hb.symm, by simp [nodeChildren]⟩
        · rw [if_neg hb] at hm
          exact Or.inl hm
    | list ts =>
      simp only [allocT] at hr
      cases hfold : allocFold (fun h2 t => allocT f h2 t) h ts with
      | none => rw [hfold, Option.map_none'] at hr; cases hr
      | some pr =>
        rw [hfold, Option.map_some'] at hr
        cases hr
        obtain ⟨ffr, fnext, faddr, fnode⟩ :=
          allocFold_spec _ (fun h2 t2 r2 hr2 => ih h2 t2 r2 hr2) ts h pr hfold
        refine ⟨?_, ?_, ?_, ?_, ?_⟩
        · intro b hb
          rw [pushNode_mem, if_neg (Nat.ne_of_lt (lt_of_lt_of_le hb fnext)),
            ffr b hb]
        · exact lt_of_le_of_lt fnext (Nat.lt_succ_self _)
        · exact fnext
        · exact Nat.lt_succ_self _
        · intro b n hm
          rw [pushNode_mem] at hm
          by_cases hb : b = pr.1.next
          · rw [if_pos hb] at hm
            cases hm
            refine Or.inr ⟨le_trans fnext (le_of_eq hb.symm), fun c hc => ?_⟩
            obtain ⟨h1, h2⟩ := faddr c hc
            exact ⟨h1, by rw [hb]; exact h2⟩
          · rw [if_neg hb] at hm
            exact fnode b n hm
    | dict es =>
      simp only [allocT] at hr
      cases hfold : allocFoldD (fun h2 t => allocT f h2 t) h es with
      | none => rw [hfold, Option.map_none'] at hr; cases hr
      | some pr =>
        rw [hfold, Option.map_some'] at hr
        cases hr
        obtain ⟨ffr, fnext, faddr, fnode⟩ :=
          allocFoldD_spec _ (fun h2 t2 r2 hr2 => ih h2 t2 r2 hr2) es h pr hfold
        refine ⟨?_, ?_, ?_, ?_, ?_⟩
        · intro b hb
          rw [pushNode_mem, if_neg (Nat.ne_of_lt (lt_of_lt_of_le hb fnext)),
            ffr b hb]
        · exact lt_of_le_of_lt fnext (Nat.lt_succ_self _)
        · exact fnext
        · exact Nat.lt_succ_self _
        · intro b n hm
          rw [pushNode_mem] at hm
          by_cases hb : b = pr.1.next
          · rw [if_pos hb] at hm
            cases hm
            refine Or.inr ⟨le_trans fnext (le_of_eq hb.symm), fun c hc => ?_⟩
            simp only [nodeChildren, List.mem_map] at hc
            obtain ⟨e, he, hec⟩ := hc
            obtain ⟨h1, h2⟩ := faddr e he
            rw [← hec]
            exact ⟨h1, by rw [hb]; exact h2⟩
          · rw [if_neg hb] at hm
            exact fnode b n hm

theorem allocT_desc {f : Nat} {h : Heap} {t : PyTree} {r : Heap × Nat}
    (hdesc : heapDesc h) (hr : allocT f h t = some r) : heapDesc r.1 := by
  intro b n hm c hc
  rcases (allocT_spec f h t r hr).2.2.2.2 b n hm with hold | ⟨_, hch⟩
  · exact hdesc b n hold c hc
  · exact (hch c hc).2

theorem readT_agree (h1 h2 : Heap) (hdesc : heapDesc h1) :
    ∀ (f a : Nat), (∀ b, b ≤ a → h1.mem b = h2.mem b) →
    readT h1 f a = readT h2 f a := by
  intro f
  induction f with
  | zero => intro a _; rfl
  | succ f ih =>
    intro a hag
    have hma : h2.mem a = h1.mem a := (hag a (le_refl a)).symm
    simp only [readT, hma]
    cases hm : h1.mem a with
    | none => rfl
    | some n =>
      cases n with
      | prim v => rfl
      | list cs =>
        have hcs : ∀ c ∈ cs, readT h1 f c = readT h2 f c := by
          intro c hc
          have hlt : c < a := hdesc a (.list cs) hm c hc
          exact ih c (fun b hb => hag b (le_of_lt (lt_of_le_of_lt hb hlt)))
        show Option.map PyTree.list (optList (List.map (fun c => readT h1 f c) cs)) =
          Option.map PyTree.list (optList (List.map (fun c => readT h2 f c) cs))
        rw [List.map_congr_left hcs]
      | dict es =>
        have hes : ∀ q ∈ es,
            (readT h1 f q.2).map (fun t => (q.1, t)) =
              (readT h2 f q.2).map (fun t => (q.1, t)) := by
          intro q hq
          have hlt : q.2 < a :=
            hdesc a (.dict es) hm q.2 (List.mem_map_of_mem (fun e => e.2) hq)
          rw [ih q.2 (fun b hb => hag b (le_of_lt (lt_of_le_of_lt hb hlt)))]
        show Option.map PyTree.dict (optList (List.map
            (fun q => Option.map (fun t => (q.1, t)) (readT h1 f q.2)) es)) =
          Option.map PyTree.dict (optList (List.map
            (fun q => Option.map (fun t => (q.1, t)) (readT h2 f q.2)) es))
        rw [List.map_congr_left hes]

theorem readT_fuel (h : Heap) (hdesc : heapDesc h) :
    ∀ (a f1 f2 : Nat), a < f1 → a < f2 → readT h f1 a = readT h f2 a := by
  intro a
  induction a using Nat.strong_induction_on with
  | _ a ih =>
    intro f1 f2 hf1 hf2
    obtain ⟨g1, rfl⟩ : ∃ g1, f1 = g1 + 1 := ⟨f1 - 1, by omega⟩
    obtain ⟨g2, rfl⟩ : ∃ g2, f2 = g2 + 1 := ⟨f2 - 1, by omega⟩
    simp only [readT]
    cases hm : h.mem a with
    | none => rfl
    | some n =>
      cases n with
      | prim v => rfl
      | list cs =>
        have hcs : ∀ c ∈ cs, readT h g1 c = readT h g2 c := by
          intro c hc
          have hlt : c < a := hdesc a (.list cs) hm c hc
          exact ih c hlt g1 g2 (by omega) (by omega)
        show Option.map PyTree.list (optList (List.map (fun c => readT h g1 c) cs)) =
          Option.map PyTree.list (optList (List.map (fun c => readT h g2 c) cs))
        rw [List.map_congr_left hcs]
      | dict es =>
        have hes : ∀ q ∈ es,
            (readT h g1 q.2).map (fun t => (q.1, t)) =
              (readT h g2 q.2).map (fun t => (q.1, t)) := by
          intro q hq
          have hlt : q.2 < a :=
            hdesc a (.dict es) hm q.2 (List.mem_map_of_mem (fun e => e.2) hq)
          rw [ih q.2 hlt g1 g2 (by omega) (by omega)]
        show Option.map PyTree.dict (optList (List.map
            (fun q => Option.map (fun t => (q.1, t)) (readT h g1 q.2)) es)) =
          Option.map PyTree.dict (optList (List.map
            (fun q => Option.map (fun t => (q.1, t)) (readT h g2 q.2)) es))
        rw [List.map_congr_left hes]

theorem optList_forall2 {α β : Type} (g : α → Option β) :
    ∀ (xs : List α) (ys : List β),
    List.Forall₂ (fun x y => g x = some y) xs ys →
    optList (xs.map g) = some ys := by
  intro xs
  induction xs with
  | nil => intro ys h; cases h; rfl
  | cons x xs ih =>
    intro ys h
    cases h with
    | cons hxy htail =>
      simp only [List.map_cons, optList, hxy, Option.some_bind, ih _ htail,
        Option.map_some']

theorem allocFold_read (g : Heap → PyTree → Option (Heap × Nat))
    (hg_spec : ∀ h t r, g h t = some r → AllocSpec h r)
    (hg_desc : ∀ h t r, heapDesc h → g h t = some r → heapDesc r.1)
    (hg_read : ∀ h t r, heapDesc h → g h t = some r →
      readT r.1 (r.2 + 1) r.2 = some t) :
    ∀ (ts : List PyTree) (h : Heap) (q : Heap × List Nat), heapDesc h →
    allocFold g h ts = some q →
    List.Forall₂ (fun c t => c < q.1.next ∧ ∀ (h3 : Heap) (f2 : Nat),
      (∀ b, b ≤ c → h3.mem b = q.1.mem b) → c < f2 →
      readT h3 f2 c = some t) q.2 ts := by
  intro ts
  induction ts with
  | nil =>
    intro h q hdesc hq
    simp only [allocFold] at hq
    cases hq
    exact List.Forall₂.nil
  | cons t ts ih =>
    intro h q hdesc hq
    simp only [allocFold] at hq
    cases hgt : g h t with
    | none => rw [hgt, Option.none_bind] at hq; cases hq
    | some r =>
      rw [hgt, Option.some_bind] at hq
      cases hfold : allocFold g r.1 ts with
      | none => rw [hfold, Option.map_none'] at hq; cases hq
      | some q0 =>
        rw [hfold, Option.map_some'] at hq
        cases hq
        have hdr : heapDesc r.1 := hg_desc h t r hdesc hgt
        obtain ⟨_, _, _, saddr2, _⟩ := hg_spec h t r hgt
        obtain ⟨ffr, fnext, _, _⟩ := allocFold_spec g hg_spec ts r.1 q0 hfold
        refine List.Forall₂.cons ⟨lt_of_lt_of_le saddr2 fnext, ?_⟩
          (ih r.1 q0 hdr hfold)
        intro h3 f2 hag hf2
        have hag2 : ∀ b, b ≤ r.2 → r.1.mem b = h3.mem b := by
          intro b hb
          rw [hag b hb, ffr b (lt_of_le_of_lt hb saddr2)]
        rw [← readT_agree r.1 h3 hdr f2 r.2 hag2,
          readT_fuel r.1 hdr r.2 f2 (r.2 + 1) hf2 (Nat.lt_succ_self _)]
        exact hg_read h t r hdesc hgt

theorem allocFoldD_read (g : Heap → PyTree → Option (Heap × Nat))
    (hg_spec : ∀ h t r, g h t = some r → AllocSpec h r)
    (hg_desc : ∀ h t r, heapDesc h → g h t = some r → heapDesc r.1)
    (hg_read : ∀ h t r, heapDesc h → g h t = some r →
      readT r.1 (r.2 + 1) r.2 = some t) :
    ∀ (es : List (String × PyTree)) (h : Heap)
      (q : Heap × List (String × Nat)), heapDesc h →
    allocFoldD g h es = some q →
    List.Forall₂ (fun e et => e.1 = et.1 ∧ e.2 < q.1.next ∧
      ∀ (h3 : Heap) (f2 : Nat),
      (∀ b, b ≤ e.2 → h3.mem b = q.1.mem b) → e.2 < f2 →
      readT h3 f2 e.2 = some et.2) q.2 es := by
  intro es
  induction es with
  | nil =>
    intro h q hdesc hq
    simp only [allocFoldD] at hq
    cases hq
    exact List.Forall₂.nil
  | cons e es ih =>
    intro h q hdesc hq
    simp only [allocFoldD] at hq
    cases hgt : g h e.2 with
    | none => rw [hgt, Option.none_bind] at hq; cases hq
    | some r =>
      rw [hgt, Option.some_bind] at hq
      cases hfold : allocFoldD g r.1 es with
      | none => rw [hfold, Option.map_none'] at hq; cases hq
      | some q0 =>
        rw [hfold, Option.map_some'] at hq
        cases hq
        have hdr : heapDesc r.1 := hg_desc h e.2 r hdesc hgt
        obtain ⟨_, _, _, saddr2, _⟩ := hg_spec h e.2 r hgt
        obtain ⟨ffr, fnext, _, _⟩ := allocFoldD_spec g hg_spec es r.1 q0 hfold
        refine List.Forall₂.cons ⟨rfl, lt_of_lt_of_le saddr2 fnext, ?_⟩
          (ih r.1 q0 hdr hfold)
        intro h3 f2 hag hf2
        have hag2 : ∀ b, b ≤ r.2 → r.1.mem b = h3.mem b := by
          intro b hb
          rw [hag b hb, ffr b (lt_of_le_of_lt hb saddr2)]
        rw [← readT_agree r.1 h3 hdr f2 r.2 hag2,
          readT_fuel r.1 hdr r.2 f2 (r.2 + 1) hf2 (Nat.lt_succ_self _)]
        exact hg_read h e.2 r hdesc hgt

theorem allocT_read :
    ∀ (f : Nat) (h : Heap) (t : PyTree) (r : Heap × Nat), heapDesc h →
    allocT f h t = some r → readT r.1 (r.2 + 1) r.2 = some t := by
  intro f
  induction f with
  | zero => intro h t r _ hr; simp [allocT] at hr
  | succ f ih =>
    intro h t r hdesc hr
    cases t with
    | prim v =>
      simp only [allocT] at hr
      cases hr
      show readT (pushNode h (PyNode.prim v)).1 (h.next + 1) h.next =
        some (PyTree.prim v)
      simp [readT, pushNode]
    | list ts =>
      simp only [allocT] at hr
      cases hfold : allocFold (fun h2 t => allocT f h2 t) h ts with
      | none => rw [hfold, Option.map_none'] at hr; cases hr
      | some pr =>
        rw [hfold, Option.map_some'] at hr
        cases hr
        have hforall := allocFold_read _
          (fun h2 t2 r2 h2r => allocT_spec f h2 t2 r2 h2r)
          (fun h2 t2 r2 hd2 h2r => allocT_desc hd2 h2r)
          (fun h2 t2 r2 hd2 h2r => ih h2 t2 r2 hd2 h2r) ts h pr hdesc hfold
        show readT (pushNode pr.1 (PyNode.list pr.2)).1 (pr.1.next + 1)
          pr.1.next = some (PyTree.list ts)
        simp only [readT, pushNode_mem, if_pos rfl]
        have hall : List.Forall₂
            (fun c t => readT (pushNode pr.1 (PyNode.list pr.2)).1 pr.1.next c =
              some t) pr.2 ts := by
          refine hforall.imp ?_
          intro c t hct
          refine hct.2 _ pr.1.next ?_ hct.1
          intro b hb
          rw [pushNode_mem, if_neg (Nat.ne_of_lt (lt_of_le_of_lt hb hct.1))]
        show Option.map PyTree.list (optList (List.map
          (fun c => readT (pushNode pr.1 (PyNode.list pr.2)).1 pr.1.next c)
          pr.2)) = some (PyTree.list ts)
        rw [optList_forall2
          (fun c => readT (pushNode pr.1 (PyNode.list pr.2)).1 pr.1.next c)
          pr.2 ts hall]
        rfl
    | dict es =>
      simp only [allocT] at hr
      cases hfold : allocFoldD (fun h2 t => allocT f h2 t) h es with
      | none => rw [hfold, Option.map_none'] at hr; cases hr
      | some pr =>
        rw [hfold, Option.map_some'] at hr
        cases hr
        have hforall := allocFoldD_read _
          (fun h2 t2 r2 h2r => allocT_spec f h2 t2 r2 h2r)
          (fun h2 t2 r2 hd2 h2r => allocT_desc hd2 h2r)
          (fun h2 t2 r2 hd2 h2r => ih h2 t2 r2 hd2 h2r) es h pr hdesc hfold
        show readT (pushNode pr.1 (PyNode.dict pr.2)).1 (pr.1.next + 1)
          pr.1.next = some (PyTree.dict es)
        simp only [readT, pushNode_mem, if_pos rfl]
        have hall : List.Forall₂
            (fun e et =>
              (readT (pushNode pr.1 (PyNode.dict pr.2)).1 pr.1.next e.2).map
                (fun t => (e.1, t)) = some et) pr.2 es := by
          refine hforall.imp ?_
          intro e et het
          have hread : readT (pushNode pr.1 (PyNode.dict pr.2)).1 pr.1.next e.2 =
              some et.2 := by
            refine het.2.2 _ pr.1.next ?_ het.2.1
            intro b hb
            rw [pushNode_mem, if_neg (Nat.ne_of_lt (lt_of_le_of_lt hb het.2.1))]
          rw [hread, Option.map_some', het.1]
        show Option.map PyTree.dict (optList (List.map
          (fun q => Option.map (fun t => (q.1, t))
            (readT (pushNode pr.1 (PyNode.dict pr.2)).1 pr.1.next q.2))
          pr.2)) = some (PyTree.dict es)
        rw [optList_forall2
          (fun q => Option.map (fun t => (q.1, t))
            (readT (pushNode pr.1 (PyNode.dict pr.2)).1 pr.1.next q.2))
          pr.2 es hall]
        rfl

theorem reach_fresh {f : Nat} {h : Heap} {t : PyTree} {r : Heap × Nat}
    (hwf : h.wf) (hr : allocT f h t = some r) :
    ∀ b, Reach r.1 r.2 b → h.next ≤ b := by
  intro b hreach
  induction hreach with
  | refl => exact (allocT_spec f h t r hr).2.2.1
  | step n hre hmem hc ihb =>
    rcases (allocT_spec f h t r hr).2.2.2.2 _ n hmem with hold | ⟨_, hch⟩
    · exact absurd (hwf.1 _ n hold) (not_lt_of_le ihb)
    · exact (hch _ hc).1

theorem walkStep_bound {h : Heap} (hdesc : heapDesc h) {a : Nat}
    {es : List (String × Nat)} (hm : h.mem a = some (.dict es)) (k : String) :
    ∀ x, walkStep h es k = some x → x < a := by
  intro x hx
  unfold walkStep at hx
  cases hl : alookup es k with
  | none => simp only [hl] at hx; cases hx
  | some a2 =>
    simp only [hl] at hx
    by_cases hn : isNoneAddr h a2
    · rw [if_pos hn] at hx; cases hx
    · rw [if_neg hn] at hx
      cases hx
      exact hdesc a (.dict es) hm x
        (List.mem_map_of_mem (fun e => e.2) (alookup_some_mem es k x hl))

theorem walkStep_agree (h1 h2 : Heap) (hdesc : heapDesc h1) {N : Nat}
    (hag : ∀ b, b < N → h1.mem b = h2.mem b) {a : Nat}
    {es : List (String × Nat)} (hm : h1.mem a = some (.dict es)) (ha : a < N)
    (k : String) : walkStep h1 es k = walkStep h2 es k := by
  unfold walkStep
  cases hl : alookup es k with
  | none => rfl
  | some a2 =>
    have ha2 : a2 < a := hdesc a (.dict es) hm a2
      (List.mem_map_of_mem (fun e => e.2) (alookup_some_mem es k a2 hl))
    have hiso : isNoneAddr h1 a2 = isNoneAddr h2 a2 := by
      unfold isNoneAddr
      rw [hag a2 (lt_trans ha2 ha)]
    show (if isNoneAddr h1 a2 then none else some a2) =
      (if isNoneAddr h2 a2 then none else some a2)
    rw [hiso]

theorem dotWalk_bound (h : Heap) (hdesc : heapDesc h) (N : Nat) :
    ∀ (ks : List String) (v : Option Nat), (∀ x, v = some x → x < N) →
    ∀ a0, dotWalk h v ks = .ok (some a0) → a0 < N := by
  intro ks
  induction ks with
  | nil =>
    intro v hv a0 hw
    simp only [dotWalk] at hw
    cases hw
    exact hv a0 rfl
  | cons k ks ih =>
    intro v hv a0 hw
    cases v with
    | none => simp only [dotWalk] at hw; cases hw
    | some a =>
      simp only [dotWalk] at hw
      cases hm : h.mem a with
      | none => simp only [hm] at hw; cases hw
      | some n =>
        cases n with
        | prim p => simp only [hm] at hw; cases hw
        | list cs => simp only [hm] at hw; cases hw
        | dict es =>
          simp only [hm] at hw
          exact ih (walkStep h es k)
            (fun x hx => lt_trans (walkStep_bound hdesc hm k x hx) (hv a rfl))
            a0 hw

theorem dotWalk_agree (h1 h2 : Heap) (hdesc : heapDesc h1) (N : Nat)
    (hag : ∀ b, b < N → h1.mem b = h2.mem b) :
    ∀ (ks : List String) (v : Option Nat), (∀ x, v = some x → x < N) →
    dotWalk h1 v ks = dotWalk h2 v ks := by
  intro ks
  induction ks with
  | nil => intro v _; cases v <;> rfl
  | cons k ks ih =>
    intro v hv
    cases v with
    | none => rfl
    | some a =>
      have haN : a < N := hv a rfl
      have hma : h2.mem a = h1.mem a := (hag a haN).symm
      simp only [dotWalk, hma]
      cases hm : h1.mem a with
      | none => rfl
      | some n =>
        cases n with
        | prim p => rfl
        | list cs => rfl
        | dict es =>
          show dotWalk h1 (walkStep h1 es k) ks =
            dotWalk h2 (walkStep h2 es k) ks
          rw [← walkStep_agree h1 h2 hdesc hag hm haN k]
          exact ih (walkStep h1 es k)
            (fun x hx => lt_trans (walkStep_bound hdesc hm k x hx) haN)

theorem configGet_copy_core (cfg : ConfigH) (hwf : cfg.heap.wf) (a0 : Nat)
    (pr : Heap × Nat) (hdc : deepcopyAt cfg.heap a0 = some pr) (h2 : Heap)
    (hmut : ∀ b, ¬ Reach pr.1 pr.2 b → h2.mem b = pr.1.mem b) :
    readTree pr.1 pr.2 = readTree cfg.heap a0 ∧
    (∀ b, b < cfg.heap.next → h2.mem b = cfg.heap.mem b) := by
  unfold deepcopyAt at hdc
  cases hrt : readTree cfg.heap a0 with
  | none => rw [hrt, Option.none_bind] at hdc; cases hdc
  | some t =>
    rw [hrt, Option.some_bind] at hdc
    have hdesc : heapDesc cfg.heap := hwf.2
    obtain ⟨sfr, _, _, _, _⟩ := allocT_spec (a0 + 1) cfg.heap t pr hdc
    constructor
    · show readT pr.1 (pr.2 + 1) pr.2 = some t
      exact allocT_read (a0 + 1) cfg.heap t pr hdesc hdc
    · intro b hb
      have hnr : ¬ Reach pr.1 pr.2 b := fun hre =>
        absurd (reach_fresh hwf hdc b hre) (not_le_of_lt hb)
      rw [hmut b hnr]
      exact sfr b hb

/-- C8: for every dot path and default, `ComplianceConfig.get` walks the
user-supplied document and, when that yields `None`, the fixed defaults
tree, and returns a deep copy of the resolved value (or of the default):
the returned heap object reads back as exactly the resolved value, and
after any mutation confined to the returned copy (any heap agreeing with
the post-`get` heap outside the addresses reachable from the returned
object), a subsequent `get` with the same arguments returns the same
value as before. -/
theorem claim_C8 (cfg : ConfigH) (path : String) (default : Option Nat)
    (hwf : cfg.heap.wf)
    (hu : cfg.userRoot < cfg.heap.next)
    (hd : cfg.defaultsRoot < cfg.heap.next)
    (hdef : ∀ d, default = some d → d < cfg.heap.next)
    (res : Heap × Option Nat) (a : Nat)
    (hget : configGet cfg path default = .ok res) (ha : res.2 = some a)
    (h2 : Heap)
    (hmut : ∀ b, ¬ Reach res.1 a b → h2.mem b = res.1.mem b) :
    configGetValue cfg path default = .ok (readTree res.1 a) ∧
    configGetValue ⟨h2, cfg.userRoot, cfg.defaultsRoot⟩ path default =
      configGetValue cfg path default := by
  have hdesc : heapDesc cfg.heap := hwf.2
  simp only [configGet] at hget
  cases hA : configGetA cfg path with
  | error e => simp only [hA] at hget; cases hget
  | ok vo =>
    cases vo with
    | some a0 =>
      simp only [hA] at hget
      cases hdc : deepcopyAt cfg.heap a0 with
      | none => simp only [hdc] at hget; cases hget
      | some pr =>
        simp only [hdc] at hget
        cases hget
        injection ha with ha2
        subst ha2
        have ha0N : a0 < cfg.heap.next := by
          unfold configGetA at hA
          cases hW : dotWalk cfg.heap (some cfg.userRoot) (pathSplit path) with
          | error e => simp only [hW] at hA; cases hA
          | ok w =>
            cases w with
            | some x =>
              simp only [hW] at hA
              cases hA
              exact dotWalk_bound cfg.heap hdesc cfg.heap.next
                (pathSplit path) (some cfg.userRoot)
                (fun y hy => by cases hy; exact hu) a0 hW
            | none =>
              simp only [hW] at hA
              exact dotWalk_bound cfg.heap hdesc cfg.heap.next
                (pathSplit path) (some cfg.defaultsRoot)
                (fun y hy => by cases hy; exact hd) a0 hA
        obtain ⟨hrb, hagree⟩ := configGet_copy_core cfg hwf a0 pr hdc h2 hmut
        constructor
        · simp only [configGetValue, hA]
          rw [hrb]
        · have hWu : dotWalk h2 (some cfg.userRoot) (pathSplit path) =
              dotWalk cfg.heap (some cfg.userRoot) (pathSplit path) :=
            (dotWalk_agree cfg.heap h2 hdesc cfg.heap.next
              (fun b hb => (hagree b hb).symm) (pathSplit path)
              (some cfg.userRoot) (fun y hy => by cases hy; exact hu)).symm
          have hWd : dotWalk h2 (some cfg.defaultsRoot) (pathSplit path) =
              dotWalk cfg.heap (some cfg.defaultsRoot) (pathSplit path) :=
            (dotWalk_agree cfg.heap h2 hdesc cfg.heap.next
              (fun b hb => (hagree b hb).symm) (pathSplit path)
              (some cfg.defaultsRoot) (fun y hy => by cases hy; exact hd)).symm
          have hA2 : configGetA ⟨h2, cfg.userRoot, cfg.defaultsRoot⟩ path =
              configGetA cfg path := by
            unfold configGetA
            dsimp only
            rw [hWu, hWd]
          have hread2 : readTree h2 a0 = readTree cfg.heap a0 :=
            (readT_agree cfg.heap h2 hdesc (a0 + 1) a0
              (fun b hb => (hagree b (lt_of_le_of_lt hb ha0N)).symm)).symm
          simp only [configGetValue, hA2, hA]
          rw [hread2]
    | none =>
      simp only [hA] at hget
      cases default with
      | none =>
        cases hget
        cases ha
      | some d =>
        have hdN : d < cfg.heap.next := hdef d rfl
        cases hdc : deepcopyAt cfg.heap d with
        | none => simp only [hdc] at hget; cases hget
        | some pr =>
          simp only [hdc] at hget
          cases hget
          injection ha with ha2
          subst ha2
          obtain ⟨hrb, hagree⟩ := configGet_copy_core cfg hwf d pr hdc h2 hmut
          constructor
          · simp only [configGetValue, hA]
            rw [hrb]
          · have hWu : dotWalk h2 (some cfg.userRoot) (pathSplit path) =
                dotWalk cfg.heap (some cfg.userRoot) (pathSplit path) :=
              (dotWalk_agree cfg.heap h2 hdesc cfg.heap.next
                (fun b hb => (hagree b hb).symm) (pathSplit path)
                (some cfg.userRoot) (fun y hy => by cases hy; exact hu)).symm
            have hWd : dotWalk h2 (some cfg.defaultsRoot) (pathSplit path) =
                dotWalk cfg.heap (some cfg.defaultsRoot) (pathSplit path) :=
              (dotWalk_agree cfg.heap h2 hdesc cfg.heap.next
                (fun b hb => (hagree b hb).symm) (pathSplit path)
                (some cfg.defaultsRoot) (fun y hy => by cases hy; exact hd)).symm
            have hA2 : configGetA ⟨h2, cfg.userRoot, cfg.defaultsRoot⟩ path =
                configGetA cfg path := by
              unfold configGetA
              dsimp only
              rw [hWu, hWd]
            have hread2 : readTree h2 d = readTree cfg.heap d :=
              (readT_agree cfg.heap h2 hdesc (d + 1) d
                (fun b hb => (hagree b (lt_of_le_of_lt hb hdN)).symm)).symm
            simp only [configGetValue, hA2, hA]
            rw [hread2]

/-- Witness for C8 at the concrete configuration `cfgW8`, with the copy
left unmutated (`h2 := resW8.1`). -/
theorem claim_C8_witness :
    configGetValue cfgW8 "k" none = .ok (readTree resW8.1 5) ∧
    configGetValue ⟨resW8.1, cfgW8.userRoot, cfgW8.defaultsRoot⟩ "k" none =
      configGetValue cfgW8 "k" none := by
  refine claim_C8 cfgW8 "k" none ⟨?_, ?_⟩ (by decide) (by decide)
    (fun d h => nomatch h) resW8 5 (by unfold resW8; rfl) rfl resW8.1
    (fun b _ => rfl)
  · intro a n hm
    unfold cfgW8 memW8 at hm
    dsimp only at hm
    split_ifs at hm with h0 h1 h2 h3
    · subst h0; decide
    · subst h1; decide
    · subst h2; decide
    · subst h3; decide
  · intro a n hm c hc
    unfold cfgW8 memW8 at hm
    dsimp only at hm
    split_ifs at hm with h0 h1 h2 h3
    · cases hm; simp [nodeChildren] at hc
    · cases hm
      simp only [nodeChildren, List.mem_singleton] at hc
      subst hc h1
      decide
    · cases hm
      simp only [nodeChildren, List.map_cons, List.map_nil,
        List.mem_singleton] at hc
      subst hc h2
      decide
    · cases hm; simp [nodeChildren] at hc

/-! ### Helper lemmas for claim C5 -/

theorem toNat_ofNat_valid (n : Nat) (h : n.isValidChar) :
    (Char.ofNat n).toNat = n := by
  rw [Char.ofNat, dif_pos h]
  simp [Char.ofNatAux, Char.toNat, UInt32.toNat, BitVec.toNat_ofNatLt]

theorem toNat_ofNat_lt {n : Nat} (h : n < 55296) : (Char.ofNat n).toNat = n :=
  toNat_ofNat_valid n (Or.inl h)

theorem char_eq_of_toNat {c d : Char} (h : c.toNat = d.toNat) : c = d := by
  have h2 : Char.ofNat c.toNat = Char.ofNat d.toNat := by rw [h]
  rwa [Char.ofNat_toNat, Char.ofNat_toNat] at h2

theorem digitChar_toNat {d : Nat} (h : d < 10) : (digitChar d).toNat = 48 + d :=
  toNat_ofNat_lt (by omega)

theorem isDigitChar_digitChar {d : Nat} (h : d < 10) :
    isDigitChar (digitChar d) = true := by
  simp only [isDigitChar, digitChar_toNat h, decide_eq_true_eq]
  omega

theorem digitChar_ne {d : Nat} (h : d < 10) {c : Char}
    (hc : c.toNat < 48 ∨ 57 < c.toNat) : digitChar d ≠ c := by
  intro he
  have h2 := digitChar_toNat h
  rw [he] at h2
  omega

theorem natReprRev_spec : ∀ (fuel n : Nat), n < fuel →
    natReprRev fuel n ≠ [] ∧
    (∀ c ∈ natReprRev fuel n, ∃ d, d < 10 ∧ c = digitChar d) ∧
    digitsToNat (natReprRev fuel n).reverse = n := by
  intro fuel
  induction fuel with
  | zero => intro n h; omega
  | succ f ih =>
    intro n h
    by_cases h10 : n < 10
    · simp only [natReprRev, if_pos h10]
      refine ⟨by simp, ?_, ?_⟩
      · intro c hc
        simp only [List.mem_singleton] at hc
        exact ⟨n, h10, hc⟩
      · simp [digitsToNat, digitChar_toNat h10]
    · simp only [natReprRev, if_neg h10]
      obtain ⟨hne, hdig, hval⟩ := ih (n / 10) (by omega)
      refine ⟨by simp, ?_, ?_⟩
      · intro c hc
        rcases List.mem_cons.mp hc with rfl | hc
        · exact ⟨n % 10, by omega, rfl⟩
        · exact hdig c hc
      · rw [List.reverse_cons]
        unfold digitsToNat
        rw [List.foldl_append]
        simp only [List.foldl_cons, List.foldl_nil]
        unfold digitsToNat at hval
        rw [hval, digitChar_toNat (show n % 10 < 10 by omega)]
        omega

theorem natRepr_ne_nil (n : Nat) : natRepr n ≠ [] := by
  unfold natRepr
  have := (natReprRev_spec (n + 1) n (Nat.lt_succ_self n)).1
  simpa using this

theorem natRepr_digits (n : Nat) :
    ∀ c ∈ natRepr n, ∃ d, d < 10 ∧ c = digitChar d := by
  intro c hc
  exact (natReprRev_spec (n + 1) n (Nat.lt_succ_self n)).2.1 c
    (List.mem_reverse.mp hc)

theorem digitsToNat_natRepr (n : Nat) : digitsToNat (natRepr n) = n :=
  (natReprRev_spec (n + 1) n (Nat.lt_succ_self n)).2.2

theorem takeDigits_app : ∀ (ds rest : List Char),
    (∀ c ∈ ds, ∃ d, d < 10 ∧ c = digitChar d) →
    (∀ c, rest.head? = some c → isDigitChar c = false) →
    takeDigits (ds ++ rest) = (ds, rest) := by
  intro ds
  induction ds with
  | nil =>
    intro rest _ hrest
    cases rest with
    | nil => rfl
    | cons c cs =>
      have hc := hrest c rfl
      simp only [List.nil_append, takeDigits]
      rw [if_neg (by simp [hc])]
  | cons c cs ih =>
    intro rest hds hrest
    obtain ⟨d, hd, rfl⟩ := hds _ (List.mem_cons_self _ _)
    simp only [List.cons_append, takeDigits, isDigitChar_digitChar hd, if_true,
      List.append_eq]
    rw [ih rest (fun c hc => hds c (List.mem_cons_of_mem _ hc)) hrest]

theorem intSafeAfter_head {rest : List Char} (h : intSafeAfter rest = true) :
    ∀ c, rest.head? = some c → isDigitChar c = false := by
  intro c hc
  cases rest with
  | nil => cases hc
  | cons r rs =>
    cases hc
    unfold intSafeAfter at h
    simp only [Bool.not_eq_true', Bool.or_eq_false_iff] at h
    exact h.1.1.1

theorem pNatNum_digits (ds rest : List Char) (hne : ds ≠ [])
    (hds : ∀ c ∈ ds, ∃ d, d < 10 ∧ c = digitChar d)
    (hrest : intSafeAfter rest = true) :
    pNatNum (ds ++ rest) = some (digitsToNat ds, rest) := by
  unfold pNatNum
  rw [takeDigits_app ds rest hds (intSafeAfter_head hrest)]
  cases ds with
  | nil => exact absurd rfl hne
  | cons c cs => simp only [hrest, if_true]

theorem pNatNum_natRepr (n : Nat) (rest : List Char)
    (hrest : intSafeAfter rest = true) :
    pNatNum (natRepr n ++ rest) = some (n, rest) := by
  rw [pNatNum_digits (natRepr n) rest (natRepr_ne_nil n) (natRepr_digits n)
    hrest, digitsToNat_natRepr]

theorem char_valid_toNat (c : Char) :
    c.toNat < 55296 ∨ (57344 ≤ c.toNat ∧ c.toNat < 1114112) := by
  rcases c.valid with h | ⟨h1, h2⟩
  · left
    exact UInt32.toNat_lt_of_lt (by norm_num [UInt32.size]) h
  · right
    exact ⟨UInt32.le_toNat_of_le (by norm_num [UInt32.size]) h1,
      UInt32.toNat_lt_of_lt (by norm_num [UInt32.size]) h2⟩

theorem hexVal_hexDigit {m : Nat} (h : m < 16) : hexVal (hexDigit m) = some m := by
  unfold hexDigit hexVal
  by_cases h10 : m < 10
  · rw [if_pos h10, toNat_ofNat_lt (by omega)]
    rw [if_pos (by omega)]
    congr 1
    omega
  · rw [if_neg h10, toNat_ofNat_lt (by omega)]
    rw [if_neg (by omega), if_pos (by omega)]
    congr 1
    omega

theorem hex4Val_hex4 {n : Nat} (h : n < 65536) :
    hex4Val (hexDigit (n / 4096 % 16)) (hexDigit (n / 256 % 16))
      (hexDigit (n / 16 % 16)) (hexDigit (n % 16)) = some n := by
  unfold hex4Val
  rw [hexVal_hexDigit (by omega), hexVal_hexDigit (by omega),
    hexVal_hexDigit (by omega), hexVal_hexDigit (by omega)]
  show some ((((n / 4096 % 16) * 16 + n / 256 % 16) * 16 + n / 16 % 16) * 16 +
    n % 16) = some n
  congr 1
  omega

theorem pStrBody_quote (rest : List Char) :
    pStrBody ('"' :: rest) = some ([], rest) := by
  rw [pStrBody, if_pos rfl]

theorem pStrBody_backslash (rest : List Char) :
    pStrBody ('\\' :: rest) = pEsc rest := by
  rw [pStrBody, if_neg (by decide), if_pos rfl]

theorem pStrBody_raw {c : Char} (h1 : c ≠ '"') (h2 : c ≠ '\\')
    (h3 : ¬ c.toNat < 32) (rest : List Char) :
    pStrBody (c :: rest) = (pStrBody rest).map (fun p => (c :: p.1, p.2)) := by
  rw [pStrBody, if_neg h1, if_neg h2, if_neg h3]

theorem pEsc_esc {e : Char} (he : e ≠ 'u') {c2 : Char}
    (hc : escChar e = some c2) (rest : List Char) :
    pEsc (e :: rest) = (pStrBody rest).map (fun p => (c2 :: p.1, p.2)) := by
  rw [pEsc, if_neg he]
  simp only [hc]

theorem pEsc_u_single {a b c d : Char} {v : Nat} (hv : hex4Val a b c d = some v)
    (hcond : v < 55296 ∨ 57344 ≤ v) (rest2 : List Char) :
    pEsc ('u' :: a :: b :: c :: d :: rest2) =
      (pStrBody rest2).map (fun p => (Char.ofNat v :: p.1, p.2)) := by
  rw [pEsc, if_pos rfl, pEscU]
  simp only [hv]
  rw [if_pos hcond]

theorem pEsc_u_pair {a b c d a2 b2 c3 d2 : Char} {v w : Nat}
    (hv : hex4Val a b c d = some v) (h1 : ¬(v < 55296 ∨ 57344 ≤ v))
    (h2 : v < 56320) (hw : hex4Val a2 b2 c3 d2 = some w)
    (h3 : 56320 ≤ w ∧ w < 57344) (rest3 : List Char) :
    pEsc ('u' :: a :: b :: c :: d :: '\\' :: 'u' :: a2 :: b2 :: c3 :: d2 :: rest3) =
      (pStrBody rest3).map (fun p =>
        (Char.ofNat (65536 + (v - 55296) * 1024 + (w - 56320)) :: p.1, p.2)) := by
  rw [pEsc, if_pos rfl, pEscU]
  simp only [hv]
  rw [if_neg h1, if_pos h2, pEscPair, if_pos ⟨rfl, rfl⟩]
  simp only [hw]
  rw [if_pos h3]

theorem pStrBody_encChar (c : Char) (tail : List Char)
    (res : List Char × List Char) (h : pStrBody tail = some res) :
    pStrBody (encChar c ++ tail) = some (c :: res.1, res.2) := by
  have hvb := char_valid_toNat c
  simp only [encChar]
  by_cases h1 : c = '"'
  · rw [if_pos h1]
    subst h1
    simp only [List.cons_append, List.nil_append]
    rw [pStrBody_backslash,
      pEsc_esc (by decide) (show escChar '"' = some '"' from rfl), h]
    rfl
  · rw [if_neg h1]
    by_cases h2 : c = '\\'
    · rw [if_pos h2]
      subst h2
      simp only [List.cons_append, List.nil_append]
      rw [pStrBody_backslash,
        pEsc_esc (by decide) (show escChar '\\' = some '\\' from rfl), h]
      rfl
    · rw [if_neg h2]
      by_cases h8 : c.toNat = 8
      · rw [if_pos h8]
        simp only [List.cons_append, List.nil_append]
        rw [pStrBody_backslash,
          pEsc_esc (by decide) (show escChar 'b' = some (Char.ofNat 8) from rfl), h]
        rw [char_eq_of_toNat (show (Char.ofNat 8).toNat = c.toNat by
          rw [h8]; decide)]
        rfl
      · rw [if_neg h8]
        by_cases h9 : c.toNat = 9
        · rw [if_pos h9]
          simp only [List.cons_append, List.nil_append]
          rw [pStrBody_backslash,
            pEsc_esc (by decide) (show escChar 't' = some '\t' from rfl), h]
          rw [char_eq_of_toNat (show '\t'.toNat = c.toNat by rw [h9]; decide)]
          rfl
        · rw [if_neg h9]
          by_cases h10 : c.toNat = 10
          · rw [if_pos h10]
            simp only [List.cons_append, List.nil_append]
            rw [pStrBody_backslash,
              pEsc_esc (by decide) (show escChar 'n' = some '\n' from rfl), h]
            rw [char_eq_of_toNat (show '\n'.toNat = c.toNat by rw [h10]; decide)]
            rfl
          · rw [if_neg h10]
            by_cases h12 : c.toNat = 12
            · rw [if_pos h12]
              simp only [List.cons_append, List.nil_append]
              rw [pStrBody_backslash, pEsc_esc (by decide)
                (show escChar 'f' = some (Char.ofNat 12) from rfl), h]
              rw [char_eq_of_toNat (show (Char.ofNat 12).toNat = c.toNat by
                rw [h12]; decide)]
              rfl
            · rw [if_neg h12]
              by_cases h13 : c.toNat = 13
              · rw [if_pos h13]
                simp only [List.cons_append, List.nil_append]
                rw [pStrBody_backslash, pEsc_esc (by decide)
                  (show escChar 'r' = some (Char.ofNat 13) from rfl), h]
                rw [char_eq_of_toNat (show (Char.ofNat 13).toNat = c.toNat by
                  rw [h13]; decide)]
                rfl
              · rw [if_neg h13]
                by_cases h32 : c.toNat < 32
                · rw [if_pos h32]
                  simp only [hex4, List.cons_append, List.nil_append]
                  rw [pStrBody_backslash,
                    pEsc_u_single (hex4Val_hex4 (by omega)) (by omega), h]
                  simp only [Option.map_some', Char.ofNat_toNat]
                · rw [if_neg h32]
                  by_cases h127 : c.toNat < 127
                  · rw [if_pos h127]
                    simp only [List.cons_append, List.nil_append]
                    rw [pStrBody_raw h1 h2 h32, h]
                    rfl
                  · rw [if_neg h127]
                    by_cases h65536 : c.toNat < 65536
                    · rw [if_pos h65536]
                      simp only [hex4, List.cons_append, List.nil_append]
                      rw [pStrBody_backslash,
                        pEsc_u_single (hex4Val_hex4 (by omega)) (by omega), h]
                      simp only [Option.map_some', Char.ofNat_toNat]
                    · rw [if_neg h65536]
                      simp only [hex4, List.cons_append, List.nil_append,
                        List.append_assoc]
                      rw [pStrBody_backslash]
                      rw [pEsc_u_pair (hex4Val_hex4 (by omega)) (by omega)
                        (by omega) (hex4Val_hex4 (by omega)) (by omega), h]
                      simp only [Option.map_some']
                      rw [show 65536 +
                          (55296 + (c.toNat - 65536) / 1024 - 55296) * 1024 +
                          (56320 + (c.toNat - 65536) % 1024 - 56320) = c.toNat by
                        omega, Char.ofNat_toNat]

theorem pStrBody_enc : ∀ (cs rest : List Char),
    pStrBody (cs.flatMap encChar ++ '"' :: rest) = some (cs, rest) := by
  intro cs
  induction cs with
  | nil =>
    intro rest
    simp only [List.flatMap_nil, List.nil_append]
    exact pStrBody_quote rest
  | cons c cs ih =>
    intro rest
    simp only [List.flatMap_cons, List.append_assoc]
    exact pStrBody_encChar c _ (cs, rest) (ih rest)

theorem pIntNum_intRepr (n : Int) (rest : List Char)
    (hrest : intSafeAfter rest = true) :
    pIntNum (intRepr n ++ rest) = some (n, rest) := by
  unfold intRepr
  by_cases hn : n < 0
  · rw [if_pos hn]
    simp only [List.cons_append, pIntNum, if_pos rfl]
    rw [pNatNum_natRepr (-n).toNat rest hrest]
    simp only [Option.map_some']
    have : ((-n).toNat : Int) = -n := Int.toNat_of_nonneg (by omega)
    rw [this]
    simp
  · rw [if_neg hn]
    cases hnr : natRepr n.toNat with
    | nil => exact absurd hnr (natRepr_ne_nil n.toNat)
    | cons c cs =>
      obtain ⟨d, hd, rfl⟩ := natRepr_digits n.toNat c (hnr ▸ List.mem_cons_self c cs)
      simp only [List.cons_append, pIntNum]
      rw [if_neg (digitChar_ne hd (by left; decide))]
      rw [show digitChar d :: (cs ++ rest) = (digitChar d :: cs) ++ rest from rfl,
        ← hnr, pNatNum_natRepr n.toNat rest hrest]
      simp only [Option.map_some']
      rw [Int.toNat_of_nonneg (by omega)]

theorem skipWs_cons_not_ws {c : Char}
    (h : ¬(c = ' ' ∨ c = '\t' ∨ c = '\n' ∨ c = Char.ofNat 13))
    (cs : List Char) : skipWs (c :: cs) = c :: cs := by
  rw [skipWs, if_neg h]

theorem skipWs_replicate (n : Nat) (cs : List Char) :
    skipWs (List.replicate n ' ' ++ cs) = skipWs cs := by
  induction n with
  | zero => simp
  | succ n ih =>
    rw [List.replicate_succ, List.cons_append, skipWs, if_pos (Or.inl rfl)]
    exact ih

theorem skipWs_nlIndent (lvl : Nat) (cs : List Char) :
    skipWs (nlIndent lvl ++ cs) = skipWs cs := by
  unfold nlIndent
  rw [List.cons_append, skipWs, if_pos (by right; right; left; rfl)]
  exact skipWs_replicate _ cs

theorem digitChar_not_ws {d : Nat} (hd : d < 10) :
    ¬(digitChar d = ' ' ∨ digitChar d = '\t' ∨ digitChar d = '\n' ∨
      digitChar d = Char.ofNat 13) := by
  rintro (h | h | h | h)
  · exact digitChar_ne hd (by left; decide) h
  · exact digitChar_ne hd (by left; decide) h
  · exact digitChar_ne hd (by left; decide) h
  · exact digitChar_ne hd (by left; decide) h

theorem skipWs_fmtVal (lvl : Nat) (w : JVal) (cs : List Char) :
    skipWs (fmtVal lvl w ++ cs) = fmtVal lvl w ++ cs := by
  cases w with
  | null =>
    rw [show fmtVal lvl .null = ['n', 'u', 'l', 'l'] from rfl]
    rw [List.cons_append]
    exact skipWs_cons_not_ws (by decide) _
  | bool b =>
    cases b with
    | true =>
      rw [show fmtVal lvl (.bool true) = ['t', 'r', 'u', 'e'] from rfl,
        List.cons_append]
      exact skipWs_cons_not_ws (by decide) _
    | false =>
      rw [show fmtVal lvl (.bool false) = ['f', 'a', 'l', 's', 'e'] from rfl,
        List.cons_append]
      exact skipWs_cons_not_ws (by decide) _
  | num n =>
    rw [show fmtVal lvl (.num n) = intRepr n from rfl]
    unfold intRepr
    by_cases hn : n < 0
    · rw [if_pos hn, List.cons_append]
      exact skipWs_cons_not_ws (by decide) _
    · rw [if_neg hn]
      cases hnr : natRepr n.toNat with
      | nil => exact absurd hnr (natRepr_ne_nil _)
      | cons c cs2 =>
        obtain ⟨d, hd, rfl⟩ :=
          natRepr_digits n.toNat c (hnr ▸ List.mem_cons_self c cs2)
        rw [List.cons_append]
        exact skipWs_cons_not_ws (digitChar_not_ws hd) _
  | str s =>
    rw [show fmtVal lvl (.str s) = encStr s from rfl]
    unfold encStr
    rw [List.cons_append]
    exact skipWs_cons_not_ws (by decide) _
  | arr xs =>
    cases xs with
    | nil =>
      rw [show fmtVal lvl (.arr []) = ['[', ']'] from rfl, List.cons_append]
      exact skipWs_cons_not_ws (by decide) _
    | cons x xs =>
      rw [show fmtVal lvl (.arr (x :: xs)) = '[' :: nlIndent (lvl + 1) ++
        fmtVal (lvl + 1) x ++ fmtArrItems (lvl + 1) xs ++ nlIndent lvl ++ [']']
        from rfl]
      simp only [List.cons_append]
      exact skipWs_cons_not_ws (by decide) _
  | obj kvs =>
    cases kvs with
    | nil =>
      rw [show fmtVal lvl (.obj []) = [lbrace, rbrace] from rfl, List.cons_append]
      exact skipWs_cons_not_ws (by decide) _
    | cons q qs =>
      rw [show fmtVal lvl (.obj (q :: qs)) = lbrace :: nlIndent (lvl + 1) ++
        fmtEntry (lvl + 1) q ++ fmtObjItems (lvl + 1) qs ++ nlIndent lvl ++
        [rbrace] from rfl]
      simp only [List.cons_append]
      exact skipWs_cons_not_ws (by decide) _

theorem insertSorted_perm (p : String × JVal) :
    ∀ l, List.Perm (insertSorted p l) (p :: l) := by
  intro l
  induction l with
  | nil => exact List.Perm.refl _
  | cons q qs ih =>
    unfold insertSorted
    by_cases h : p.1 < q.1
    · rw [if_pos h]
    · rw [if_neg h]
      exact (ih.cons q).trans (List.Perm.swap p q qs)

theorem sortEntries_perm : ∀ es, List.Perm (sortEntries es) es := by
  intro es
  induction es with
  | nil => exact List.Perm.refl _
  | cons q qs ih =>
    rw [show sortEntries (q :: qs) = insertSorted q (sortEntries qs) from rfl]
    exact (insertSorted_perm q (sortEntries qs)).trans (ih.cons q)

theorem insertSorted_pairwise (p : String × JVal) :
    ∀ l, List.Pairwise (fun a b : String × JVal => a.1 ≤ b.1) l →
    List.Pairwise (fun a b : String × JVal => a.1 ≤ b.1) (insertSorted p l) := by
  intro l
  induction l with
  | nil => intro _; simp [insertSorted]
  | cons q qs ih =>
    intro hp
    rw [List.pairwise_cons] at hp
    obtain ⟨hq, hqs⟩ := hp
    unfold insertSorted
    by_cases h : p.1 < q.1
    · rw [if_pos h]
      rw [List.pairwise_cons]
      refine ⟨?_, List.Pairwise.cons hq hqs⟩
      intro b hb
      rcases List.mem_cons.mp hb with rfl | hb
      · exact le_of_lt h
      · exact le_trans (le_of_lt h) (hq b hb)
    · rw [if_neg h]
      rw [List.pairwise_cons]
      refine ⟨?_, ih hqs⟩
      intro b hb
      rcases List.mem_cons.mp ((insertSorted_perm p qs).mem_iff.mp hb) with rfl | hb
      · exact le_of_not_lt h
      · exact hq b hb

theorem sortEntries_pairwise (es : List (String × JVal)) :
    List.Pairwise (fun a b : String × JVal => a.1 ≤ b.1) (sortEntries es) := by
  induction es with
  | nil => simp [sortEntries]
  | cons q qs ih =>
    rw [show sortEntries (q :: qs) = insertSorted q (sortEntries qs) from rfl]
    exact insertSorted_pairwise q _ ih

theorem sortEntries_strict {es : List (String × JVal)}
    (hnd : (es.map (fun q => q.1)).Nodup) :
    List.Pairwise (fun a b : String × JVal => a.1 < b.1) (sortEntries es) := by
  have hle := sortEntries_pairwise es
  have hnd2 : ((sortEntries es).map (fun q => q.1)).Nodup :=
    (((sortEntries_perm es).map (fun q => q.1)).nodup_iff).mpr hnd
  have hne : List.Pairwise (fun a b : String × JVal => a.1 ≠ b.1)
      (sortEntries es) := List.pairwise_map.mp hnd2
  exact (hle.and hne).imp (fun hab => lt_of_le_of_ne hab.1 hab.2)

theorem sortEntries_sorted_id : ∀ {es : List (String × JVal)},
    List.Pairwise (fun a b : String × JVal => a.1 < b.1) es →
    sortEntries es = es := by
  intro es
  induction es with
  | nil => intro _; rfl
  | cons q qs ih =>
    intro hp
    rw [List.pairwise_cons] at hp
    obtain ⟨hq, hqs⟩ := hp
    rw [show sortEntries (q :: qs) = insertSorted q (sortEntries qs) from rfl,
      ih hqs]
    cases qs with
    | nil => rfl
    | cons q2 qs2 =>
      unfold insertSorted
      rw [if_pos (hq q2 (List.mem_cons_self _ _))]

theorem upsert_not_mem {m : List (String × JVal)} {k : String}
    (h : ∀ q ∈ m, q.1 ≠ k) (v : JVal) : upsert m k v = m ++ [(k, v)] := by
  unfold upsert
  rw [if_neg]
  intro hc
  simp only [List.any_eq_true, decide_eq_true_eq] at hc
  obtain ⟨q, hq, hk⟩ := hc
  exact h q hq hk

theorem mkDict_id_aux : ∀ (ps acc : List (String × JVal)),
    ((acc ++ ps).map (fun q => q.1)).Nodup →
    ps.foldl (fun m q => upsert m q.1 q.2) acc = acc ++ ps := by
  intro ps
  induction ps with
  | nil => intro acc _; simp
  | cons p ps ih =>
    intro acc hnd
    simp only [List.foldl_cons]
    have hnd2 : ((acc ++ [p] ++ ps).map (fun q => q.1)).Nodup := by
      rw [show acc ++ [p] ++ ps = acc ++ p :: ps by simp]
      exact hnd
    have hp1 : ∀ q ∈ acc, q.1 ≠ p.1 := by
      intro q hq he
      rw [List.map_append, List.map_cons, List.nodup_append] at hnd
      exact hnd.2.2 (List.mem_map_of_mem _ hq)
        (by rw [he]; exact List.mem_cons_self _ _)
    rw [show upsert acc p.1 p.2 = acc ++ [(p.1, p.2)] from upsert_not_mem hp1 p.2,
      show ((p.1, p.2) : String × JVal) = p from rfl, ih (acc ++ [p]) hnd2]
    simp

theorem mkDict_id {ps : List (String × JVal)}
    (hnd : (ps.map (fun q => q.1)).Nodup) : mkDict ps = ps := by
  unfold mkDict
  rw [mkDict_id_aux ps [] (by simpa using hnd)]
  simp

theorem mem_upsert_or {q : String × JVal} {m : List (String × JVal)}
    {k : String} {v : JVal} (h : q ∈ upsert m k v) : q ∈ m ∨ q = (k, v) := by
  unfold upsert at h
  by_cases hc : m.any (fun q => q.1 = k)
  · rw [if_pos hc] at h
    obtain ⟨q0, hq0, he⟩ := List.mem_map.mp h
    by_cases h0 : q0.1 = k
    · rw [if_pos h0] at he
      exact Or.inr he.symm
    · rw [if_neg h0] at he
      exact Or.inl (he ▸ hq0)
  · rw [if_neg hc] at h
    rcases List.mem_append.mp h with h | h
    · exact Or.inl h
    · exact Or.inr (List.mem_singleton.mp h)

theorem mem_mkDict_aux : ∀ (ps acc : List (String × JVal)) (q : String × JVal),
    q ∈ ps.foldl (fun m q2 => upsert m q2.1 q2.2) acc → q ∈ acc ∨ q ∈ ps := by
  intro ps
  induction ps with
  | nil =>
    intro acc q h
    simp only [List.foldl_nil] at h
    exact Or.inl h
  | cons p ps ih =>
    intro acc q h
    simp only [List.foldl_cons] at h
    rcases ih _ q h with h2 | h2
    · rcases mem_upsert_or h2 with h3 | h3
      · exact Or.inl h3
      · right
        rw [h3, show ((p.1, p.2) : String × JVal) = p from rfl]
        exact List.mem_cons_self _ _
    · exact Or.inr (List.mem_cons_of_mem _ h2)

theorem mem_mkDict {ps : List (String × JVal)} {q : String × JVal}
    (h : q ∈ mkDict ps) : q ∈ ps := by
  rcases mem_mkDict_aux ps [] q h with h2 | h2
  · cases h2
  · exact h2

theorem upsert_keys (m : List (String × JVal)) (k : String) (v : JVal) :
    (upsert m k v).map (fun q => q.1) =
      if m.any (fun q => q.1 = k) then m.map (fun q => q.1)
      else m.map (fun q => q.1) ++ [k] := by
  unfold upsert
  by_cases hc : m.any (fun q => q.1 = k)
  · rw [if_pos hc, if_pos hc, List.map_map]
    refine List.map_congr_left ?_
    intro q _
    by_cases h0 : q.1 = k
    · simp only [Function.comp, if_pos h0]
      exact h0.symm
    · simp only [Function.comp, if_neg h0]
  · rw [if_neg hc, if_neg hc, List.map_append]
    rfl

theorem mkDict_keys_nodup_aux : ∀ (ps acc : List (String × JVal)),
    (acc.map (fun q => q.1)).Nodup →
    ((ps.foldl (fun m q2 => upsert m q2.1 q2.2) acc).map (fun q => q.1)).Nodup := by
  intro ps
  induction ps with
  | nil =>
    intro acc h
    simpa using h
  | cons p ps ih =>
    intro acc h
    simp only [List.foldl_cons]
    apply ih
    rw [upsert_keys]
    by_cases hc : acc.any (fun q => q.1 = p.1)
    · rw [if_pos hc]
      exact h
    · rw [if_neg hc]
      rw [List.nodup_append]
      refine ⟨h, List.nodup_singleton _, ?_⟩
      intro x hx hx2
      rw [List.mem_singleton] at hx2
      subst hx2
      obtain ⟨q0, hq0, he⟩ := List.mem_map.mp hx
      apply hc
      simp only [List.any_eq_true, decide_eq_true_eq]
      exact ⟨q0, hq0, he⟩

theorem mkDict_keys_nodup (ps : List (String × JVal)) :
    ((mkDict ps).map (fun q => q.1)).Nodup :=
  mkDict_keys_nodup_aux ps [] (by simp)

theorem jsize_pos : ∀ w : JVal, 0 < jsize w := by
  intro w
  cases w <;> simp [jsize]

theorem jlistSize_mem : ∀ {xs : List JVal} {x : JVal}, x ∈ xs →
    jsize x + 1 ≤ jlistSize xs := by
  intro xs
  induction xs with
  | nil => intro x h; cases h
  | cons y ys ih =>
    intro x h
    rcases List.mem_cons.mp h with rfl | h
    · simp only [jlistSize]
      omega
    · have := ih h
      simp only [jlistSize]
      omega

theorem jentsSize_mem : ∀ {kvs : List (String × JVal)} {q : String × JVal},
    q ∈ kvs → jsize q.2 + 1 ≤ jentsSize kvs := by
  intro kvs
  induction kvs with
  | nil => intro q h; cases h
  | cons p ps ih =>
    intro q h
    rcases List.mem_cons.mp h with rfl | h
    · simp only [jentsSize]
      omega
    · have := ih h
      simp only [jentsSize]
      omega

theorem canonList_eq_map : ∀ xs : List JVal, canonList xs = xs.map canon := by
  intro xs
  induction xs with
  | nil => rfl
  | cons x xs ih => rw [show canonList (x :: xs) = canon x :: canonList xs
      from rfl, ih, List.map_cons]

theorem canonEntries_eq_map : ∀ kvs : List (String × JVal),
    canonEntries kvs = kvs.map (fun q => (q.1, canon q.2)) := by
  intro kvs
  induction kvs with
  | nil => rfl
  | cons q qs ih => rw [show canonEntries (q :: qs) =
      (q.1, canon q.2) :: canonEntries qs from rfl, ih, List.map_cons]

theorem canonEntries_keys (kvs : List (String × JVal)) :
    (canonEntries kvs).map (fun q => q.1) = kvs.map (fun q => q.1) := by
  rw [canonEntries_eq_map, List.map_map]
  rfl

theorem canon_canonical : ∀ (n : Nat) (v : JVal), jsize v ≤ n → JWF v →
    JCanon (canon v) := by
  intro n
  induction n with
  | zero =>
    intro v h _
    have := jsize_pos v
    omega
  | succ n ih =>
    intro v hs hwf
    cases v with
    | null => exact JCanon.null
    | bool b => exact JCanon.bool b
    | num m => exact JCanon.num m
    | str s => exact JCanon.str s
    | arr xs =>
      rw [show canon (.arr xs) = .arr (canonList xs) from rfl, canonList_eq_map]
      refine JCanon.arr ?_
      intro y hy
      obtain ⟨x, hx, rfl⟩ := List.mem_map.mp hy
      have hwx : JWF x := by cases hwf with | arr h => exact h x hx
      have hsx : jsize x ≤ n := by
        have h1 := jlistSize_mem hx
        have h2 : jsize (JVal.arr xs) = 2 + jlistSize xs := rfl
        omega
      exact ih x hsx hwx
    | obj kvs =>
      rw [show canon (.obj kvs) = .obj (sortEntries (canonEntries kvs)) from rfl]
      cases hwf with
      | obj hnd hvals =>
        refine JCanon.obj ?_ ?_
        · apply sortEntries_strict
          rw [canonEntries_keys]
          exact hnd
        · intro q hq
          have hq2 : q ∈ canonEntries kvs :=
            (sortEntries_perm (canonEntries kvs)).subset hq
          rw [canonEntries_eq_map] at hq2
          obtain ⟨p, hp, rfl⟩ := List.mem_map.mp hq2
          have hsp : jsize p.2 ≤ n := by
            have h1 := jentsSize_mem hp
            have h2 : jsize (JVal.obj kvs) = 2 + jentsSize kvs := rfl
            omega
          exact ih p.2 hsp (hvals p hp)

theorem canon_fix : ∀ (n : Nat) (w : JVal), jsize w ≤ n → JCanon w →
    canon w = w := by
  intro n
  induction n with
  | zero =>
    intro w h _
    have := jsize_pos w
    omega
  | succ n ih =>
    intro w hs hc
    cases w with
    | null => rfl
    | bool b => rfl
    | num m => rfl
    | str s => rfl
    | arr xs =>
      rw [show canon (.arr xs) = .arr (canonList xs) from rfl, canonList_eq_map]
      have : xs.map canon = xs := by
        have h2 : jsize (JVal.arr xs) = 2 + jlistSize xs := rfl
        calc xs.map canon = xs.map id := by
              refine List.map_congr_left ?_
              intro x hx
              have hcx : JCanon x := by cases hc with | arr h => exact h x hx
              have h1 := jlistSize_mem hx
              exact ih x (by omega) hcx
          _ = xs := List.map_id _
      rw [this]
    | obj kvs =>
      rw [show canon (.obj kvs) = .obj (sortEntries (canonEntries kvs)) from rfl,
        canonEntries_eq_map]
      cases hc with
      | obj hpw hvals =>
        have h2 : jsize (JVal.obj kvs) = 2 + jentsSize kvs := rfl
        have hEnt : kvs.map (fun q => (q.1, canon q.2)) = kvs := by
          calc kvs.map (fun q => (q.1, canon q.2)) = kvs.map id := by
                refine List.map_congr_left ?_
                intro q hq
                have h1 := jentsSize_mem hq
                rw [ih q.2 (by omega) (hvals q hq)]
                rfl
            _ = kvs := List.map_id _
        rw [hEnt, sortEntries_sorted_id hpw]

theorem canon_canon {v : JVal} (h : JWF v) : canon (canon v) = canon v :=
  canon_fix (jsize (canon v)) (canon v) (le_refl _)
    (canon_canonical (jsize v) v (le_refl _) h)

theorem fmt_len : ∀ (n : Nat) (w : JVal), jsize w ≤ n → ∀ lvl : Nat,
    jsize w ≤ (fmtVal lvl w).length := by
  intro n
  induction n with
  | zero =>
    intro w h
    have := jsize_pos w
    omega
  | succ n ih =>
    intro w hs lvl
    cases w with
    | null =>
      rw [show fmtVal lvl .null = ['n', 'u', 'l', 'l'] from rfl]
      simp [jsize]
    | bool b =>
      cases b with
      | true =>
        rw [show fmtVal lvl (.bool true) = ['t', 'r', 'u', 'e'] from rfl]
        simp [jsize]
      | false =>
        rw [show fmtVal lvl (.bool false) = ['f', 'a', 'l', 's', 'e'] from rfl]
        simp [jsize]
    | num m =>
      rw [show fmtVal lvl (.num m) = intRepr m from rfl]
      rw [show jsize (JVal.num m) = 1 from rfl]
      unfold intRepr
      by_cases hm : m < 0
      · rw [if_pos hm]
        simp
      · rw [if_neg hm]
        have := List.length_pos.mpr (natRepr_ne_nil m.toNat)
        omega
    | str s =>
      rw [show fmtVal lvl (.str s) = encStr s from rfl,
        show jsize (JVal.str s) = 1 from rfl]
      unfold encStr
      simp
    | arr xs =>
      cases xs with
      | nil =>
        rw [show fmtVal lvl (.arr []) = ['[', ']'] from rfl]
        simp [jsize, jlistSize]
      | cons x xs2 =>
        have h2 : jsize (JVal.arr (x :: xs2)) =
            2 + (jsize x + 1 + jlistSize xs2) := rfl
        have hlist : ∀ ys : List JVal, (∀ y ∈ ys, jsize y ≤ n) → ∀ lvl2 : Nat,
            jlistSize ys ≤ (fmtArrItems lvl2 ys).length := by
          intro ys
          induction ys with
          | nil =>
            intro _ lvl2
            simp [jlistSize, fmtArrItems]
          | cons y ys ihy =>
            intro hall lvl2
            rw [show fmtArrItems lvl2 (y :: ys) = ',' :: nlIndent lvl2 ++
              fmtVal lvl2 y ++ fmtArrItems lvl2 ys from rfl]
            have hy := ih y (hall y (List.mem_cons_self _ _)) lvl2
            have hys := ihy (fun y2 hy2 => hall y2 (List.mem_cons_of_mem _ hy2))
              lvl2
            simp only [jlistSize, List.length_cons, List.length_append,
              nlIndent, List.length_replicate]
            omega
        have hx := ih x (by
          have := jlistSize_mem (List.mem_cons_self x xs2)
          simp only [jlistSize] at this ⊢
          omega) (lvl + 1)
        have hxs := hlist xs2 (fun y hy => by
          have := jlistSize_mem (List.mem_cons_of_mem x hy)
          simp only [jlistSize] at this
          omega) (lvl + 1)
        rw [show fmtVal lvl (.arr (x :: xs2)) = '[' :: nlIndent (lvl + 1) ++
          fmtVal (lvl + 1) x ++ fmtArrItems (lvl + 1) xs2 ++ nlIndent lvl ++
          [']'] from rfl, h2]
        simp only [List.length_cons, List.length_append, nlIndent,
          List.length_replicate, List.length_singleton]
        omega
    | obj kvs =>
      cases kvs with
      | nil =>
        rw [show fmtVal lvl (.obj []) = [lbrace, rbrace] from rfl]
        simp [jsize, jentsSize]
      | cons q qs =>
        have h2 : jsize (JVal.obj (q :: qs)) =
            2 + (jsize q.2 + 1 + jentsSize qs) := rfl
        have hentry : ∀ (p : String × JVal), jsize p.2 ≤ n → ∀ lvl2 : Nat,
            jsize p.2 + 2 ≤ (fmtEntry lvl2 p).length := by
          intro p hp lvl2
          obtain ⟨pk, pv⟩ := p
          rw [show fmtEntry lvl2 (pk, pv) =
            encStr pk ++ ':' :: ' ' :: fmtVal lvl2 pv from rfl]
          have := ih pv hp lvl2
          simp only [List.length_append, List.length_cons]
          omega
        have hlist : ∀ ps : List (String × JVal),
            (∀ p ∈ ps, jsize p.2 ≤ n) → ∀ lvl2 : Nat,
            jentsSize ps ≤ (fmtObjItems lvl2 ps).length := by
          intro ps
          induction ps with
          | nil =>
            intro _ lvl2
            simp [jentsSize, fmtObjItems]
          | cons p ps ihp =>
            intro hall lvl2
            rw [show fmtObjItems lvl2 (p :: ps) = ',' :: nlIndent lvl2 ++
              fmtEntry lvl2 p ++ fmtObjItems lvl2 ps from rfl]
            have hp := hentry p (hall p (List.mem_cons_self _ _)) lvl2
            have hps := ihp (fun p2 hp2 => hall p2 (List.mem_cons_of_mem _ hp2))
              lvl2
            simp only [jentsSize, List.length_cons, List.length_append,
              nlIndent, List.length_replicate]
            omega
        have hq := hentry q (by
          have := jentsSize_mem (List.mem_cons_self q qs)
          simp only [jentsSize] at this
          omega) (lvl + 1)
        have hqs := hlist qs (fun p hp => by
          have := jentsSize_mem (List.mem_cons_of_mem q hp)
          simp only [jentsSize] at this
          omega) (lvl + 1)
        rw [show fmtVal lvl (.obj (q :: qs)) = lbrace :: nlIndent (lvl + 1) ++
          fmtEntry (lvl + 1) q ++ fmtObjItems (lvl + 1) qs ++ nlIndent lvl ++
          [rbrace] from rfl, h2]
        simp only [List.length_cons, List.length_append, nlIndent,
          List.length_replicate, List.length_singleton]
        omega

theorem parser_wf : ∀ f : Nat,
    (∀ cs v rest, pVal f cs = some (v, rest) → JWF v) ∧
    (∀ cs v rest, pArrStart f cs = some (v, rest) → JWF v) ∧
    (∀ cs vs rest, pArrTail f cs = some (vs, rest) → ∀ v ∈ vs, JWF v) ∧
    (∀ cs q rest, pEntry f cs = some (q, rest) → JWF q.2) ∧
    (∀ cs v rest, pObjStart f cs = some (v, rest) → JWF v) ∧
    (∀ cs qs rest, pObjTail f cs = some (qs, rest) → ∀ q ∈ qs, JWF q.2) := by
  intro f
  induction f using Nat.strong_induction_on with
  | _ f ih =>
    refine ⟨?_, ?_, ?_, ?_, ?_, ?_⟩
    · intro cs v rest h
      cases f with
      | zero => simp [pVal] at h
      | succ g =>
        cases cs with
        | nil => simp [pVal] at h
        | cons c rest2 =>
          simp only [pVal] at h
          by_cases hn : c = 'n'
          · rw [if_pos hn] at h
            obtain ⟨cs2, _, h2⟩ := Option.map_eq_some'.mp h
            cases h2
            exact JWF.null
          · rw [if_neg hn] at h
            by_cases ht : c = 't'
            · rw [if_pos ht] at h
              obtain ⟨cs2, _, h2⟩ := Option.map_eq_some'.mp h
              cases h2
              exact JWF.bool true
            · rw [if_neg ht] at h
              by_cases hf : c = 'f'
              · rw [if_pos hf] at h
                obtain ⟨cs2, _, h2⟩ := Option.map_eq_some'.mp h
                cases h2
                exact JWF.bool false
              · rw [if_neg hf] at h
                by_cases hq : c = '"'
                · rw [if_pos hq] at h
                  obtain ⟨p, _, h2⟩ := Option.map_eq_some'.mp h
                  cases h2
                  exact JWF.str _
                · rw [if_neg hq] at h
                  by_cases hb : c = '['
                  · rw [if_pos hb] at h
                    exact (ih g (Nat.lt_succ_self g)).2.1 _ _ _ h
                  · rw [if_neg hb] at h
                    by_cases ho : c = lbrace
                    · rw [if_pos ho] at h
                      exact (ih g (Nat.lt_succ_self g)).2.2.2.2.1 _ _ _ h
                    · rw [if_neg ho] at h
                      obtain ⟨p, _, h2⟩ := Option.map_eq_some'.mp h
                      cases h2
                      exact JWF.num _
    · intro cs v rest h
      cases cs with
      | nil => simp [pArrStart] at h
      | cons c rest2 =>
        cases f with
        | zero =>
          simp only [pArrStart] at h
          by_cases hc : c = ']'
          · rw [if_pos hc] at h
            cases h
            exact JWF.arr (fun x hx => absurd hx (List.not_mem_nil x))
          · rw [if_neg hc] at h
            cases h
        | succ g =>
          simp only [pArrStart] at h
          by_cases hc : c = ']'
          · rw [if_pos hc] at h
            cases h
            exact JWF.arr (fun x hx => absurd hx (List.not_mem_nil x))
          · rw [if_neg hc] at h
            cases hv : pVal g (c :: rest2) with
            | none => simp only [hv] at h; cases h
            | some p =>
              obtain ⟨v1, cs1⟩ := p
              simp only [hv] at h
              cases htl : pArrTail g (skipWs cs1) with
              | none => simp only [htl] at h; cases h
              | some p2 =>
                obtain ⟨vs, cs2⟩ := p2
                simp only [htl] at h
                cases h
                refine JWF.arr ?_
                intro x hx
                rcases List.mem_cons.mp hx with rfl | hx
                · exact (ih g (Nat.lt_succ_self g)).1 _ _ _ hv
                · exact (ih g (Nat.lt_succ_self g)).2.2.1 _ _ _ htl x hx
    · intro cs vs rest h
      cases cs with
      | nil => simp [pArrTail] at h
      | cons c rest2 =>
        cases f with
        | zero =>
          simp only [pArrTail] at h
          by_cases hc : c = ']'
          · rw [if_pos hc] at h
            cases h
            exact fun v hv => absurd hv (List.not_mem_nil v)
          · rw [if_neg hc] at h
            cases h
        | succ g =>
          simp only [pArrTail] at h
          by_cases hc : c = ']'
          · rw [if_pos hc] at h
            cases h
            exact fun v hv => absurd hv (List.not_mem_nil v)
          · rw [if_neg hc] at h
            by_cases hcm : c = ','
            · rw [if_pos hcm] at h
              cases hv : pVal g (skipWs rest2) with
              | none => simp only [hv] at h; cases h
              | some p =>
                obtain ⟨v1, cs1⟩ := p
                simp only [hv] at h
                cases htl : pArrTail g (skipWs cs1) with
                | none => simp only [htl] at h; cases h
                | some p2 =>
                  obtain ⟨vs2, cs2⟩ := p2
                  simp only [htl] at h
                  cases h
                  intro v hv2
                  rcases List.mem_cons.mp hv2 with rfl | hv2
                  · exact (ih g (Nat.lt_succ_self g)).1 _ _ _ hv
                  · exact (ih g (Nat.lt_succ_self g)).2.2.1 _ _ _ htl v hv2
            · rw [if_neg hcm] at h
              cases h
    · intro cs q rest h
      cases f with
      | zero => simp [pEntry] at h
      | succ g =>
        cases cs with
        | nil => simp [pEntry] at h
        | cons c rest2 =>
          simp only [pEntry] at h
          by_cases hc : c = '"'
          · rw [if_pos hc] at h
            cases hsb : pStrBody rest2 with
            | none => simp only [hsb] at h; cases h
            | some p =>
              obtain ⟨kchars, cs1⟩ := p
              simp only [hsb] at h
              cases hsw : skipWs cs1 with
              | nil => simp only [hsw] at h; cases h
              | cons c2 cs2 =>
                simp only [hsw] at h
                by_cases hc2 : c2 = ':'
                · rw [if_pos hc2] at h
                  cases hv : pVal g (skipWs cs2) with
                  | none => simp only [hv] at h; cases h
                  | some p2 =>
                    obtain ⟨v2, cs3⟩ := p2
                    simp only [hv] at h
                    cases h
                    exact (ih g (Nat.lt_succ_self g)).1 _ _ _ hv
                · rw [if_neg hc2] at h
                  cases h
          · rw [if_neg hc] at h
            cases h
    · intro cs v rest h
      cases f with
      | zero => simp [pObjStart] at h
      | succ g =>
        cases cs with
        | nil => simp [pObjStart] at h
        | cons c rest2 =>
          simp only [pObjStart] at h
          by_cases hc : c = rbrace
          · rw [if_pos hc] at h
            cases h
            exact JWF.obj (by simp) (fun q hq => absurd hq (List.not_mem_nil q))
          · rw [if_neg hc] at h
            cases he : pEntry g (c :: rest2) with
            | none => simp only [he] at h; cases h
            | some p =>
              obtain ⟨q1, cs1⟩ := p
              simp only [he] at h
              cases htl : pObjTail g (skipWs cs1) with
              | none => simp only [htl] at h; cases h
              | some p2 =>
                obtain ⟨qs, cs2⟩ := p2
                simp only [htl] at h
                cases h
                refine JWF.obj (mkDict_keys_nodup _) ?_
                intro q hq
                rcases List.mem_cons.mp (mem_mkDict hq) with rfl | hq2
                · exact (ih g (Nat.lt_succ_self g)).2.2.2.1 _ _ _ he
                · exact (ih g (Nat.lt_succ_self g)).2.2.2.2.2 _ _ _ htl q hq2
    · intro cs qs rest h
      cases f with
      | zero => simp [pObjTail] at h
      | succ g =>
        cases cs with
        | nil => simp [pObjTail] at h
        | cons c rest2 =>
          simp only [pObjTail] at h
          by_cases hc : c = rbrace
          · rw [if_pos hc] at h
            cases h
            exact fun q hq => absurd hq (List.not_mem_nil q)
          · rw [if_neg hc] at h
            by_cases hcm : c = ','
            · rw [if_pos hcm] at h
              cases he : pEntry g (skipWs rest2) with
              | none => simp only [he] at h; cases h
              | some p =>
                obtain ⟨q1, cs1⟩ := p
                simp only [he] at h
                cases htl : pObjTail g (skipWs cs1) with
                | none => simp only [htl] at h; cases h
                | some p2 =>
                  obtain ⟨qs2, cs2⟩ := p2
                  simp only [htl] at h
                  cases h
                  intro q hq
                  rcases List.mem_cons.mp hq with rfl | hq2
                  · exact (ih g (Nat.lt_succ_self g)).2.2.2.1 _ _ _ he
                  · exact (ih g (Nat.lt_succ_self g)).2.2.2.2.2 _ _ _ htl q hq2
            · rw [if_neg hcm] at h
              cases h

theorem jsonLoads_wf {s : String} {v : JVal} (h : jsonLoads s = some v) :
    JWF v := by
  unfold jsonLoads at h
  cases hv : pVal (s.data.length + 1) (skipWs s.data) with
  | none => simp only [hv] at h; cases h
  | some p =>
    obtain ⟨v1, rest⟩ := p
    simp only [hv] at h
    by_cases hr : skipWs rest = []
    · rw [if_pos hr] at h
      cases h
      exact (parser_wf (s.data.length + 1)).1 _ _ _ hv
    · rw [if_neg hr] at h
      cases h

theorem pVal_other {c : Char} (h1 : c ≠ 'n') (h2 : c ≠ 't') (h3 : c ≠ 'f')
    (h4 : c ≠ '"') (h5 : c ≠ '[') (h6 : c ≠ lbrace) (g : Nat)
    (rest2 : List Char) :
    pVal (g + 1) (c :: rest2) =
      (pIntNum (c :: rest2)).map (fun p => (JVal.num p.1, p.2)) := by
  simp only [pVal]
  rw [if_neg h1, if_neg h2, if_neg h3, if_neg h4, if_neg h5, if_neg h6]

theorem pVal_str (g : Nat) (rest2 : List Char) :
    pVal (g + 1) ('"' :: rest2) =
      (pStrBody rest2).map (fun p => (JVal.str (String.mk p.1), p.2)) := by
  simp only [pVal]
  simp

theorem pVal_arr (g : Nat) (rest2 : List Char) :
    pVal (g + 1) ('[' :: rest2) = pArrStart g (skipWs rest2) := by
  simp only [pVal]
  simp

theorem pVal_obj (g : Nat) (rest2 : List Char) :
    pVal (g + 1) (lbrace :: rest2) = pObjStart g (skipWs rest2) := by
  simp only [pVal]
  simp [lbrace]

theorem pVal_null (g : Nat) (rest : List Char) :
    pVal (g + 1) (['n', 'u', 'l', 'l'] ++ rest) = some (JVal.null, rest) := by
  simp only [List.cons_append, List.nil_append, pVal]
  simp [dropLit]

theorem pVal_true (g : Nat) (rest : List Char) :
    pVal (g + 1) (['t', 'r', 'u', 'e'] ++ rest) = some (JVal.bool true, rest) := by
  simp only [List.cons_append, List.nil_append, pVal]
  simp [dropLit]

theorem pVal_false (g : Nat) (rest : List Char) :
    pVal (g + 1) (['f', 'a', 'l', 's', 'e'] ++ rest) =
      some (JVal.bool false, rest) := by
  simp only [List.cons_append, List.nil_append, pVal]
  simp [dropLit]

theorem pArrStart_rb (f : Nat) (rest : List Char) :
    pArrStart f (']' :: rest) = some (JVal.arr [], rest) := by
  cases f with
  | zero => simp [pArrStart]
  | succ g => simp [pArrStart]

theorem pArrStart_step {g : Nat} {c : Char} {rest2 cs1 cs2 : List Char}
    {v1 : JVal} {vs : List JVal} (hc : c ≠ ']')
    (hv : pVal g (c :: rest2) = some (v1, cs1))
    (ht : pArrTail g (skipWs cs1) = some (vs, cs2)) :
    pArrStart (g + 1) (c :: rest2) = some (JVal.arr (v1 :: vs), cs2) := by
  simp only [pArrStart]
  rw [if_neg hc]
  simp only [hv, ht]

theorem pArrTail_rb (f : Nat) (rest : List Char) :
    pArrTail f (']' :: rest) = some ([], rest) := by
  cases f with
  | zero => simp [pArrTail]
  | succ g => simp [pArrTail]

theorem pArrTail_step {g : Nat} {rest2 cs1 cs2 : List Char} {v1 : JVal}
    {vs : List JVal} (hv : pVal g (skipWs rest2) = some (v1, cs1))
    (ht : pArrTail g (skipWs cs1) = some (vs, cs2)) :
    pArrTail (g + 1) (',' :: rest2) = some (v1 :: vs, cs2) := by
  simp only [pArrTail]
  simp [hv, ht]

theorem pEntry_step {g : Nat} {rest2 cs1 cs2 cs3 : List Char}
    {kchars : List Char} {v : JVal} (hsb : pStrBody rest2 = some (kchars, cs1))
    (hsw : skipWs cs1 = ':' :: cs2) (hv : pVal g (skipWs cs2) = some (v, cs3)) :
    pEntry (g + 1) ('"' :: rest2) = some ((String.mk kchars, v), cs3) := by
  simp only [pEntry]
  simp [hsb, hsw, hv]

theorem pObjStart_rb (g : Nat) (rest : List Char) :
    pObjStart (g + 1) (rbrace :: rest) = some (JVal.obj [], rest) := by
  simp only [pObjStart]
  simp

theorem pObjStart_step {g : Nat} {c : Char} {rest2 cs1 cs2 : List Char}
    {q1 : String × JVal} {qs : List (String × JVal)} (hc : c ≠ rbrace)
    (he : pEntry g (c :: rest2) = some (q1, cs1))
    (ht : pObjTail g (skipWs cs1) = some (qs, cs2)) :
    pObjStart (g + 1) (c :: rest2) = some (JVal.obj (mkDict (q1 :: qs)), cs2) := by
  simp only [pObjStart]
  rw [if_neg hc]
  simp only [he, ht]

theorem pObjTail_rb (g : Nat) (rest : List Char) :
    pObjTail (g + 1) (rbrace :: rest) = some ([], rest) := by
  simp only [pObjTail]
  simp

theorem pObjTail_step {g : Nat} {rest2 cs1 cs2 : List Char}
    {q1 : String × JVal} {qs : List (String × JVal)}
    (he : pEntry g (skipWs rest2) = some (q1, cs1))
    (ht : pObjTail g (skipWs cs1) = some (qs, cs2)) :
    pObjTail (g + 1) (',' :: rest2) = some (q1 :: qs, cs2) := by
  simp only [pObjTail]
  simp [rbrace, he, ht]

theorem fmtVal_cons : ∀ (lvl : Nat) (w : JVal), ∃ c cs,
    fmtVal lvl w = c :: cs ∧ c ≠ ']' := by
  intro lvl w
  cases w with
  | null => exact ⟨'n', _, rfl, by decide⟩
  | bool b =>
    cases b with
    | true => exact ⟨'t', _, rfl, by decide⟩
    | false => exact ⟨'f', _, rfl, by decide⟩
  | num n =>
    rw [show fmtVal lvl (.num n) = intRepr n from rfl]
    unfold intRepr
    by_cases hn : n < 0
    · rw [if_pos hn]
      exact ⟨'-', _, rfl, by decide⟩
    · rw [if_neg hn]
      cases hnr : natRepr n.toNat with
      | nil => exact absurd hnr (natRepr_ne_nil _)
      | cons c cs2 =>
        obtain ⟨d, hd, rfl⟩ :=
          natRepr_digits n.toNat c (hnr ▸ List.mem_cons_self c cs2)
        exact ⟨digitChar d, cs2, rfl, digitChar_ne hd (by right; decide)⟩
  | str s => exact ⟨'"', _, rfl, by decide⟩
  | arr xs =>
    cases xs with
    | nil => exact ⟨'[', _, rfl, by decide⟩
    | cons x xs2 => exact ⟨'[', _, rfl, by decide⟩
  | obj kvs =>
    cases kvs with
    | nil => exact ⟨lbrace, _, rfl, by decide⟩
    | cons q qs => exact ⟨lbrace, _, rfl, by decide⟩

theorem skipWs_space (cs : List Char) : skipWs (' ' :: cs) = skipWs cs := by
  rw [skipWs, if_pos (Or.inl rfl)]

theorem skipWs_fmtEntry (lvl : Nat) (q : String × JVal) (cs : List Char) :
    skipWs (fmtEntry lvl q ++ cs) = fmtEntry lvl q ++ cs := by
  obtain ⟨k, v⟩ := q
  rw [show fmtEntry lvl (k, v) = encStr k ++ ':' :: ' ' :: fmtVal lvl v from rfl,
    show encStr k = '"' :: k.data.flatMap encChar ++ ['"'] from rfl]
  simp only [List.cons_append, List.append_assoc]
  exact skipWs_cons_not_ws (by decide) _

theorem fmt_roundtrip : ∀ f : Nat,
    (∀ (w : JVal) (lvl : Nat) (rest : List Char), JCanon w → jsize w ≤ f →
      intSafeAfter rest = true →
      pVal f (fmtVal lvl w ++ rest) = some (w, rest)) ∧
    (∀ (xs : List JVal) (lvlI lvlC : Nat) (rest : List Char),
      (∀ x ∈ xs, JCanon x) → jlistSize xs + 1 ≤ f →
      pArrTail f (skipWs (fmtArrItems lvlI xs ++ (nlIndent lvlC ++ ']' :: rest))) =
        some (xs, rest)) ∧
    (∀ (q : String × JVal) (lvl : Nat) (rest : List Char), JCanon q.2 →
      jsize q.2 + 1 ≤ f → intSafeAfter rest = true →
      pEntry f (fmtEntry lvl q ++ rest) = some (q, rest)) ∧
    (∀ (qs : List (String × JVal)) (lvlI lvlC : Nat) (rest : List Char),
      (∀ q ∈ qs, JCanon q.2) → jentsSize qs + 1 ≤ f →
      pObjTail f
        (skipWs (fmtObjItems lvlI qs ++ (nlIndent lvlC ++ rbrace :: rest))) =
        some (qs, rest)) := by
  intro f
  induction f using Nat.strong_induction_on with
  | _ f ih =>
    refine ⟨?_, ?_, ?_, ?_⟩
    · intro w lvl rest hcanon hfuel hsafe
      cases w with
      | null =>
        cases f with
        | zero => exact absurd hfuel (by simp [jsize])
        | succ g =>
          rw [show fmtVal lvl .null = ['n', 'u', 'l', 'l'] from rfl]
          exact pVal_null g rest
      | bool b =>
        cases f with
        | zero => exact absurd hfuel (by simp [jsize])
        | succ g =>
          cases b with
          | true =>
            rw [show fmtVal lvl (.bool true) = ['t', 'r', 'u', 'e'] from rfl]
            exact pVal_true g rest
          | false =>
            rw [show fmtVal lvl (.bool false) = ['f', 'a', 'l', 's', 'e'] from rfl]
            exact pVal_false g rest
      | num m =>
        cases f with
        | zero => exact absurd hfuel (by simp [jsize])
        | succ g =>
          rw [show fmtVal lvl (.num m) = intRepr m from rfl]
          by_cases hm : m < 0
          · rw [show intRepr m = '-' :: natRepr (-m).toNat from by
              unfold intRepr; rw [if_pos hm], List.cons_append]
            rw [pVal_other (by decide) (by decide) (by decide) (by decide)
              (by decide) (by decide)]
            rw [show '-' :: (natRepr (-m).toNat ++ rest) = intRepr m ++ rest from by
              unfold intRepr; rw [if_pos hm]; rfl]
            rw [pIntNum_intRepr m rest hsafe]
            rfl
          · rw [show intRepr m = natRepr m.toNat from by
              unfold intRepr; rw [if_neg hm]]
            cases hnr : natRepr m.toNat with
            | nil => exact absurd hnr (natRepr_ne_nil _)
            | cons c cs2 =>
              obtain ⟨d, hd, hdc⟩ :=
                natRepr_digits m.toNat c (hnr ▸ List.mem_cons_self c cs2)
              subst hdc
              rw [List.cons_append]
              rw [pVal_other (digitChar_ne hd (by right; decide))
                (digitChar_ne hd (by right; decide))
                (digitChar_ne hd (by right; decide))
                (digitChar_ne hd (by left; decide))
                (digitChar_ne hd (by right; decide))
                (digitChar_ne hd (by right; decide))]
              rw [show digitChar d :: (cs2 ++ rest) =
                (digitChar d :: cs2) ++ rest from rfl, ← hnr]
              rw [show natRepr m.toNat ++ rest = intRepr m ++ rest from by
                unfold intRepr; rw [if_neg hm]]
              rw [pIntNum_intRepr m rest hsafe]
              rfl
      | str s =>
        cases f with
        | zero => exact absurd hfuel (by simp [jsize])
        | succ g =>
          rw [show fmtVal lvl (.str s) = encStr s from rfl,
            show encStr s = '"' :: s.data.flatMap encChar ++ ['"'] from rfl]
          simp only [List.cons_append, List.append_assoc, List.singleton_append,
            List.nil_append]
          rw [pVal_str, pStrBody_enc s.data rest]
          rfl
      | arr xs =>
        cases xs with
        | nil =>
          cases f with
          | zero => exact absurd hfuel (by simp [jsize, jlistSize])
          | succ g =>
            rw [show fmtVal lvl (.arr []) = ['[', ']'] from rfl]
            rw [show (['[', ']'] : List Char) ++ rest = '[' :: ']' :: rest
              from rfl]
            rw [pVal_arr, skipWs_cons_not_ws (by decide)]
            exact pArrStart_rb g rest
        | cons x xs2 =>
          have h1 := jsize_pos x
          have hsz : 2 + (jsize x + 1 + jlistSize xs2) ≤ f := by
            have h2 : jsize (JVal.arr (x :: xs2)) =
              2 + (jsize x + 1 + jlistSize xs2) := rfl
            omega
          have hcanx : JCanon x := by
            cases hcanon with | arr h => exact h x (List.mem_cons_self _ _)
          have hcanxs : ∀ x2 ∈ xs2, JCanon x2 := by
            intro x2 hx2
            cases hcanon with | arr h => exact h x2 (List.mem_cons_of_mem _ hx2)
          cases f with
          | zero => omega
          | succ g =>
            cases g with
            | zero => omega
            | succ g2 =>
              rw [show fmtVal lvl (.arr (x :: xs2)) = '[' :: nlIndent (lvl + 1) ++
                fmtVal (lvl + 1) x ++ fmtArrItems (lvl + 1) xs2 ++ nlIndent lvl ++
                [']'] from rfl]
              simp only [List.cons_append, List.append_assoc,
                List.singleton_append]
              rw [pVal_arr, skipWs_nlIndent, skipWs_fmtVal]
              have hsafetail : intSafeAfter (fmtArrItems (lvl + 1) xs2 ++
                  (nlIndent lvl ++ ']' :: rest)) = true := by
                cases xs2 with
                | nil => rfl
                | cons x3 xs3 => rfl
              have hpv := (ih g2 (by omega)).1 x (lvl + 1)
                (fmtArrItems (lvl + 1) xs2 ++ (nlIndent lvl ++ ']' :: rest))
                hcanx (by omega) hsafetail
              have hat := (ih g2 (by omega)).2.1 xs2 (lvl + 1) lvl rest hcanxs
                (by omega)
              obtain ⟨c0, cs0, hfx, hc0⟩ := fmtVal_cons (lvl + 1) x
              rw [hfx, List.cons_append] at hpv ⊢
              exact pArrStart_step hc0 hpv hat
      | obj kvs =>
        cases kvs with
        | nil =>
          cases f with
          | zero => exact absurd hfuel (by simp [jsize, jentsSize])
          | succ g =>
            rw [show fmtVal lvl (.obj []) = [lbrace, rbrace] from rfl]
            rw [show ([lbrace, rbrace] : List Char) ++ rest =
              lbrace :: rbrace :: rest from rfl]
            rw [pVal_obj, skipWs_cons_not_ws (by decide)]
            cases g with
            | zero =>
              exact absurd hfuel (by simp [jsize, jentsSize])
            | succ g2 => exact pObjStart_rb g2 rest
        | cons q qs =>
          have h1 := jsize_pos q.2
          have hsz : 2 + (jsize q.2 + 1 + jentsSize qs) ≤ f := by
            have h2 : jsize (JVal.obj (q :: qs)) =
              2 + (jsize q.2 + 1 + jentsSize qs) := rfl
            omega
          have hcanq : JCanon q.2 := by
            cases hcanon with | obj hpw hvals => exact hvals q (List.mem_cons_self _ _)
          have hcanqs : ∀ q2 ∈ qs, JCanon q2.2 := by
            intro q2 hq2
            cases hcanon with
            | obj hpw hvals => exact hvals q2 (List.mem_cons_of_mem _ hq2)
          have hnd : ((q :: qs).map (fun e => e.1)).Nodup := by
            cases hcanon with
            | obj hpw hvals =>
              exact List.pairwise_map.mpr (hpw.imp (fun h => ne_of_lt h))
          cases f with
          | zero => omega
          | succ g =>
            cases g with
            | zero => omega
            | succ g2 =>
              rw [show fmtVal lvl (.obj (q :: qs)) = lbrace :: nlIndent (lvl + 1) ++
                fmtEntry (lvl + 1) q ++ fmtObjItems (lvl + 1) qs ++ nlIndent lvl ++
                [rbrace] from rfl]
              simp only [List.cons_append, List.append_assoc,
                List.singleton_append]
              rw [pVal_obj, skipWs_nlIndent, skipWs_fmtEntry]
              have hsafetail : intSafeAfter (fmtObjItems (lvl + 1) qs ++
                  (nlIndent lvl ++ rbrace :: rest)) = true := by
                cases qs with
                | nil => rfl
                | cons q3 qs3 => rfl
              have hpe := (ih g2 (by omega)).2.2.1 q (lvl + 1)
                (fmtObjItems (lvl + 1) qs ++ (nlIndent lvl ++ rbrace :: rest))
                hcanq (by omega) hsafetail
              have hot := (ih g2 (by omega)).2.2.2 qs (lvl + 1) lvl rest hcanqs
                (by omega)
              obtain ⟨k, v⟩ := q
              rw [show fmtEntry (lvl + 1) (k, v) =
                encStr k ++ ':' :: ' ' :: fmtVal (lvl + 1) v from rfl,
                show encStr k = '"' :: k.data.flatMap encChar ++ ['"'] from rfl]
                at hpe ⊢
              simp only [List.cons_append, List.append_assoc,
                List.singleton_append] at hpe ⊢
              have hstep := pObjStart_step (show ('"' : Char) ≠ rbrace by decide)
                hpe hot
              rw [mkDict_id hnd] at hstep
              exact hstep
    · intro xs lvlI lvlC rest hcan hfuel
      cases xs with
      | nil =>
        rw [show fmtArrItems lvlI [] = [] from rfl, List.nil_append,
          skipWs_nlIndent, skipWs_cons_not_ws (by decide)]
        exact pArrTail_rb f rest
      | cons x xs2 =>
        have h1 := jsize_pos x
        have hsz : jsize x + 1 + jlistSize xs2 + 1 ≤ f := by
          have h2 : jlistSize (x :: xs2) = jsize x + 1 + jlistSize xs2 := rfl
          omega
        cases f with
        | zero => omega
        | succ g =>
          rw [show fmtArrItems lvlI (x :: xs2) = ',' :: nlIndent lvlI ++
            fmtVal lvlI x ++ fmtArrItems lvlI xs2 from rfl]
          simp only [List.cons_append, List.append_assoc]
          rw [skipWs_cons_not_ws (by decide)]
          have hsafetail : intSafeAfter (fmtArrItems lvlI xs2 ++
              (nlIndent lvlC ++ ']' :: rest)) = true := by
            cases xs2 with
            | nil => rfl
            | cons x3 xs3 => rfl
          have hpv := (ih g (Nat.lt_succ_self g)).1 x lvlI
            (fmtArrItems lvlI xs2 ++ (nlIndent lvlC ++ ']' :: rest))
            (hcan x (List.mem_cons_self _ _)) (by omega) hsafetail
          have hat := (ih g (Nat.lt_succ_self g)).2.1 xs2 lvlI lvlC rest
            (fun x2 hx2 => hcan x2 (List.mem_cons_of_mem _ hx2)) (by omega)
          exact pArrTail_step (by rw [skipWs_nlIndent, skipWs_fmtVal]; exact hpv)
            hat
    · intro q lvl rest hcan hfuel hsafe
      obtain ⟨k, v⟩ := q
      have h1 := jsize_pos v
      cases f with
      | zero => omega
      | succ g =>
        rw [show fmtEntry lvl (k, v) = encStr k ++ ':' :: ' ' :: fmtVal lvl v
          from rfl,
          show encStr k = '"' :: k.data.flatMap encChar ++ ['"'] from rfl]
        simp only [List.cons_append, List.append_assoc, List.singleton_append]
        have hfuel2 : jsize v + 1 ≤ g + 1 := hfuel
        have hv : pVal g (skipWs (' ' :: (fmtVal lvl v ++ rest))) =
            some (v, rest) := by
          rw [skipWs_space, skipWs_fmtVal]
          exact (ih g (Nat.lt_succ_self g)).1 v lvl rest hcan (by omega) hsafe
        exact pEntry_step (pStrBody_enc k.data _)
          (skipWs_cons_not_ws (by decide) _) hv
    · intro qs lvlI lvlC rest hcan hfuel
      cases qs with
      | nil =>
        cases f with
        | zero => simp [jentsSize] at hfuel
        | succ g =>
          rw [show fmtObjItems lvlI [] = [] from rfl, List.nil_append,
            skipWs_nlIndent, skipWs_cons_not_ws (by decide)]
          exact pObjTail_rb g rest
      | cons q qs2 =>
        have h1 := jsize_pos q.2
        have hsz : jsize q.2 + 1 + jentsSize qs2 + 1 ≤ f := by
          have h2 : jentsSize (q :: qs2) = jsize q.2 + 1 + jentsSize qs2 := rfl
          omega
        cases f with
        | zero => omega
        | succ g =>
          rw [show fmtObjItems lvlI (q :: qs2) = ',' :: nlIndent lvlI ++
            fmtEntry lvlI q ++ fmtObjItems lvlI qs2 from rfl]
          simp only [List.cons_append, List.append_assoc]
          rw [skipWs_cons_not_ws (by decide)]
          have hsafetail : intSafeAfter (fmtObjItems lvlI qs2 ++
              (nlIndent lvlC ++ rbrace :: rest)) = true := by
            cases qs2 with
            | nil => rfl
            | cons q3 qs3 => rfl
          have hpe := (ih g (Nat.lt_succ_self g)).2.2.1 q lvlI
            (fmtObjItems lvlI qs2 ++ (nlIndent lvlC ++ rbrace :: rest))
            (hcan q (List.mem_cons_self _ _)) (by omega) hsafetail
          have hot := (ih g (Nat.lt_succ_self g)).2.2.2 qs2 lvlI lvlC rest
            (fun q2 hq2 => hcan q2 (List.mem_cons_of_mem _ hq2)) (by omega)
          exact pObjTail_step
            (by rw [skipWs_nlIndent, skipWs_fmtEntry]; exact hpe) hot

theorem jsonLoads_formatJson {v : JVal} (h : JWF v) :
    jsonLoads (formatJson v) = some (canon v) := by
  unfold jsonLoads formatJson
  rw [show (String.mk (fmtVal 0 (canon v))).data = fmtVal 0 (canon v) from rfl]
  have hca : JCanon (canon v) := canon_canonical (jsize v) v (le_refl _) h
  have hlen : jsize (canon v) ≤ (fmtVal 0 (canon v)).length + 1 := by
    have := fmt_len (jsize (canon v)) (canon v) (le_refl _) 0
    omega
  have hpv : pVal ((fmtVal 0 (canon v)).length + 1)
      (fmtVal 0 (canon v) ++ []) = some (canon v, []) :=
    (fmt_roundtrip _).1 (canon v) 0 [] hca hlen rfl
  rw [List.append_nil] at hpv
  rw [show skipWs (fmtVal 0 (canon v)) = fmtVal 0 (canon v) from by
    have h2 := skipWs_fmtVal 0 (canon v) []
    rwa [List.append_nil] at h2]
  rw [hpv]
  rfl

theorem setContent_idem {ev2 : EvidenceContentState}
    (hjson : pySuffix ev2.name = "json") {v : JVal}
    (hcv : ev2.content = some (formatJson v))
    (hrt : jsonLoads (formatJson v) = some (canon v))
    (hfix : formatJson (canon v) = formatJson v) :
    setContent ev2 ev2.content false = some ev2 := by
  rw [hcv]
  simp only [setContent]
  rw [if_pos hjson, hrt]
  simp only [Option.map_some', hfix, Bool.false_eq_true, if_false]
  rw [← hcv]

/-- C5 (corrected): for every evidence whose name has extension `json`
and every input string the model's `json.loads` accepts, `set_content`
stores `format_json(json.loads(s))` — pretty JSON with 2-space indent,
sorted keys and separators `(",", ": ")` (the code's separators, not the
`(", ", ": ")` the specification claims) — reading the content back gives
that canonical text byte for byte, parsing the stored text returns the
key-sorted value, and `set_content` is idempotent on its own output. -/
theorem claim_C5 (ev : EvidenceContentState) (hjson : pySuffix ev.name = "json")
    (s : String) (v : JVal) (hparse : jsonLoads s = some v) (sign : Bool)
    (ev2 : EvidenceContentState)
    (hset : setContent ev (some s) sign = some ev2) :
    ev2.content = some (formatJson v) ∧
    jsonLoads (formatJson v) = some (canon v) ∧
    formatJson (canon v) = formatJson v ∧
    setContent ev2 ev2.content false = some ev2 := by
  have hwf : JWF v := jsonLoads_wf hparse
  have hrt : jsonLoads (formatJson v) = some (canon v) := jsonLoads_formatJson hwf
  have hfix : formatJson (canon v) = formatJson v := by
    unfold formatJson
    rw [canon_canon hwf]
  simp only [setContent] at hset
  rw [if_pos hjson, hparse] at hset
  simp only [Option.map_some'] at hset
  cases sign with
  | false =>
    simp only [Bool.false_eq_true, if_false] at hset
    cases hset
    exact ⟨rfl, hrt, hfix, setContent_idem hjson rfl hrt hfix⟩
  | true =>
    simp only [if_true] at hset
    cases hset
    exact ⟨rfl, hrt, hfix, setContent_idem hjson rfl hrt hfix⟩

/-- C5 counterexample to the specification's wording: the code passes
separators `(",", ": ")` to `json.dumps`, not the `(", ", ": ")` the
specification states; on input `[1, 2]` the stored content has no space
after the comma, while the spec's canonicaliser would put one before
each item newline. -/
theorem claim_C5_counterexample :
    (setContent { name := "e.json" } (some "[1, 2]") false).map
        (fun e2 => e2.content) = some (some "[\n  1,\n  2\n]") ∧
    formatJsonSpec (JVal.arr [JVal.num 1, JVal.num 2]) = "[\n  1, \n  2\n]" ∧
    ("[\n  1,\n  2\n]" : String) ≠ "[\n  1, \n  2\n]" :=
  ⟨by rfl, by rfl, by decide⟩

/-- Witness for C5 at the concrete evidence `evW5` and input `sW5`. -/
theorem claim_C5_witness :
    ev2W5.content = some (formatJson vW5) ∧
    jsonLoads (formatJson vW5) = some (canon vW5) ∧
    formatJson (canon vW5) = formatJson vW5 ∧
    setContent ev2W5 ev2W5.content false = some ev2W5 :=
  claim_C5 evW5 (by rfl) sW5 vW5 (by rfl) false ev2W5 (by unfold ev2W5; rfl)

end AuditreeSpec
